import Mathlib

/-!
# Verification of the OAT file writer (oat_writer.cc)

A shallow embedding of the OAT file writer: the two-pass layout/write
pipeline of `OatWriter` (constructor = layout pass 1, `Write` = pass 2),
its per-method visitors, the per-class descriptors (`OatClass`), the
per-module descriptors (`OatDexFile`), the deduplicating blob tables and
the running content checksum.

Modelling conventions:
* byte blobs are `List Nat`;
* the output stream records a position and the sequence of emitted chunks
  (each chunk knows its byte size); `Seek` moves the position without
  emitting; an optional budget models I/O failure of `WriteFully`;
* `CHECK(...)` failures (release aborts) are modelled by `Option`:
  a violated check yields `none`; `DCHECK`s (debug-only) are either proved
  as theorems or embedded in separate `...Dbg` variants of the write
  visitors mirroring the `kIsDebugBuild` blocks of the source;
* the running content checksum is modelled as the trace of chunks folded
  into it (`UpdateChecksum` calls), in order.
-/

namespace ArtOat

/-- A byte blob (contents of a `std::vector<uint8_t>`, a string, ...). -/
abbrev Blob := List Nat

/-- `RoundUp(x, n)`: round `x` up to the next multiple of `n`. -/
def roundUp (x n : Nat) : Nat := ((x + n - 1) / n) * n

/-- Target instruction sets, from the `InstructionSet` enum.  `kNone` is
omitted: `GetInstructionSetAlignment` is fatal on it and the writer is never
run with it. -/
inductive InstructionSet
  | kArm
  | kThumb2
  | kArm64
  | kMips
  | kX86
  | kX86_64
deriving DecidableEq, Inhabited

/-- Modelled from the spec: the per-architecture mandatory code-alignment
constants (`kArmAlignment` and friends, declared in headers that are not in
src/); every architecture defines a mandatory code-alignment boundary
(4, 8 or 16 bytes depending on instruction set). -/
def instructionSetAlignment : InstructionSet → Nat
  | .kArm => 8
  | .kThumb2 => 8
  | .kArm64 => 16
  | .kMips => 16
  | .kX86 => 16
  | .kX86_64 => 16

/-- Modelled from the spec: `CompiledCode::AlignCode` (compiled_method.cc,
not in src/) rounds an offset up to the architecture's code alignment. -/
def alignCode (offset : Nat) (isa : InstructionSet) : Nat :=
  roundUp offset (instructionSetAlignment isa)

/-- Modelled from the spec: `CompiledCode::CodeDelta` (compiled_method.cc,
not in src/): Thumb2 code entry points carry a +1 thumb bit, all other
architectures have delta 0. -/
def codeDelta : InstructionSet → Nat
  | .kThumb2 => 1
  | _ => 0

/-- `kPageSize`. -/
def kPageSize : Nat := 4096

/-- `kStackAlignment`. -/
def kStackAlignment : Nat := 16

/-- `sizeof(OatHeader)`: the fixed-size part of the header record.  The
claims never depend on the exact value, only on its being a fixed constant. -/
def sizeofOatHeader : Nat := 80

/-- `sizeof(OatMethodHeader)`: holds the `uint32_t` code length. -/
def sizeofOatMethodHeader : Nat := 4

/-- `sizeof(OatMethodOffsets)`: seven `uint32_t` fields. -/
def sizeofOatMethodOffsets : Nat := 28

/-- `sizeof(status_)`: the class-status field of an `OatClass`. -/
def sizeofClassStatus : Nat := 4

/-- `sizeof(type_)`: the compiled-state tag field of an `OatClass`. -/
def sizeofClassType : Nat := 4

/-- A compiled-method record handed over by the compiler driver
(`CompiledMethod`, external collaborator). -/
structure CompiledMethod where
  quickCode : Option Blob
  portableCode : Option Blob
  frameSizeInBytes : Nat
  coreSpillMask : Nat
  fpSpillMask : Nat
  mappingTable : Blob
  vmapTable : Blob
  gcMap : Blob
  isa : InstructionSet
deriving DecidableEq, Inhabited

/-- The class-data item of one class inside a dex file: field counts and the
member indices of the directly- and virtually-dispatched methods, in
declaration order. -/
structure ClassData where
  numStaticFields : Nat
  numInstanceFields : Nat
  directMethods : List Nat
  virtualMethods : List Nat
deriving DecidableEq, Inhabited

/-- One class definition of a dex file; `classData = none` models a class
with `NULL` class data (e.g. a marker interface). -/
structure ClassDef where
  classData : Option ClassData
deriving DecidableEq, Inhabited

/-- One input module (dex file). `contents` are its raw bytes
(`GetHeader().file_size_` bytes starting at the header). -/
structure DexFile where
  location : Blob
  locationChecksum : Nat
  contents : Blob
  classDefs : List ClassDef
deriving DecidableEq, Inhabited

/-- Everything the writer consumes: the dex files, the image-location
arguments of the constructor, and the compiler driver's query interface
(compiled methods keyed by (dex-file index, method index), class status
keyed by (dex-file index, class-def index), image flag, instruction set,
trampoline stub blobs). -/
structure OatInput where
  dexFiles : List DexFile
  imageFileLocationOatChecksum : Nat
  imageFileLocationOatBegin : Nat
  imageFileLocation : Blob
  isImage : Bool
  isa : InstructionSet
  compiledMethod : Nat → Nat → Option CompiledMethod
  classStatus : Nat → Nat → Nat
  trampolines : List Blob
deriving Inhabited

/-- The three deduplicated side-table kinds (one `MapBinder` each in the
source: `GcMapBinder`, `MappingTableBinder`, `VmapTableBinder`). -/
inductive MapKind
  | gc
  | mapping
  | vmap
deriving DecidableEq, Inhabited

/-- The per-method offset record (`OatMethodOffsets`). -/
structure OatMethodOffsets where
  codeOffset : Nat
  frameSizeInBytes : Nat
  coreSpillMask : Nat
  fpSpillMask : Nat
  mappingTableOffset : Nat
  vmapTableOffset : Nat
  gcMapOffset : Nat
deriving DecidableEq, Inhabited

/-- The default-constructed (all-zero) `OatMethodOffsets`, as produced by
`method_offsets_.resize(...)`. -/
def OatMethodOffsets.zero : OatMethodOffsets := ⟨0, 0, 0, 0, 0, 0, 0⟩

/-- The compiled-state tag of a class (`OatClassType`). -/
inductive OatClassType
  | kOatClassAllCompiled
  | kOatClassSomeCompiled
  | kOatClassNoneCompiled
deriving DecidableEq, Inhabited

/-- One chunk of committed output.  Each `WriteFully` call of the source
emits exactly one chunk; `UpdateChecksum` calls fold the same vocabulary of
chunks into the running checksum. -/
inductive Chunk
  | oatHeader
  | imageFileLocation (b : Blob)
  | u32 (v : Nat)
  | u32seq (vs : List Nat)
  | locationData (b : Blob)
  | dexContents (b : Blob)
  | classStatus (v : Nat)
  | classType (t : OatClassType)
  | bitmapSizeField (v : Nat)
  | bitmap (bits : List Bool) (sizeBytes : Nat)
  | methodOffsetsArr (l : List OatMethodOffsets)
  | padding (b : Blob)
  | methodHeader (codeSize : Nat)
  | code (b : Blob)
  | mapBlob (kind : MapKind) (b : Blob)
  | trampoline (b : Blob)
deriving DecidableEq, Inhabited

/-- The byte size of a chunk. -/
def Chunk.size : Chunk → Nat
  | .oatHeader => sizeofOatHeader
  | .imageFileLocation b => b.length
  | .u32 _ => 4
  | .u32seq vs => 4 * vs.length
  | .locationData b => b.length
  | .dexContents b => b.length
  | .classStatus _ => sizeofClassStatus
  | .classType _ => sizeofClassType
  | .bitmapSizeField _ => 4
  | .bitmap _ sizeBytes => sizeBytes
  | .methodOffsetsArr l => sizeofOatMethodOffsets * l.length
  | .padding b => b.length
  | .methodHeader _ => sizeofOatMethodHeader
  | .code b => b.length
  | .mapBlob _ b => b.length
  | .trampoline b => b.length

/-- Modelled from the spec: `BitVector::GetSizeOf` (base/bit_vector.h, not
in src/): storage is whole 32-bit words covering the requested bits. -/
def bitVectorSizeOf (numBits : Nat) : Nat := ((numBits + 31) / 32) * 4

/-- The per-class descriptor (`OatWriter::OatClass`). -/
structure OatClass where
  offset : Nat
  compiledMethods : List (Option CompiledMethod)
  status : Nat
  type : OatClassType
  methodBitmapSize : Nat
  methodBitmap : Option (List Bool)
  oatMethodOffsetsOffsetsFromOatClass : List Nat
  methodOffsets : List OatMethodOffsets
deriving DecidableEq, Inhabited

/-- Helper of the `OatClass` constructor: the running
`oat_method_offsets_offset_from_oat_class` values, one per method slot
(0 for slots without a compiled method). -/
def oatMethodOffsetsOffsets (cms : List (Option CompiledMethod)) (start : Nat) : List Nat :=
  match cms with
  | [] => []
  | none :: rest => 0 :: oatMethodOffsetsOffsets rest start
  | some _ :: rest => start :: oatMethodOffsetsOffsets rest (start + sizeofOatMethodOffsets)

/-- The `OatClass` constructor.  Decides the compiled-state tag from the
method counts, allocates the bitmap only for `kOatClassSomeCompiled`, and
reserves one zeroed `OatMethodOffsets` record per non-null compiled method.
`none` models the `CHECK_LE(num_non_null_compiled_methods, num_methods)`
abort. -/
def OatClass.make (offset : Nat) (compiledMethods : List (Option CompiledMethod))
    (numNonNullCompiledMethods : Nat) (status : Nat) : Option OatClass :=
  let numMethods := compiledMethods.length
  if numNonNullCompiledMethods ≤ numMethods then
    let type : OatClassType :=
      if numNonNullCompiledMethods = 0 then .kOatClassNoneCompiled
      else if numNonNullCompiledMethods = numMethods then .kOatClassAllCompiled
      else .kOatClassSomeCompiled
    let methodBitmapSize :=
      if type = .kOatClassSomeCompiled then bitVectorSizeOf numMethods else 0
    let methodBitmap : Option (List Bool) :=
      if type = .kOatClassSomeCompiled then some (compiledMethods.map Option.isSome)
      else none
    let headerSkip := sizeofClassType + sizeofClassStatus +
      (if type = .kOatClassSomeCompiled then 4 + methodBitmapSize else 0)
    some
      { offset := offset
        compiledMethods := compiledMethods
        status := status
        type := type
        methodBitmapSize := methodBitmapSize
        methodBitmap := methodBitmap
        oatMethodOffsetsOffsetsFromOatClass := oatMethodOffsetsOffsets compiledMethods headerSkip
        methodOffsets := List.replicate numNonNullCompiledMethods OatMethodOffsets.zero }
  else none

/-- `OatClass::SizeOf`. -/
def OatClass.sizeOf (oc : OatClass) : Nat :=
  sizeofClassStatus + sizeofClassType +
    (if oc.methodBitmapSize = 0 then 0 else 4) + oc.methodBitmapSize +
    sizeofOatMethodOffsets * oc.methodOffsets.length

/-- The per-module descriptor (`OatWriter::OatDexFile`). -/
structure OatDexFile where
  offset : Nat
  dexFileLocationSize : Nat
  dexFileLocationData : Blob
  dexFileLocationChecksum : Nat
  dexFileOffset : Nat
  methodsOffsets : List Nat
deriving DecidableEq, Inhabited

/-- The `OatDexFile` constructor. -/
def OatDexFile.make (offset : Nat) (dex : DexFile) : OatDexFile :=
  { offset := offset
    dexFileLocationSize := dex.location.length
    dexFileLocationData := dex.location
    dexFileLocationChecksum := dex.locationChecksum
    dexFileOffset := 0
    methodsOffsets := List.replicate dex.classDefs.length 0 }

/-- `OatDexFile::SizeOf`. -/
def OatDexFile.sizeOf (odf : OatDexFile) : Nat :=
  4 + odf.dexFileLocationSize + 4 + 4 + 4 * odf.methodsOffsets.length

/-- `OatDexFile::UpdateChecksum`: the chunks this descriptor folds into
the running content checksum. -/
def OatDexFile.checksumItems (odf : OatDexFile) : List Chunk :=
  [.u32 odf.dexFileLocationSize,
   .locationData odf.dexFileLocationData,
   .u32 odf.dexFileLocationChecksum,
   .u32 odf.dexFileOffset,
   .u32seq odf.methodsOffsets]

/-! ## Method-table traversal -/

/-- The member indices one class contributes to the traversal, in visit
order: `ClassDataItemIterator` (runtime/dex_file.h) skips the static and
instance fields and then yields the class's directly-dispatched methods
followed by its virtually-dispatched methods exactly as encoded —
duplicate member indices included (dex files produced by smali can encode
the same index twice; `CompilerDriver::CompileClass` has to skip the
consecutive repeats itself at its call sites, which shows the iterator
yields them, and `OatWriter::ProcessDexMethods` passes every yielded
entry to `ProcessMethod` with no duplicate check).  A class with `NULL`
class data contributes none. -/
def classVisitedMethods (cd : ClassDef) : List Nat :=
  match cd.classData with
  | none => []
  | some d => d.directMethods ++ d.virtualMethods

/-- The consecutive-duplicate skip of `CompilerDriver::CompileClass`
(compiler_driver.cc): within one method section, an entry whose member
index equals the immediately preceding entry's index is not compiled
(`method_idx == previous_..._method_idx`); `prev` is that previous
index. -/
def skipConsecutiveDup (prev : Option Nat) : List Nat → List Nat
  | [] => []
  | m :: rest =>
    if prev = some m then skipConsecutiveDup prev rest
    else m :: skipConsecutiveDup (some m) rest

/-- The member indices `CompilerDriver::CompileClass` actually compiles:
the direct and the virtual section each skip their own consecutive
duplicates, starting from `previous_..._method_idx = -1`. -/
def compiledClassMethods (d : ClassData) : List Nat :=
  skipConsecutiveDup none d.directMethods ++ skipConsecutiveDup none d.virtualMethods

/-- The `Option CompiledMethod` slot list one class presents to the
per-method visitors: the compiler driver's answer for each visited member
index, in visit order (`InitOatClassesMethodProcessor::ProcessMethod`).
All later visitors read these slots back through
`OatClass::GetCompiledMethod(class_def_method_index)`. -/
def classCompiledList (input : OatInput) (dexIdx : Nat) (cd : ClassDef) :
    List (Option CompiledMethod) :=
  (classVisitedMethods cd).map (input.compiledMethod dexIdx)

/-! ## Layout pass 1 (the `OatWriter` constructor) -/

/-- `OatWriter::InitOatHeader`: fixed header plus the inline image file
location string. -/
def initOatHeader (input : OatInput) : Nat :=
  sizeofOatHeader + input.imageFileLocation.length

/-- `OatWriter::InitOatDexFiles`: create one `OatDexFile` per module at the
running offset. -/
def initOatDexFiles : List DexFile → Nat → List OatDexFile × Nat
  | [], offset => ([], offset)
  | dex :: rest, offset =>
    let odf := OatDexFile.make offset dex
    let (odfs, off') := initOatDexFiles rest (offset + odf.sizeOf)
    (odf :: odfs, off')

/-- `OatWriter::InitDexFiles`: 4-align the running offset before each
module's raw bytes and record that offset into the module's descriptor. -/
def initDexFiles : List OatDexFile → List DexFile → Nat → List OatDexFile × Nat
  | odf :: odfs, dex :: dexes, offset =>
    let offset4 := roundUp offset 4
    let odf' := { odf with dexFileOffset := offset4 }
    let (rest, final) := initDexFiles odfs dexes (offset4 + dex.contents.length)
    (odf' :: rest, final)
  | odfs, _, offset => (odfs, offset)

/-- `InitOatClassesMethodProcessor` over one dex file's classes: build one
`OatClass` per class at the running offset (`StartClass` clears the
per-class accumulation, `ProcessMethod` collects the compiler driver's
per-method results and tallies the non-null ones, `EndClass` resolves the
class status and appends the new `OatClass`). -/
def initOatClassesOfClasses (input : OatInput) (dexIdx : Nat) :
    List ClassDef → Nat → Nat → Option (List OatClass × Nat)
  | [], _, offset => some ([], offset)
  | cd :: rest, classIdx, offset => do
    let cms := classCompiledList input dexIdx cd
    let numNonNull := cms.countP Option.isSome
    let oc ← OatClass.make offset cms numNonNull (input.classStatus dexIdx classIdx)
    let (ocs, off') ← initOatClassesOfClasses input dexIdx rest (classIdx + 1)
      (offset + oc.sizeOf)
    return (oc :: ocs, off')

/-- `InitOatClassesMethodProcessor` over all dex files. -/
def initOatClassesOfDexFiles (input : OatInput) :
    List DexFile → Nat → Nat → Option (List OatClass × Nat)
  | [], _, offset => some ([], offset)
  | dex :: rest, dexIdx, offset => do
    let (ocs1, off1) ← initOatClassesOfClasses input dexIdx dex.classDefs 0 offset
    let (ocs2, off2) ← initOatClassesOfDexFiles input rest (dexIdx + 1) off1
    return (ocs1 ++ ocs2, off2)

/-- Scatter the class-descriptor offsets back into the owning module
descriptors' class-offset lists, consuming them in order; `none` models the
`DCHECK(oat_class_it != oat_classes_.end())` shortage abort.  Returns the
filled descriptors and the unconsumed offsets. -/
def scatterClassOffsets : List OatDexFile → List Nat → Option (List OatDexFile × List Nat)
  | [], classOffsets => some ([], classOffsets)
  | odf :: rest, classOffsets =>
    let n := odf.methodsOffsets.length
    if n ≤ classOffsets.length then
      let odf' := { odf with methodsOffsets := classOffsets.take n }
      (scatterClassOffsets rest (classOffsets.drop n)).map
        fun r => (odf' :: r.1, r.2)
    else none

/-- `OatWriter::InitOatClasses`: build all class descriptors, scatter their
offsets into the module descriptors (order must match 1:1; leftover class
descriptors violate `CHECK(oat_class_it == oat_classes_.end())`), and fold
each module descriptor's fields into the running checksum. -/
def initOatClasses (input : OatInput) (odfs : List OatDexFile) (offset : Nat) :
    Option (List OatClass × List OatDexFile × List Chunk × Nat) := do
  let (ocs, off) ← initOatClassesOfDexFiles input input.dexFiles 0 offset
  let (odfs', leftover) ← scatterClassOffsets odfs (ocs.map OatClass.offset)
  if leftover.isEmpty then
    return (ocs, odfs', odfs'.flatMap OatDexFile.checksumItems, off)
  else none

/-- The trampoline layout loop of `OatWriter::InitOatCode` (the
`DO_TRAMPOLINE` sequence): each stub is laid out at its own
architecture-aligned offset; returns the per-stub offsets and the final
running offset. -/
def layoutTrampolines (isa : InstructionSet) : List Blob → Nat → List Nat × Nat
  | [], offset => ([], offset)
  | b :: rest, offset =>
    let aligned := alignCode offset isa
    let (os, off') := layoutTrampolines isa rest (aligned + b.length)
    (aligned :: os, off')

/-- `OatWriter::InitOatCode`: page-align the running offset, record it as
the executable-region start, then (base-image builds only) lay out the
trampoline stubs; otherwise record all trampoline offsets as 0.  Returns
(executable offset, trampoline offsets, executable-offset alignment
padding, final offset). -/
def initOatCode (input : OatInput) (offset : Nat) : Nat × List Nat × Nat × Nat :=
  let execOff := roundUp offset kPageSize
  let pad := execOff - offset
  if input.isImage then
    let (tos, off') := layoutTrampolines input.isa input.trampolines execOff
    (execOff, tos, pad, off')
  else
    (execOff, List.replicate input.trampolines.length 0, pad, execOff)

/-- Shared state of the code layout visitor (`InitCodeMethodProcessor`):
the running offset, the code deduplication table and the checksum trace
contributed so far. -/
structure CodeSt where
  offset : Nat
  codeOffsets : List (Blob × Nat)
  csum : List Chunk
deriving DecidableEq, Inhabited

/-- `InitCodeMethodProcessor::ProcessMethod` on one compiled method:
portable code leaves the code offset 0 and the running offset untouched
(after `CHECK(quick_code == nullptr)`); quick code aligns the offset,
requires a nonzero code size, and either reuses a deduplicated offset or
lays out method header plus code body, folding both into the checksum.
Returns the method's `OatMethodOffsets` record and the new state. -/
def codeInitSlot (c : CompiledMethod) (st : CodeSt) : Option (OatMethodOffsets × CodeSt) :=
  let base : OatMethodOffsets :=
    { OatMethodOffsets.zero with
        frameSizeInBytes := c.frameSizeInBytes
        coreSpillMask := c.coreSpillMask
        fpSpillMask := c.fpSpillMask }
  match c.portableCode with
  | some _ =>
    match c.quickCode with
    | some _ => none
    | none => some (base, st)
  | none =>
    match c.quickCode with
    | none => none
    | some q =>
      let offset := alignCode st.offset c.isa
      let codeSize := q.length
      if codeSize = 0 then none
      else
        let quickCodeOffset := offset + sizeofOatMethodHeader + codeDelta c.isa
        match List.lookup q st.codeOffsets with
        | some prev =>
          some ({ base with codeOffset := prev }, { st with offset := offset })
        | none =>
          some ({ base with codeOffset := quickCodeOffset },
            { offset := offset + sizeofOatMethodHeader + codeSize
              codeOffsets := (q, quickCodeOffset) :: st.codeOffsets
              csum := st.csum ++ [.methodHeader codeSize, .code q] })

/-- The code layout visitor over one class's slots: non-null slots produce
one record each (in `method_offsets_index_` order), null slots are
skipped. -/
def codeInitSlots : List (Option CompiledMethod) → CodeSt →
    Option (List OatMethodOffsets × CodeSt)
  | [], st => some ([], st)
  | none :: rest, st => codeInitSlots rest st
  | some c :: rest, st => do
    let (r, st') ← codeInitSlot c st
    let (rs, st'') ← codeInitSlots rest st'
    return (r :: rs, st'')

/-- The code layout visitor over all classes; overwrites each class's
reserved records (whose count must match, mirroring
`DCHECK_LT(method_offsets_index_, oat_class->method_offsets_.size())`). -/
def codeInitClasses : List OatClass → CodeSt → Option (List OatClass × CodeSt)
  | [], st => some ([], st)
  | oc :: rest, st => do
    let (rs, st') ← codeInitSlots oc.compiledMethods st
    if rs.length = oc.methodOffsets.length then
      let (ocs, st'') ← codeInitClasses rest st'
      return ({ oc with methodOffsets := rs } :: ocs, st'')
    else none

/-- One side-table kind's accessor bundle (`GcMapBinder`,
`MappingTableBinder`, `VmapTableBinder`). -/
structure MapBinder where
  kind : MapKind
  getMap : CompiledMethod → Blob
  getOffset : OatMethodOffsets → Nat
  setOffset : OatMethodOffsets → Nat → OatMethodOffsets

/-- `OatWriter::GcMapBinder`. -/
def GcMapBinder : MapBinder :=
  ⟨.gc, CompiledMethod.gcMap, OatMethodOffsets.gcMapOffset,
    fun r o => { r with gcMapOffset := o }⟩

/-- `OatWriter::MappingTableBinder`. -/
def MappingTableBinder : MapBinder :=
  ⟨.mapping, CompiledMethod.mappingTable, OatMethodOffsets.mappingTableOffset,
    fun r o => { r with mappingTableOffset := o }⟩

/-- `OatWriter::VmapTableBinder`. -/
def VmapTableBinder : MapBinder :=
  ⟨.vmap, CompiledMethod.vmapTable, OatMethodOffsets.vmapTableOffset,
    fun r o => { r with vmapTableOffset := o }⟩

/-- Shared state of a side-table layout visitor
(`InitMapMethodProcessor<MapBinder>`): running offset, the kind's own
deduplication table, checksum trace. -/
structure MapSt where
  offset : Nat
  dedupe : List (Blob × Nat)
  csum : List Chunk
deriving DecidableEq, Inhabited

/-- `InitMapMethodProcessor::ProcessMethod` on one compiled method: an
empty side table leaves the record offset 0; otherwise the offset is the
deduplicated first occurrence or the current offset (advancing it and
folding the blob into the checksum). -/
def mapInitSlot (B : MapBinder) (c : CompiledMethod) (r : OatMethodOffsets)
    (st : MapSt) : OatMethodOffsets × MapSt :=
  let map := B.getMap c
  if map.length ≠ 0 then
    match List.lookup map st.dedupe with
    | some prev => (B.setOffset r prev, st)
    | none =>
      (B.setOffset r st.offset,
        { offset := st.offset + map.length
          dedupe := (map, st.offset) :: st.dedupe
          csum := st.csum ++ [.mapBlob B.kind map] })
  else (r, st)

/-- The side-table layout visitor over one class's slots, consuming the
class's reserved records in `method_offsets_index_` order. -/
def mapInitSlots (B : MapBinder) : List (Option CompiledMethod) →
    List OatMethodOffsets → MapSt → Option (List OatMethodOffsets × MapSt)
  | [], _, st => some ([], st)
  | none :: rest, recs, st => mapInitSlots B rest recs st
  | some c :: rest, recs, st =>
    match recs with
    | [] => none
    | r :: recs' =>
      let (r', st') := mapInitSlot B c r st
      (mapInitSlots B rest recs' st').map fun p => (r' :: p.1, p.2)

/-- The side-table layout visitor over all classes. -/
def mapInitClasses (B : MapBinder) : List OatClass → MapSt →
    Option (List OatClass × MapSt)
  | [], st => some ([], st)
  | oc :: rest, st => do
    let (rs, st') ← mapInitSlots B oc.compiledMethods oc.methodOffsets st
    if rs.length = oc.methodOffsets.length then
      let (ocs, st'') ← mapInitClasses B rest st'
      return ({ oc with methodOffsets := rs } :: ocs, st'')
    else none

/-- The finished writer after layout pass 1: everything the `OatWriter`
constructor leaves behind for the write pass. -/
structure Writer where
  input : OatInput
  executableOffset : Nat
  trampolineOffsets : List Nat
  sizeExecutableOffsetAlignment : Nat
  oatDexFiles : List OatDexFile
  oatClasses : List OatClass
  codeOffsets : List (Blob × Nat)
  gcMapOffsets : List (Blob × Nat)
  mappingTableOffsets : List (Blob × Nat)
  vmapTableOffsets : List (Blob × Nat)
  checksum : List Chunk
  size : Nat
deriving Inhabited

/-- The `OatWriter` constructor: the six layout steps in order, ending in
the total `size_`.  The `InitImageMethodProcessor` pass of base-image
builds only propagates the computed offsets into live runtime method
records and leaves the offset and all writer state unchanged, so it
contributes nothing to this model.  `none` models a `CHECK` abort,
including the final `CHECK(image_file_location.empty() == compiler->IsImage())`. -/
def mkWriter (input : OatInput) : Option Writer := do
  if input.imageFileLocation.isEmpty = input.isImage then
    let off0 := initOatHeader input
    let (odfs1, off1) := initOatDexFiles input.dexFiles off0
    let (odfs2, off2) := initDexFiles odfs1 input.dexFiles off1
    let (ocs0, odfs3, csum1, off3) ← initOatClasses input odfs2 off2
    let (execOff, trampOffs, execPad, off4) := initOatCode input off3
    let (ocs1, cst) ← codeInitClasses ocs0 ⟨off4, [], []⟩
    let (ocs2, gst) ← mapInitClasses GcMapBinder ocs1 ⟨cst.offset, [], []⟩
    let (ocs3, mst) ← mapInitClasses MappingTableBinder ocs2 ⟨gst.offset, [], []⟩
    let (ocs4, vst) ← mapInitClasses VmapTableBinder ocs3 ⟨mst.offset, [], []⟩
    return { input := input
             executableOffset := execOff
             trampolineOffsets := trampOffs
             sizeExecutableOffsetAlignment := execPad
             oatDexFiles := odfs3
             oatClasses := ocs4
             codeOffsets := cst.codeOffsets
             gcMapOffsets := gst.dedupe
             mappingTableOffsets := mst.dedupe
             vmapTableOffsets := vst.dedupe
             checksum := csum1 ++ cst.csum ++ gst.csum ++ mst.csum ++ vst.csum
             size := vst.offset }
  else none

/-! ## The output stream -/

/-- The abstract output sink: current position, the position-stamped chunks
written so far, and an optional budget of remaining successful `WriteFully`
calls (`none` = writes never fail), modelling I/O failure. -/
structure OutStream where
  pos : Nat
  chunks : List (Nat × Chunk)
  budget : Option Nat
deriving DecidableEq, Inhabited

/-- `WriteFully`: emit one chunk at the current position and advance;
fails (returns `none`) exactly when the failure budget is exhausted. -/
def OutStream.writeFully (s : OutStream) (c : Chunk) : Option OutStream :=
  match s.budget with
  | some 0 => none
  | b =>
    some { pos := s.pos + c.size
           chunks := s.chunks ++ [(s.pos, c)]
           budget := b.map (· - 1) }

/-- `Seek(target, kSeekSet)`: reposition without emitting. -/
def OutStream.seekSet (s : OutStream) (target : Nat) : OutStream :=
  { s with pos := target }

/-- `Seek(delta, kSeekCurrent)` with a forward delta. -/
def OutStream.seekCur (s : OutStream) (delta : Nat) : OutStream :=
  { s with pos := s.pos + delta }

/-! ## Write pass 2 -/

/-- `OatDexFile::Write`: the five fields of a module descriptor, in order. -/
def OatDexFile.write (odf : OatDexFile) (s : OutStream) : Option OutStream := do
  let s ← s.writeFully (.u32 odf.dexFileLocationSize)
  let s ← s.writeFully (.locationData odf.dexFileLocationData)
  let s ← s.writeFully (.u32 odf.dexFileLocationChecksum)
  let s ← s.writeFully (.u32 odf.dexFileOffset)
  s.writeFully (.u32seq odf.methodsOffsets)

/-- `OatClass::Write`: status, type, optional bitmap size and bitmap
(`CHECK_EQ(kOatClassSomeCompiled, type_)` when a bitmap is present), then
the dense per-method record array. -/
def OatClass.write (oc : OatClass) (s : OutStream) : Option OutStream := do
  let s ← s.writeFully (.classStatus oc.status)
  let s ← s.writeFully (.classType oc.type)
  let s ←
    if oc.methodBitmapSize ≠ 0 then do
      if oc.type = .kOatClassSomeCompiled then
        let s ← s.writeFully (.bitmapSizeField oc.methodBitmapSize)
        s.writeFully (.bitmap (oc.methodBitmap.getD []) oc.methodBitmapSize)
      else none
    else pure s
  s.writeFully (.methodOffsetsArr oc.methodOffsets)

/-- The per-module loop of `OatWriter::WriteTables`: write every module
descriptor in order. -/
def writeOatDexFiles : List OatDexFile → OutStream → Option OutStream
  | [], s => some s
  | odf :: rest, s => do
    let s ← odf.write s
    writeOatDexFiles rest s

/-- The raw-module loop of `OatWriter::WriteTables`: seek to each module's
recorded 4-aligned offset and write its raw bytes verbatim. -/
def writeDexContents (fileOffset : Nat) :
    List OatDexFile → List DexFile → OutStream → Option OutStream
  | odf :: odfs, dex :: dexes, s =>
    let expected := fileOffset + odf.dexFileOffset
    let s := s.seekSet expected
    if s.pos ≠ expected then none
    else do
      let s ← s.writeFully (.dexContents dex.contents)
      writeDexContents fileOffset odfs dexes s
  | _, _, s => some s

/-- The class-descriptor loop of `OatWriter::WriteTables`. -/
def writeOatClasses : List OatClass → OutStream → Option OutStream
  | [], s => some s
  | oc :: rest, s => do
    let s ← oc.write s
    writeOatClasses rest s

/-- `OatWriter::WriteTables`: module descriptors, then raw module bytes,
then class descriptors. -/
def writeTables (w : Writer) (fileOffset : Nat) (s : OutStream) : Option OutStream := do
  let s ← writeOatDexFiles w.oatDexFiles s
  let s ← writeDexContents fileOffset w.oatDexFiles w.input.dexFiles s
  writeOatClasses w.oatClasses s

/-- The trampoline loop of `OatWriter::WriteCode` (the `DO_TRAMPOLINE`
sequence): seek over the per-stub alignment padding, then write the stub. -/
def writeTrampolines (isa : InstructionSet) :
    List Blob → Nat → OutStream → Option (OutStream × Nat)
  | [], relativeOffset, s => some (s, relativeOffset)
  | b :: rest, relativeOffset, s => do
    let aligned := alignCode relativeOffset isa
    let pad := aligned - relativeOffset
    let s := s.seekCur pad
    let s ← s.writeFully (.trampoline b)
    writeTrampolines isa rest (aligned + b.length) s

/-- `OatWriter::WriteCode`: seek over the executable-offset alignment,
check the resulting stream position against the predicted one, then
(base-image builds) write the trampoline stubs.  Returns the stream and
the new relative offset. -/
def writeCode (w : Writer) (fileOffset : Nat) (s : OutStream) :
    Option (OutStream × Nat) :=
  let relativeOffset := w.executableOffset
  let s := s.seekCur w.sizeExecutableOffsetAlignment
  if s.pos ≠ fileOffset + relativeOffset then none
  else if w.input.isImage then
    writeTrampolines w.input.isa w.input.trampolines relativeOffset s
  else some (s, relativeOffset)

/-- Pass-2 state of a per-method write visitor: the relative offset and
the stream. -/
structure WSt where
  offset : Nat
  stream : OutStream
deriving DecidableEq, Inhabited

/-- `WriteCodeMethodProcessor::ProcessMethod` on one compiled method (with
its finalized record): methods with portable code (no quick code) write
nothing; otherwise write the all-zero alignment padding, then — exactly
when the record's code offset is at or past the cursor, i.e. the method
was laid out here in pass 1 — the method header and the code body. -/
def codeWriteSlot (c : CompiledMethod) (r : OatMethodOffsets) (st : WSt) : Option WSt :=
  match c.quickCode with
  | none => some st
  | some q =>
    match c.portableCode with
    | some _ => none
    | none =>
      let aligned := alignCode st.offset c.isa
      let delta := aligned - st.offset
      let step1 : Option WSt :=
        if delta ≠ 0 then
          (st.stream.writeFully (.padding (List.replicate delta 0))).map
            fun s => ⟨st.offset + delta, s⟩
        else some st
      step1.bind fun st => do
        let codeSize := q.length
        if codeSize = 0 then none
        else if r.codeOffset ≥ st.offset then do
          let s ← st.stream.writeFully (.methodHeader codeSize)
          let s ← s.writeFully (.code q)
          return ⟨st.offset + sizeofOatMethodHeader + codeSize, s⟩
        else return st

/-- The code write visitor over one class's slots, consuming the class's
finalized records in `method_offsets_index_` order. -/
def codeWriteSlots : List (Option CompiledMethod) → List OatMethodOffsets →
    WSt → Option WSt
  | [], _, st => some st
  | none :: rest, recs, st => codeWriteSlots rest recs st
  | some c :: rest, recs, st =>
    match recs with
    | [] => none
    | r :: recs' => do
      let st' ← codeWriteSlot c r st
      codeWriteSlots rest recs' st'

/-- The code write visitor over all classes. -/
def codeWriteClasses : List OatClass → WSt → Option WSt
  | [], st => some st
  | oc :: rest, st => do
    let st' ← codeWriteSlots oc.compiledMethods oc.methodOffsets st
    codeWriteClasses rest st'

/-- `WriteMapMethodProcessor::ProcessMethod` on one compiled method (with
its finalized record): write the side-table blob exactly when it is
nonempty and its recorded offset equals the cursor (a strictly smaller
recorded offset means it was already written and is skipped). -/
def mapWriteSlot (B : MapBinder) (c : CompiledMethod) (r : OatMethodOffsets)
    (st : WSt) : Option WSt :=
  let mapOffset := B.getOffset r
  let map := B.getMap c
  if map.length ≠ 0 ∧ mapOffset = st.offset then
    (st.stream.writeFully (.mapBlob B.kind map)).map
      fun s => ⟨st.offset + map.length, s⟩
  else some st

/-- The side-table write visitor over one class's slots. -/
def mapWriteSlots (B : MapBinder) : List (Option CompiledMethod) →
    List OatMethodOffsets → WSt → Option WSt
  | [], _, st => some st
  | none :: rest, recs, st => mapWriteSlots B rest recs st
  | some c :: rest, recs, st =>
    match recs with
    | [] => none
    | r :: recs' => do
      let st' ← mapWriteSlot B c r st
      mapWriteSlots B rest recs' st'

/-- The side-table write visitor over all classes. -/
def mapWriteClasses (B : MapBinder) : List OatClass → WSt → Option WSt
  | [], st => some st
  | oc :: rest, st => do
    let st' ← mapWriteSlots B oc.compiledMethods oc.methodOffsets st
    mapWriteClasses B rest st'

/-- `OatWriter::WriteCodeDexFiles`: the four write visitors in order —
code, GC maps, mapping tables, vmap tables. -/
def writeCodeDexFiles (w : Writer) (relativeOffset : Nat) (s : OutStream) :
    Option (OutStream × Nat) := do
  let st1 ← codeWriteClasses w.oatClasses ⟨relativeOffset, s⟩
  let st2 ← mapWriteClasses GcMapBinder w.oatClasses st1
  let st3 ← mapWriteClasses MappingTableBinder w.oatClasses st2
  let st4 ← mapWriteClasses VmapTableBinder w.oatClasses st3
  return (st4.stream, st4.offset)

/-- `OatWriter::Write`: header, inline image file location, tables, code
region, per-method code and side tables.  The final
`CHECK_EQ(file_offset + size_, out->Seek(0, kSeekCurrent))` and
`CHECK_EQ(size_, relative_offset)` asserts of the source are not modelled
as failure; the theorems below prove that they hold on every successful
write. -/
def Writer.write (w : Writer) (s : OutStream) : Option (OutStream × Nat) := do
  let fileOffset := s.pos
  let s ← s.writeFully .oatHeader
  let s ← s.writeFully (.imageFileLocation w.input.imageFileLocation)
  let s ← writeTables w fileOffset s
  let (s, relativeOffset) ← writeCode w fileOffset s
  writeCodeDexFiles w relativeOffset s

/-! ## The generic traversal (`OatWriter::ProcessDexMethods`) -/

/-- One callback invocation of the method-table traversal. -/
inductive VisitEvent
  | startClass (dexIdx : Nat) (classIdx : Nat)
  | processMethod (classDefMethodIndex : Nat) (memberIndex : Nat)
  | endClass
deriving DecidableEq, Inhabited

/-- The callbacks one class receives: `StartClass`, one `ProcessMethod`
per visited method (with its ordinal position within the class), and
`EndClass`. -/
def classEvents (dexIdx classIdx : Nat) (cd : ClassDef) : List VisitEvent :=
  .startClass dexIdx classIdx ::
    ((classVisitedMethods cd).enum.map fun p => .processMethod p.1 p.2) ++ [.endClass]

/-- The callbacks one dex file's classes receive, in declaration order. -/
def dexFileEvents (dexIdx : Nat) (df : DexFile) : List VisitEvent :=
  df.classDefs.enum.flatMap fun p => classEvents dexIdx p.1 p.2

/-- All callbacks of the traversal: modules in order, classes in
declaration order. -/
def traversalEvents (dexFiles : List DexFile) : List VisitEvent :=
  dexFiles.enum.flatMap fun p => dexFileEvents p.1 p.2

/-- Deliver events to a visitor (`step`; `none` models a callback
returning `false`).  Returns the events actually delivered and the
outcome: delivery stops at the first failing callback. -/
def runEvents (step : VisitEvent → σ → Option σ) :
    List VisitEvent → σ → List VisitEvent × Option σ
  | [], s => ([], some s)
  | e :: es, s =>
    match step e s with
    | none => ([e], none)
    | some s' =>
      let r := runEvents step es s'
      (e :: r.1, r.2)

/-- `OatWriter::ProcessDexMethods`: process all methods from all classes
in all dex files with the given visitor, aborting on the first callback
failure. -/
def processDexMethods (step : VisitEvent → σ → Option σ)
    (dexFiles : List DexFile) (s : σ) : Option σ :=
  (runEvents step (traversalEvents dexFiles) s).2

/-- The `ProcessMethod` arguments actually delivered while traversing
(collected by a recording visitor through `processDexMethods` itself). -/
def collectedMethodVisits (dexFiles : List DexFile) : List (Nat × Nat) :=
  (processDexMethods
    (fun e acc =>
      match e with
      | .processMethod i m => some (acc ++ [(i, m)])
      | _ => some acc)
    dexFiles []).getD []

/-- The specification's claimed duplicate skipping, as worded: keep each
member index's first occurrence, dropping the second and later ones
wherever they appear.  The traversal does not do this (nor does the
compile stage, whose skip is consecutive-only); the definition exists to
state that refutation. -/
def keepFirst : List Nat → List Nat
  | [] => []
  | x :: xs => x :: keepFirst (xs.filter fun y => y ≠ x)
termination_by l => l.length
decreasing_by
  simp only [List.length_cons]
  exact Nat.lt_succ_of_le (List.length_filter_le _ _)

/-! ## Debug-checked write visitors

The source guards the write pass with `DCHECK`s / `kIsDebugBuild` blocks
re-verifying the pass-1 decisions.  The following variants embed those
checks; the theorems below prove they never fire (the checked and
unchecked visitors agree). -/

/-- `WriteCodeMethodProcessor::ProcessMethod` with its debug checks:
`DCheckCodeAlignment` on the aligned cursor, the dedup-table lookup checks
(`code_offsets_.find(quick_code)->second == method_offsets.code_offset_`),
and `DCHECK(code_offset_ < offset_ || code_offset_ == offset_ +
sizeof(OatMethodHeader) + CodeDelta())`. -/
def codeWriteSlotDbg (d : List (Blob × Nat)) (c : CompiledMethod)
    (r : OatMethodOffsets) (st : WSt) : Option WSt :=
  match c.quickCode with
  | none => some st
  | some q =>
    match c.portableCode with
    | some _ => none
    | none =>
      let aligned := alignCode st.offset c.isa
      let delta := aligned - st.offset
      let step1 : Option WSt :=
        if delta ≠ 0 then
          (st.stream.writeFully (.padding (List.replicate delta 0))).map
            fun s => ⟨st.offset + delta, s⟩
        else some st
      step1.bind fun st =>
        if st.offset % instructionSetAlignment c.isa ≠ 0 then none
        else do
          let codeSize := q.length
          if codeSize = 0 then none
          else if List.lookup q d ≠ some r.codeOffset then none
          else if ¬(r.codeOffset < st.offset ∨
              r.codeOffset = st.offset + sizeofOatMethodHeader + codeDelta c.isa) then none
          else if r.codeOffset ≥ st.offset then do
            let s ← st.stream.writeFully (.methodHeader codeSize)
            let s ← s.writeFully (.code q)
            return ⟨st.offset + sizeofOatMethodHeader + codeSize, s⟩
          else return st

/-- The debug-checked code write visitor over one class's slots. -/
def codeWriteSlotsDbg (d : List (Blob × Nat)) :
    List (Option CompiledMethod) → List OatMethodOffsets → WSt → Option WSt
  | [], _, st => some st
  | none :: rest, recs, st => codeWriteSlotsDbg d rest recs st
  | some c :: rest, recs, st =>
    match recs with
    | [] => none
    | r :: recs' => do
      let st' ← codeWriteSlotDbg d c r st
      codeWriteSlotsDbg d rest recs' st'

/-- The debug-checked code write visitor over all classes. -/
def codeWriteClassesDbg (d : List (Blob × Nat)) :
    List OatClass → WSt → Option WSt
  | [], st => some st
  | oc :: rest, st => do
    let st' ← codeWriteSlotsDbg d oc.compiledMethods oc.methodOffsets st
    codeWriteClassesDbg d rest st'

/-- `WriteMapMethodProcessor::ProcessMethod` with its `kIsDebugBuild`
checks: `CHECK((map_size == 0 && map_offset == 0) || (map_size != 0 &&
map_offset != 0 && map_offset <= offset_))` and, for nonempty maps, the
dedup-table lookup re-verification. -/
def mapWriteSlotDbg (B : MapBinder) (d : List (Blob × Nat))
    (c : CompiledMethod) (r : OatMethodOffsets) (st : WSt) : Option WSt :=
  let mapOffset := B.getOffset r
  let map := B.getMap c
  if ¬((map.length = 0 ∧ mapOffset = 0) ∨
      (map.length ≠ 0 ∧ mapOffset ≠ 0 ∧ mapOffset ≤ st.offset)) then none
  else if map.length ≠ 0 ∧ List.lookup map d ≠ some mapOffset then none
  else if map.length ≠ 0 ∧ mapOffset = st.offset then
    (st.stream.writeFully (.mapBlob B.kind map)).map
      fun s => ⟨st.offset + map.length, s⟩
  else some st

/-- The debug-checked side-table write visitor over one class's slots. -/
def mapWriteSlotsDbg (B : MapBinder) (d : List (Blob × Nat)) :
    List (Option CompiledMethod) → List OatMethodOffsets → WSt → Option WSt
  | [], _, st => some st
  | none :: rest, recs, st => mapWriteSlotsDbg B d rest recs st
  | some c :: rest, recs, st =>
    match recs with
    | [] => none
    | r :: recs' => do
      let st' ← mapWriteSlotDbg B d c r st
      mapWriteSlotsDbg B d rest recs' st'

/-- The debug-checked side-table write visitor over all classes. -/
def mapWriteClassesDbg (B : MapBinder) (d : List (Blob × Nat)) :
    List OatClass → WSt → Option WSt
  | [], st => some st
  | oc :: rest, st => do
    let st' ← mapWriteSlotsDbg B d oc.compiledMethods oc.methodOffsets st
    mapWriteClassesDbg B d rest st'

/-! ## Classifiers and invariants -/

/-- Is this chunk alignment padding? -/
def Chunk.isPadding : Chunk → Bool
  | .padding _ => true
  | _ => false

/-- The chunk kinds the running content checksum never covers: the header
itself (which holds the checksum field), the inline image location, raw
module bytes, class descriptor fields (status, type, bitmap, per-method
record arrays), alignment padding and trampoline stubs. -/
def Chunk.checksumExcluded : Chunk → Bool
  | .oatHeader => true
  | .imageFileLocation _ => true
  | .dexContents _ => true
  | .classStatus _ => true
  | .classType _ => true
  | .bitmapSizeField _ => true
  | .bitmap _ _ => true
  | .methodOffsetsArr _ => true
  | .padding _ => true
  | .trampoline _ => true
  | _ => false

/-- Invariant of a side-table deduplication table at a given cursor: every
entry is a nonempty blob fully laid out below the cursor, entries are
strictly decreasing in offset (newest first) and keys are distinct. -/
def dedupInv (d : List (Blob × Nat)) (cursor : Nat) : Prop :=
  (∀ p ∈ d, p.1 ≠ [] ∧ p.2 + p.1.length ≤ cursor) ∧
  d.Pairwise (fun p q => q.2 < p.2) ∧
  (d.map Prod.fst).Nodup

/-- Invariant of the code deduplication table at a given cursor: every
recorded quick-code offset is at most the cursor, and can equal it only
when it is not 4-byte aligned (it then points past a method header whose
code has nonzero length, so any later aligned cursor lies strictly
beyond it). -/
def codeDedupInv (d : List (Blob × Nat)) (cursor : Nat) : Prop :=
  ∀ p ∈ d, p.2 ≤ cursor ∧ (p.2 % 4 = 0 → p.2 < cursor)

/-! ## Concrete example inputs -/

/-- A zero-module, non-image input (the image file location must be
nonempty exactly for non-image builds). -/
def i0 : OatInput :=
  { dexFiles := []
    imageFileLocationOatChecksum := 0
    imageFileLocationOatBegin := 0
    imageFileLocation := [120]
    isImage := false
    isa := .kX86
    compiledMethod := fun _ _ => none
    classStatus := fun _ _ => 0
    trampolines := [] }

/-- A compiled method with 4 bytes of quick code and a 1-byte GC map. -/
def cm1 : CompiledMethod :=
  { quickCode := some [1, 2, 3, 4]
    portableCode := none
    frameSizeInBytes := 32
    coreSpillMask := 1
    fpSpillMask := 0
    mappingTable := []
    vmapTable := []
    gcMap := [9]
    isa := .kX86 }

/-- A compiled method with distinct quick code but the same GC map. -/
def cm2 : CompiledMethod := { cm1 with quickCode := some [8, 8] }

/-- A compiled method carrying portable code (and hence no quick code). -/
def cmPort : CompiledMethod :=
  { cm1 with quickCode := none, portableCode := some [1], gcMap := [] }

/-- One module, one class, one compiled method (member index 5). -/
def i1 : OatInput :=
  { i0 with
    dexFiles := [{ location := [97, 98], locationChecksum := 77,
                   contents := [7, 7, 7, 7],
                   classDefs := [⟨some ⟨0, 0, [5], []⟩⟩] }]
    compiledMethod := fun d m => if d = 0 ∧ m = 5 then some cm1 else none }

/-- One module, one class whose method list repeats member index 2 and
lists member index 1 both directly and virtually; methods 1 and 2 share
identical code and GC maps, method 3 has distinct code, method 4 is
portable, and one slot (member 6) is uncompiled. -/
def i2 : OatInput :=
  { i0 with
    dexFiles := [{ location := [97], locationChecksum := 1, contents := [],
                   classDefs := [⟨some ⟨0, 0, [1, 2, 2, 3], [1, 4, 6]⟩⟩] }]
    compiledMethod := fun d m =>
      if d = 0 ∧ m = 1 then some cm1
      else if d = 0 ∧ m = 2 then some cm1
      else if d = 0 ∧ m = 3 then some cm2
      else if d = 0 ∧ m = 4 then some cmPort
      else none }

/-- A module whose single class encodes the same member index twice in
consecutive direct-method entries (the dex shape smali can produce). -/
def dfDup : DexFile :=
  { location := [100], locationChecksum := 3, contents := [9],
    classDefs := [⟨some ⟨0, 0, [7, 7], []⟩⟩] }

/-- The writer a successful layout pass leaves behind (junk on layout
failure; the accompanying proofs always establish success first). -/
def writerOf (i : OatInput) : Writer := (mkWriter i).getD default

/-- A fresh never-failing output stream at position 0. -/
def emptyStream : OutStream := ⟨0, [], none⟩

/-- A fresh output stream whose `WriteFully` fails after `n` successful
writes. -/
def failingStream (n : Nat) : OutStream := ⟨0, [], some n⟩

/-- The result of a successful write of the given input's writer to a
fresh stream (junk on failure). -/
def writeResultOf (i : OatInput) : OutStream × Nat :=
  ((writerOf i).write emptyStream).getD default

/-- Lookups that succeed in `d1` succeed with the same result in `d2`
(e.g. `d2` extends `d1` with fresh keys). -/
def lookupPreserved (d1 d2 : List (Blob × Nat)) : Prop :=
  ∀ b o, List.lookup b d1 = some o → List.lookup b d2 = some o

/-- Pointwise correspondence between the class list seen by a write
visitor and the class list a layout visitor produced: same compiled-method
slots and the same values of one record projection `f`. -/
def classesMatch (f : OatMethodOffsets → Nat) (xs ys : List OatClass) : Prop :=
  List.Forall₂ (fun x y => x.compiledMethods = y.compiledMethods ∧
    x.methodOffsets.map f = y.methodOffsets.map f) xs ys

/-- The side-table blobs of the given kind in a chunk sequence, in order. -/
def chunkBlobsOfKind (k : MapKind) (chunks : List (Nat × Chunk)) : List Blob :=
  chunks.filterMap fun p =>
    match p.2 with
    | .mapBlob k' b => if k' = k then some b else none
    | _ => none

/-- All compiled-method slots of a class list, flattened in traversal
order. -/
def compiledSlots (ocs : List OatClass) : List CompiledMethod :=
  (ocs.flatMap OatClass.compiledMethods).filterMap id

/-- All per-method offset records of a class list, flattened in traversal
order. -/
def allRecords (ocs : List OatClass) : List OatMethodOffsets :=
  ocs.flatMap OatClass.methodOffsets

/-- Pointwise relationship between a class list and the same list after a
side-table layout visitor rewrote one field of each record: everything
else is unchanged. -/
def classRecsUpdated (B : MapBinder) (ocs ocs2 : List OatClass) : Prop :=
  List.Forall₂ (fun oc oc2 =>
    oc2.offset = oc.offset ∧ oc2.compiledMethods = oc.compiledMethods ∧
    oc2.status = oc.status ∧ oc2.type = oc.type ∧
    oc2.methodBitmapSize = oc.methodBitmapSize ∧
    oc2.methodBitmap = oc.methodBitmap ∧
    oc2.oatMethodOffsetsOffsetsFromOatClass = oc.oatMethodOffsetsOffsetsFromOatClass ∧
    oc2.methodOffsets.length = oc.methodOffsets.length ∧
    (∀ f : OatMethodOffsets → Nat, (∀ r o, f (B.setOffset r o) = f r) →
      oc2.methodOffsets.map f = oc.methodOffsets.map f)) ocs ocs2

/-- One record's side-table offset as the layout pass leaves it: 0 for an
empty side table, otherwise the offset the deduplication table `d`
assigns to the blob. -/
def mapRecordChar (B : MapBinder) (d : List (Blob × Nat)) (c : CompiledMethod)
    (r : OatMethodOffsets) : Prop :=
  (B.getMap c = [] ∧ B.getOffset r = 0) ∨
  (B.getMap c ≠ [] ∧ List.lookup (B.getMap c) d = some (B.getOffset r))

/-- Is this chunk a class-descriptor field (status, type, bitmap size,
bitmap, per-method record array)? -/
def Chunk.isClassDescriptor : Chunk → Bool
  | .classStatus _ => true
  | .classType _ => true
  | .bitmapSizeField _ => true
  | .bitmap _ _ => true
  | .methodOffsetsArr _ => true
  | _ => false

/-- `OatWriter::WriteCodeDexFiles` in a debug build: the four write
visitors with their `DCHECK`/`kIsDebugBuild` re-verification of the pass-1
decisions (each against its kind's deduplication table). -/
def writeCodeDexFilesDbg (w : Writer) (relativeOffset : Nat) (s : OutStream) :
    Option (OutStream × Nat) := do
  let st1 ← codeWriteClassesDbg w.codeOffsets w.oatClasses ⟨relativeOffset, s⟩
  let st2 ← mapWriteClassesDbg GcMapBinder w.gcMapOffsets w.oatClasses st1
  let st3 ← mapWriteClassesDbg MappingTableBinder w.mappingTableOffsets w.oatClasses st2
  let st4 ← mapWriteClassesDbg VmapTableBinder w.vmapTableOffsets w.oatClasses st3
  return (st4.stream, st4.offset)

/-- `OatWriter::Write` in a debug build: identical to `Writer.write` except
that the per-method write visitors re-verify the pass-1 deduplication
decisions (the recorded offset is the cursor, or strictly below it for an
already-written blob; for code, the aligned cursor plus header plus code
delta) and the code alignment, aborting if any check fails. -/
def Writer.writeDbg (w : Writer) (s : OutStream) : Option (OutStream × Nat) := do
  let fileOffset := s.pos
  let s ← s.writeFully .oatHeader
  let s ← s.writeFully (.imageFileLocation w.input.imageFileLocation)
  let s ← writeTables w fileOffset s
  let (s, relativeOffset) ← writeCode w fileOffset s
  writeCodeDexFilesDbg w relativeOffset s

/-! ## The write-pass invariant as the specification words it

The specification asserts that during the write pass every method's
recorded offset for a blob kind "either equals the current write cursor
(write now) or is strictly less than it (already written, skip)".  The
following variant of the code write visitor checks that wording (against
the cursor after alignment, the reading most favourable to the claim);
the release visitor `codeWriteSlot` is the source's actual behaviour. -/

/-- `codeWriteSlot` guarded by the specification's claimed invariant
`code_offset_ == offset_ || code_offset_ < offset_`. -/
def codeWriteSlotSpecCk (c : CompiledMethod) (r : OatMethodOffsets) (st : WSt) :
    Option WSt :=
  match c.quickCode with
  | none => some st
  | some q =>
    match c.portableCode with
    | some _ => none
    | none =>
      let aligned := alignCode st.offset c.isa
      let delta := aligned - st.offset
      let step1 : Option WSt :=
        if delta ≠ 0 then
          (st.stream.writeFully (.padding (List.replicate delta 0))).map
            fun s => ⟨st.offset + delta, s⟩
        else some st
      step1.bind fun st =>
        if r.codeOffset = st.offset ∨ r.codeOffset < st.offset then do
          let codeSize := q.length
          if codeSize = 0 then none
          else if r.codeOffset ≥ st.offset then do
            let s ← st.stream.writeFully (.methodHeader codeSize)
            let s ← s.writeFully (.code q)
            return ⟨st.offset + sizeofOatMethodHeader + codeSize, s⟩
          else return st
        else none

/-- The spec-checked code write visitor over one class's slots. -/
def codeWriteSlotsSpecCk : List (Option CompiledMethod) → List OatMethodOffsets →
    WSt → Option WSt
  | [], _, st => some st
  | none :: rest, recs, st => codeWriteSlotsSpecCk rest recs st
  | some c :: rest, recs, st =>
    match recs with
    | [] => none
    | r :: recs' => do
      let st' ← codeWriteSlotSpecCk c r st
      codeWriteSlotsSpecCk rest recs' st'

/-- The spec-checked code write visitor over all classes. -/
def codeWriteClassesSpecCk : List OatClass → WSt → Option WSt
  | [], st => some st
  | oc :: rest, st => do
    let st' ← codeWriteSlotsSpecCk oc.compiledMethods oc.methodOffsets st
    codeWriteClassesSpecCk rest st'

/-- `Write` with the spec-worded invariant checked in the code write
visitor. -/
def writeSpecCk (w : Writer) (s : OutStream) : Option (OutStream × Nat) := do
  let fileOffset := s.pos
  let s ← s.writeFully .oatHeader
  let s ← s.writeFully (.imageFileLocation w.input.imageFileLocation)
  let s ← writeTables w fileOffset s
  let (s, relativeOffset) ← writeCode w fileOffset s
  let st1 ← codeWriteClassesSpecCk w.oatClasses ⟨relativeOffset, s⟩
  let st2 ← mapWriteClasses GcMapBinder w.oatClasses st1
  let st3 ← mapWriteClasses MappingTableBinder w.oatClasses st2
  let st4 ← mapWriteClasses VmapTableBinder w.oatClasses st3
  return (st4.stream, st4.offset)

/-! ## Foundational lemmas -/

theorem roundUp_ge (x : Nat) {n : Nat} (hn : 0 < n) : x ≤ roundUp x n := by
  unfold roundUp
  have h1 : (x + n - 1) / n * n + (x + n - 1) % n = x + n - 1 := by
    rw [Nat.mul_comm]
    exact Nat.div_add_mod _ _
  have h2 := Nat.mod_lt (x + n - 1) hn
  omega

theorem roundUp_lt_add (x : Nat) {n : Nat} (hn : 0 < n) : roundUp x n < x + n := by
  unfold roundUp
  have h1 : (x + n - 1) / n * n + (x + n - 1) % n = x + n - 1 := by
    rw [Nat.mul_comm]
    exact Nat.div_add_mod _ _
  omega

theorem dvd_roundUp (x n : Nat) : n ∣ roundUp x n :=
  ⟨(x + n - 1) / n, Nat.mul_comm _ _⟩

theorem roundUp_mod (x : Nat) (n : Nat) : roundUp x n % n = 0 := by
  obtain ⟨k, hk⟩ := dvd_roundUp x n
  rw [hk]
  exact Nat.mul_mod_right _ _

theorem roundUp_eq_of_mod (x : Nat) {n : Nat} (hn : 0 < n) (h : x % n = 0) :
    roundUp x n = x := by
  have h1 := roundUp_ge x hn
  have h2 := roundUp_lt_add x hn
  have hd3 : n ∣ (roundUp x n - x) :=
    Nat.dvd_sub' (dvd_roundUp x n) (Nat.dvd_of_mod_eq_zero h)
  have h5 : roundUp x n - x = 0 := Nat.eq_zero_of_dvd_of_lt hd3 (by omega)
  omega

theorem instructionSetAlignment_pos (isa : InstructionSet) :
    0 < instructionSetAlignment isa := by
  cases isa <;> decide

theorem four_dvd_alignment (isa : InstructionSet) :
    4 ∣ instructionSetAlignment isa := by
  cases isa <;> decide

theorem le_alignCode (o : Nat) (isa : InstructionSet) : o ≤ alignCode o isa :=
  roundUp_ge o (instructionSetAlignment_pos isa)

theorem alignCode_lt_add (o : Nat) (isa : InstructionSet) :
    alignCode o isa < o + instructionSetAlignment isa :=
  roundUp_lt_add o (instructionSetAlignment_pos isa)

theorem alignCode_mod (o : Nat) (isa : InstructionSet) :
    alignCode o isa % instructionSetAlignment isa = 0 :=
  roundUp_mod o _

theorem alignCode_mod4 (o : Nat) (isa : InstructionSet) :
    alignCode o isa % 4 = 0 := by
  obtain ⟨k, hk⟩ := dvd_trans (four_dvd_alignment isa) (dvd_roundUp o (instructionSetAlignment isa))
  rw [show alignCode o isa = 4 * k from hk]
  exact Nat.mul_mod_right _ _

theorem alignCode_eq_of_mod (o : Nat) (isa : InstructionSet)
    (h : o % instructionSetAlignment isa = 0) : alignCode o isa = o :=
  roundUp_eq_of_mod o (instructionSetAlignment_pos isa) h

theorem lookup_mem {d : List (Blob × Nat)} {b : Blob} {o : Nat}
    (h : List.lookup b d = some o) : (b, o) ∈ d := by
  induction d with
  | nil => simp [List.lookup] at h
  | cons p rest ih =>
    obtain ⟨k, v⟩ := p
    by_cases hb : b = k
    · subst hb
      simp [List.lookup_cons] at h
      subst h
      exact List.mem_cons_self _ _
    · simp [List.lookup_cons, beq_false_of_ne hb] at h
      exact List.mem_cons_of_mem _ (ih h)

theorem lookup_append_right {d1 d2 : List (Blob × Nat)} {b : Blob}
    (h : b ∉ d1.map Prod.fst) : List.lookup b (d1 ++ d2) = List.lookup b d2 := by
  induction d1 with
  | nil => simp
  | cons p rest ih =>
    obtain ⟨k, v⟩ := p
    simp at h
    have hb : b ≠ k := h.1
    rw [List.cons_append]
    simp only [List.lookup_cons, beq_false_of_ne hb]
    exact ih (by simp; exact fun x hx => h.2 x hx)

theorem lookup_eq_none_of_not_mem {d : List (Blob × Nat)} {b : Blob}
    (h : b ∉ d.map Prod.fst) : List.lookup b d = none := by
  induction d with
  | nil => simp
  | cons p rest ih =>
    obtain ⟨k, v⟩ := p
    simp at h
    have hb : b ≠ k := h.1
    simp only [List.lookup_cons, beq_false_of_ne hb]
    exact ih (by simp; exact fun x hx => h.2 x hx)

theorem lookup_isSome_of_mem_keys {d : List (Blob × Nat)} {b : Blob}
    (h : b ∈ d.map Prod.fst) : (List.lookup b d).isSome := by
  induction d with
  | nil => simp at h
  | cons p rest ih =>
    obtain ⟨k, v⟩ := p
    by_cases hb : b = k
    · subst hb
      simp [List.lookup_cons]
    · simp only [List.lookup_cons, beq_false_of_ne hb]
      simp at h
      rcases h with h | h
      · exact absurd h hb
      · exact ih (by simpa using h)

theorem not_mem_keys_of_lookup_none {d : List (Blob × Nat)} {b : Blob}
    (h : List.lookup b d = none) : b ∉ d.map Prod.fst := by
  intro hmem
  have := lookup_isSome_of_mem_keys hmem
  rw [h] at this
  simp at this

theorem dedupInv_entry_lt {d : List (Blob × Nat)} {cursor : Nat}
    (h : dedupInv d cursor) : ∀ p ∈ d, p.2 < cursor := by
  intro p hp
  have h1 := h.1 p hp
  have : p.1.length ≠ 0 := by
    intro hz
    exact h1.1 (List.eq_nil_of_length_eq_zero hz)
  omega

theorem dedupInv_insert {d : List (Blob × Nat)} {cursor : Nat} {b : Blob}
    (h : dedupInv d cursor) (hb : b ≠ []) (hl : List.lookup b d = none) :
    dedupInv ((b, cursor) :: d) (cursor + b.length) := by
  obtain ⟨h1, h2, h3⟩ := h
  refine ⟨?_, ?_, ?_⟩
  · intro p hp
    rcases List.mem_cons.mp hp with rfl | hp
    · exact ⟨hb, le_refl _⟩
    · have := h1 p hp
      exact ⟨this.1, by omega⟩
  · exact List.Pairwise.cons (fun q hq => dedupInv_entry_lt ⟨h1, h2, h3⟩ q hq) h2
  · refine List.Nodup.cons ?_ h3
    simpa using not_mem_keys_of_lookup_none hl

theorem dedupInv_mono {d : List (Blob × Nat)} {cursor cursor' : Nat}
    (h : dedupInv d cursor) (hle : cursor ≤ cursor') : dedupInv d cursor' := by
  obtain ⟨h1, h2, h3⟩ := h
  exact ⟨fun p hp => ⟨(h1 p hp).1, le_trans (h1 p hp).2 hle⟩, h2, h3⟩

theorem dedup_lookup_ne {d : List (Blob × Nat)} {cursor : Nat}
    (h : dedupInv d cursor) {b1 b2 : Blob} {o1 o2 : Nat}
    (h1 : List.lookup b1 d = some o1) (h2 : List.lookup b2 d = some o2)
    (hne : b1 ≠ b2) : o1 ≠ o2 := by
  have hm1 := lookup_mem h1
  have hm2 := lookup_mem h2
  have hpw : d.Pairwise (fun p q => p.2 ≠ q.2) :=
    h.2.1.imp (fun hlt => by omega)
  have hsym : Symmetric (fun p q : Blob × Nat => p.2 ≠ q.2) :=
    fun p q hpq => Ne.symm hpq
  exact hpw.forall hsym hm1 hm2 (by simp [hne])

/-- Behaviour of one side-table layout visitor over a slot list: the
deduplication table grows by fresh entries at or above the starting
cursor, the checksum trace grows by exactly the inserted blobs (in
insertion order), the cursor is monotone, the invariant is maintained,
records are only modified in the binder's own field, and — when the
incoming records carry 0 in that field — each produced record either
keeps 0 (empty side table) or holds the offset the final deduplication
table assigns to its blob. -/
theorem mapInitSlots_spec (B : MapBinder)
    (hB : ∀ r o, B.getOffset (B.setOffset r o) = o)
    (cms : List (Option CompiledMethod)) :
    ∀ recs st rs st', mapInitSlots B cms recs st = some (rs, st') →
    dedupInv st.dedupe st.offset →
    ∃ ne,
      st'.dedupe = ne ++ st.dedupe ∧
      (∀ p ∈ ne, st.offset ≤ p.2 ∧ p.1 ≠ []) ∧
      st'.csum = st.csum ++ ne.reverse.map (fun p => Chunk.mapBlob B.kind p.1) ∧
      st.offset ≤ st'.offset ∧
      dedupInv st'.dedupe st'.offset ∧
      rs.length ≤ recs.length ∧
      (∀ (f : OatMethodOffsets → Nat), (∀ r o, f (B.setOffset r o) = f r) →
        rs.map f = (recs.take rs.length).map f) ∧
      ((∀ r ∈ recs, B.getOffset r = 0) →
        List.Forall₂ (fun c r' =>
          (B.getMap c = [] ∧ B.getOffset r' = 0) ∨
          (B.getMap c ≠ [] ∧
            List.lookup (B.getMap c) st'.dedupe = some (B.getOffset r')))
          (cms.filterMap id) rs) := by
  induction cms with
  | nil =>
    intro recs st rs st' h hinv
    simp only [mapInitSlots, Option.some.injEq, Prod.mk.injEq] at h
    obtain ⟨rfl, rfl⟩ := h
    exact ⟨[], by simp, by simp, by simp, le_refl _, hinv, by simp, by simp,
      fun _ => by simp⟩
  | cons hd rest ih =>
    intro recs st rs st' h hinv
    match hd with
    | none =>
      simp only [mapInitSlots] at h
      obtain ⟨ne, e1, e2, e3, e4, e5, e6, e7, e8⟩ := ih recs st rs st' h hinv
      exact ⟨ne, e1, e2, e3, e4, e5, e6, e7, fun h0 => by
        simpa using e8 h0⟩
    | some c =>
      match recs with
      | [] => simp [mapInitSlots] at h
      | r :: recs' =>
        simp only [mapInitSlots] at h
        rcases hslot : mapInitSlot B c r st with ⟨r1, st1⟩
        rw [hslot] at h
        cases hrec : mapInitSlots B rest recs' st1 with
        | none => rw [hrec] at h; simp at h
        | some p =>
          obtain ⟨rs1, st2⟩ := p
          rw [hrec] at h
          simp only [Option.map_some', Option.some.injEq, Prod.mk.injEq] at h
          obtain ⟨rfl, rfl⟩ := h
          -- analyze the slot
          unfold mapInitSlot at hslot
          by_cases hm : (B.getMap c).length ≠ 0
          · rw [if_pos hm] at hslot
            cases hl : List.lookup (B.getMap c) st.dedupe with
            | some prev =>
              rw [hl] at hslot
              simp only [Prod.mk.injEq] at hslot
              obtain ⟨hr1, hst1⟩ := hslot
              subst hst1
              obtain ⟨ne, e1, e2, e3, e4, e5, e6, e7, e8⟩ := ih recs' st rs1 st2 hrec hinv
              refine ⟨ne, e1, e2, e3, e4, e5, by simp; omega, ?_, ?_⟩
              · intro f hf
                subst hr1
                simp [hf, e7 f hf]
              · intro h0
                simp only [List.filterMap_cons, id_eq]
                refine List.Forall₂.cons ?_ (e8 fun q hq => h0 q (List.mem_cons_of_mem _ hq))
                right
                refine ⟨fun hnil => hm (by simp [hnil]), ?_⟩
                subst hr1
                rw [hB]
                -- the entry for this blob is in st.dedupe; keys of ne are fresh
                have hmem : B.getMap c ∈ st.dedupe.map Prod.fst := by
                  have := lookup_mem hl
                  exact List.mem_map_of_mem Prod.fst this
                have hnod : (st2.dedupe.map Prod.fst).Nodup := e5.2.2
                rw [e1, List.map_append] at hnod
                have hdisj := (List.nodup_append.mp hnod).2.2
                have hnotin : B.getMap c ∉ ne.map Prod.fst :=
                  fun hin => hdisj hin hmem
                rw [e1, lookup_append_right hnotin]
                exact hl
            | none =>
              rw [hl] at hslot
              simp only [Prod.mk.injEq] at hslot
              obtain ⟨hr1, hst1⟩ := hslot
              have hbne : B.getMap c ≠ [] := fun hnil => hm (by simp [hnil])
              have hinv1 : dedupInv st1.dedupe st1.offset := by
                rw [← hst1]
                exact dedupInv_insert hinv hbne hl
              obtain ⟨ne, e1, e2, e3, e4, e5, e6, e7, e8⟩ := ih recs' st1 rs1 st2 hrec hinv1
              have hoff1 : st1.offset = st.offset + (B.getMap c).length := by
                rw [← hst1]
              have hded1 : st1.dedupe = (B.getMap c, st.offset) :: st.dedupe := by
                rw [← hst1]
              have hcs1 : st1.csum = st.csum ++ [Chunk.mapBlob B.kind (B.getMap c)] := by
                rw [← hst1]
              refine ⟨ne ++ [(B.getMap c, st.offset)], ?_, ?_, ?_, ?_, e5, by simp; omega, ?_, ?_⟩
              · rw [e1, hded1]
                simp
              · intro q hq
                rcases List.mem_append.mp hq with hq | hq
                · have := e2 q hq
                  exact ⟨by omega, this.2⟩
                · simp at hq
                  subst hq
                  exact ⟨le_refl _, hbne⟩
              · rw [e3, hcs1]
                simp
              · omega
              · intro f hf
                subst hr1
                simp [hf, e7 f hf]
              · intro h0
                simp only [List.filterMap_cons, id_eq]
                refine List.Forall₂.cons ?_ (e8 fun q hq => h0 q (List.mem_cons_of_mem _ hq))
                right
                refine ⟨hbne, ?_⟩
                subst hr1
                rw [hB]
                have hnod : (st2.dedupe.map Prod.fst).Nodup := e5.2.2
                rw [e1, List.map_append] at hnod
                have hdisj := (List.nodup_append.mp hnod).2.2
                have hmem : B.getMap c ∈ st1.dedupe.map Prod.fst := by
                  rw [hded1]; simp
                have hnotin : B.getMap c ∉ ne.map Prod.fst :=
                  fun hin => hdisj hin hmem
                rw [e1, lookup_append_right hnotin, hded1]
                simp [List.lookup_cons]
          · rw [if_neg hm] at hslot
            simp only [Prod.mk.injEq] at hslot
            obtain ⟨hr1, hst1⟩ := hslot
            subst hst1
            obtain ⟨ne, e1, e2, e3, e4, e5, e6, e7, e8⟩ := ih recs' st rs1 st2 hrec hinv
            refine ⟨ne, e1, e2, e3, e4, e5, by simp; omega, ?_, ?_⟩
            · intro f hf
              subst hr1
              simp [e7 f hf]
            · intro h0
              simp only [List.filterMap_cons, id_eq]
              refine List.Forall₂.cons ?_ (e8 fun q hq => h0 q (List.mem_cons_of_mem _ hq))
              left
              simp at hm
              refine ⟨by simpa using hm, ?_⟩
              subst hr1
              exact h0 r (List.mem_cons_self _ _)

/-- Pass-2 refinement for one side-table kind over a slot list: if the
write visitor is run with records whose offsets match the ones the layout
visitor produced, starting at the layout visitor's starting cursor, then
on success its cursor ends where the layout cursor ended, the stream
position advances by exactly the layout size delta, and the chunks it
emits are exactly the blobs the layout pass folded into the checksum. -/
theorem mapWriteSlots_sim (B : MapBinder)
    (hB : ∀ r o, B.getOffset (B.setOffset r o) = o)
    (cms : List (Option CompiledMethod)) :
    ∀ recs st rs st' R wst wst',
    mapInitSlots B cms recs st = some (rs, st') →
    dedupInv st.dedupe st.offset →
    R.map B.getOffset = rs.map B.getOffset →
    wst.offset = st.offset →
    mapWriteSlots B cms R wst = some wst' →
    wst'.offset = st'.offset ∧
    wst'.stream.pos = wst.stream.pos + (st'.offset - st.offset) ∧
    ∃ L, wst'.stream.chunks = wst.stream.chunks ++ L ∧
      st'.csum = st.csum ++ L.map Prod.snd := by
  induction cms with
  | nil =>
    intro recs st rs st' R wst wst' h hinv hR hoff hw
    simp only [mapInitSlots, Option.some.injEq, Prod.mk.injEq] at h
    obtain ⟨rfl, rfl⟩ := h
    simp only [mapWriteSlots, Option.some.injEq] at hw
    subst hw
    exact ⟨hoff, by omega, [], by simp, by simp⟩
  | cons hd rest ih =>
    intro recs st rs st' R wst wst' h hinv hR hoff hw
    match hd with
    | none =>
      simp only [mapInitSlots] at h
      simp only [mapWriteSlots] at hw
      exact ih recs st rs st' R wst wst' h hinv hR hoff hw
    | some c =>
      match recs with
      | [] => simp [mapInitSlots] at h
      | r :: recs' =>
        simp only [mapInitSlots] at h
        rcases hslot : mapInitSlot B c r st with ⟨r1, st1⟩
        rw [hslot] at h
        cases hrec : mapInitSlots B rest recs' st1 with
        | none => rw [hrec] at h; simp at h
        | some p =>
          obtain ⟨rs1, st2⟩ := p
          rw [hrec] at h
          simp only [Option.map_some', Option.some.injEq, Prod.mk.injEq] at h
          obtain ⟨rfl, rfl⟩ := h
          -- split R
          match R with
          | [] => simp at hR
          | R0 :: R1 =>
            simp only [List.map_cons, List.cons.injEq] at hR
            obtain ⟨hR0, hR1⟩ := hR
            simp only [mapWriteSlots] at hw
            -- analyze the slot on both sides
            unfold mapInitSlot at hslot
            unfold mapWriteSlot at hw
            by_cases hm : (B.getMap c).length ≠ 0
            · rw [if_pos hm] at hslot
              cases hl : List.lookup (B.getMap c) st.dedupe with
              | some prev =>
                rw [hl] at hslot
                simp only [Prod.mk.injEq] at hslot
                obtain ⟨hr1, hst1⟩ := hslot
                subst hst1
                have hprev : prev < st.offset :=
                  dedupInv_entry_lt hinv _ (lookup_mem hl)
                have hcond : ¬((B.getMap c).length ≠ 0 ∧ B.getOffset R0 = wst.offset) := by
                  intro hc
                  rw [hR0, ← hr1, hB] at hc
                  omega
                rw [if_neg hcond] at hw
                exact ih recs' st rs1 st2 R1 wst wst' hrec hinv hR1 hoff hw
              | none =>
                rw [hl] at hslot
                simp only [Prod.mk.injEq] at hslot
                obtain ⟨hr1, hst1⟩ := hslot
                have hbne : B.getMap c ≠ [] := fun hnil => hm (by simp [hnil])
                have hinv1 : dedupInv st1.dedupe st1.offset := by
                  rw [← hst1]
                  exact dedupInv_insert hinv hbne hl
                have hcond : ((B.getMap c).length ≠ 0 ∧ B.getOffset R0 = wst.offset) := by
                  rw [hR0, ← hr1, hB, hoff]
                  exact ⟨hm, rfl⟩
                rw [if_pos hcond] at hw
                cases hwf : wst.stream.writeFully (.mapBlob B.kind (B.getMap c)) with
                | none => rw [hwf] at hw; simp at hw
                | some s2 =>
                  rw [hwf] at hw
                  simp only [Option.map_some', Option.some_bind] at hw
                  have hs2 : s2.pos = wst.stream.pos + (B.getMap c).length ∧
                      s2.chunks = wst.stream.chunks ++
                        [(wst.stream.pos, Chunk.mapBlob B.kind (B.getMap c))] := by
                    unfold OutStream.writeFully at hwf
                    cases hb : wst.stream.budget with
                    | none =>
                      rw [hb] at hwf
                      simp only [Option.some.injEq] at hwf
                      rw [← hwf]
                      simp [Chunk.size]
                    | some n =>
                      cases n with
                      | zero => rw [hb] at hwf; simp at hwf
                      | succ m =>
                        rw [hb] at hwf
                        simp only [Option.some.injEq] at hwf
                        rw [← hwf]
                        simp [Chunk.size]
                  have hoff1 : (⟨wst.offset + (B.getMap c).length, s2⟩ : WSt).offset = st1.offset := by
                    rw [hoff, ← hst1]
                  obtain ⟨c1, c2, L1, c3, c4⟩ :=
                    ih recs' st1 rs1 st2 R1 _ wst' hrec hinv1 hR1 hoff1 hw
                  refine ⟨c1, ?_, (wst.stream.pos, Chunk.mapBlob B.kind (B.getMap c)) :: L1, ?_, ?_⟩
                  · have h4 : st.offset ≤ st1.offset := by
                      rw [← hst1]; simp
                    have h5 : st1.offset ≤ st2.offset := by
                      obtain ⟨ne, _, _, _, h', _⟩ := mapInitSlots_spec B hB rest recs' st1 rs1 st2 hrec hinv1
                      exact h'
                    have hst1off : st1.offset = st.offset + (B.getMap c).length := by
                      rw [← hst1]
                    rw [c2]
                    simp only []
                    rw [hs2.1]
                    omega
                  · rw [c3]
                    simp only []
                    rw [hs2.2]
                    simp
                  · have hcs1 : st1.csum = st.csum ++ [Chunk.mapBlob B.kind (B.getMap c)] := by
                      rw [← hst1]
                    rw [c4, hcs1]
                    simp
            · rw [if_neg hm] at hslot
              simp only [Prod.mk.injEq] at hslot
              obtain ⟨hr1, hst1⟩ := hslot
              subst hst1
              have hcond : ¬((B.getMap c).length ≠ 0 ∧ B.getOffset R0 = wst.offset) := by
                intro hc
                exact hm hc.1
              rw [if_neg hcond] at hw
              exact ih recs' st rs1 st2 R1 wst wst' hrec hinv hR1 hoff hw

/-- The `kIsDebugBuild` checks of the side-table write visitor never fire:
run against records produced by the corresponding layout visitor (and the
final deduplication table), the checked visitor behaves exactly like the
unchecked one. -/
theorem mapWriteSlotsDbg_eq (B : MapBinder)
    (hB : ∀ r o, B.getOffset (B.setOffset r o) = o)
    (cms : List (Option CompiledMethod)) :
    ∀ recs st rs st' R d wst,
    mapInitSlots B cms recs st = some (rs, st') →
    dedupInv st.dedupe st.offset →
    (∀ r ∈ recs, B.getOffset r = 0) →
    (∀ p ∈ st.dedupe, 0 < p.2) →
    0 < st.offset →
    lookupPreserved st'.dedupe d →
    R.map B.getOffset = rs.map B.getOffset →
    wst.offset = st.offset →
    mapWriteSlotsDbg B d cms R wst = mapWriteSlots B cms R wst := by
  induction cms with
  | nil => intro recs st rs st' R d wst _ _ _ _ _ _ _ _; rfl
  | cons hd rest ih =>
    intro recs st rs st' R d wst h hinv h0 hpos hoff0 hpre hR hoff
    match hd with
    | none =>
      simp only [mapInitSlots] at h
      simp only [mapWriteSlotsDbg, mapWriteSlots]
      exact ih recs st rs st' R d wst h hinv h0 hpos hoff0 hpre hR hoff
    | some c =>
      match recs with
      | [] => simp [mapInitSlots] at h
      | r :: recs' =>
        simp only [mapInitSlots] at h
        rcases hslot : mapInitSlot B c r st with ⟨r1, st1⟩
        rw [hslot] at h
        cases hrec : mapInitSlots B rest recs' st1 with
        | none => rw [hrec] at h; simp at h
        | some p =>
          obtain ⟨rs1, st2⟩ := p
          rw [hrec] at h
          simp only [Option.map_some', Option.some.injEq, Prod.mk.injEq] at h
          obtain ⟨rfl, rfl⟩ := h
          match R with
          | [] => simp at hR
          | R0 :: R1 =>
            simp only [List.map_cons, List.cons.injEq] at hR
            obtain ⟨hR0, hR1⟩ := hR
            simp only [mapWriteSlotsDbg, mapWriteSlots]
            unfold mapInitSlot at hslot
            by_cases hm : (B.getMap c).length ≠ 0
            · rw [if_pos hm] at hslot
              cases hl : List.lookup (B.getMap c) st.dedupe with
              | some prev =>
                rw [hl] at hslot
                simp only [Prod.mk.injEq] at hslot
                obtain ⟨hr1, hst1⟩ := hslot
                subst hst1
                have hR0v : B.getOffset R0 = prev := by rw [hR0, ← hr1, hB]
                have hprev : prev < st.offset :=
                  dedupInv_entry_lt hinv _ (lookup_mem hl)
                have hprevpos : 0 < prev := hpos _ (lookup_mem hl)
                -- final-table lookup
                have hfin : List.lookup (B.getMap c) st2.dedupe = some prev := by
                  obtain ⟨ne, e1, _, _, _, e5, _⟩ :=
                    mapInitSlots_spec B hB rest recs' st rs1 st2 hrec hinv
                  have hnod : (st2.dedupe.map Prod.fst).Nodup := e5.2.2
                  rw [e1, List.map_append] at hnod
                  have hdisj := (List.nodup_append.mp hnod).2.2
                  have hmem : B.getMap c ∈ st.dedupe.map Prod.fst :=
                    List.mem_map_of_mem Prod.fst (lookup_mem hl)
                  rw [e1, lookup_append_right (fun hin => hdisj hin hmem)]
                  exact hl
                have hslotEq : mapWriteSlotDbg B d c R0 wst = mapWriteSlot B c R0 wst := by
                  unfold mapWriteSlotDbg mapWriteSlot
                  have hA : ((B.getMap c).length = 0 ∧ B.getOffset R0 = 0) ∨
                      ((B.getMap c).length ≠ 0 ∧ B.getOffset R0 ≠ 0 ∧
                        B.getOffset R0 ≤ wst.offset) := by
                    right
                    rw [hR0v, hoff]
                    exact ⟨hm, by omega, by omega⟩
                  rw [if_neg (not_not_intro hA)]
                  have hL : ¬((B.getMap c).length ≠ 0 ∧
                      List.lookup (B.getMap c) d ≠ some (B.getOffset R0)) := by
                    rw [hR0v]
                    intro hc
                    exact hc.2 (hpre _ _ hfin)
                  rw [if_neg hL]
                have hskip : ¬((B.getMap c).length ≠ 0 ∧ B.getOffset R0 = wst.offset) := by
                  rw [hR0v, hoff]
                  intro hc
                  omega
                rw [hslotEq]
                unfold mapWriteSlot
                rw [if_neg hskip]
                exact ih recs' st rs1 st2 R1 d wst hrec hinv
                  (fun q hq => h0 q (List.mem_cons_of_mem _ hq)) hpos hoff0 hpre hR1 hoff
              | none =>
                rw [hl] at hslot
                simp only [Prod.mk.injEq] at hslot
                obtain ⟨hr1, hst1⟩ := hslot
                have hbne : B.getMap c ≠ [] := fun hnil => hm (by simp [hnil])
                have hinv1 : dedupInv st1.dedupe st1.offset := by
                  rw [← hst1]; exact dedupInv_insert hinv hbne hl
                have hR0v : B.getOffset R0 = st.offset := by rw [hR0, ← hr1, hB]
                have hfin : List.lookup (B.getMap c) st2.dedupe = some st.offset := by
                  obtain ⟨ne, e1, _, _, _, e5, _⟩ :=
                    mapInitSlots_spec B hB rest recs' st1 rs1 st2 hrec hinv1
                  have hnod : (st2.dedupe.map Prod.fst).Nodup := e5.2.2
                  rw [e1, List.map_append] at hnod
                  have hdisj := (List.nodup_append.mp hnod).2.2
                  have hmem : B.getMap c ∈ st1.dedupe.map Prod.fst := by
                    rw [← hst1]; simp
                  rw [e1, lookup_append_right (fun hin => hdisj hin hmem), ← hst1]
                  simp [List.lookup_cons]
                have hslotEq : mapWriteSlotDbg B d c R0 wst = mapWriteSlot B c R0 wst := by
                  unfold mapWriteSlotDbg mapWriteSlot
                  have hA : ((B.getMap c).length = 0 ∧ B.getOffset R0 = 0) ∨
                      ((B.getMap c).length ≠ 0 ∧ B.getOffset R0 ≠ 0 ∧
                        B.getOffset R0 ≤ wst.offset) := by
                    right
                    rw [hR0v, hoff]
                    exact ⟨hm, by omega, le_refl _⟩
                  rw [if_neg (not_not_intro hA)]
                  have hL : ¬((B.getMap c).length ≠ 0 ∧
                      List.lookup (B.getMap c) d ≠ some (B.getOffset R0)) := by
                    rw [hR0v]
                    intro hc
                    exact hc.2 (hpre _ _ hfin)
                  rw [if_neg hL]
                have hwrite : ((B.getMap c).length ≠ 0 ∧ B.getOffset R0 = wst.offset) := by
                  rw [hR0v, hoff]
                  exact ⟨hm, rfl⟩
                rw [hslotEq]
                unfold mapWriteSlot
                rw [if_pos hwrite]
                cases hwf : wst.stream.writeFully (.mapBlob B.kind (B.getMap c)) with
                | none => simp [hwf]
                | some s2 =>
                  simp only [hwf, Option.map_some']
                  have hoff1 : (⟨wst.offset + (B.getMap c).length, s2⟩ : WSt).offset = st1.offset := by
                    rw [hoff, ← hst1]
                  have hpos1 : ∀ p ∈ st1.dedupe, 0 < p.2 := by
                    rw [← hst1]
                    intro p hp
                    rcases List.mem_cons.mp hp with rfl | hp
                    · exact hoff0
                    · exact hpos p hp
                  have hoff01 : 0 < st1.offset := by
                    rw [← hst1]
                    simp only []
                    omega
                  exact ih recs' st1 rs1 st2 R1 d _ hrec hinv1
                    (fun q hq => h0 q (List.mem_cons_of_mem _ hq)) hpos1 hoff01 hpre hR1 hoff1
            · rw [if_neg hm] at hslot
              simp only [Prod.mk.injEq] at hslot
              obtain ⟨hr1, hst1⟩ := hslot
              subst hst1
              simp only [Ne, not_not] at hm
              have hR0v : B.getOffset R0 = 0 := by
                rw [hR0, ← hr1]
                exact h0 r (List.mem_cons_self _ _)
              have hslotEq : mapWriteSlotDbg B d c R0 wst = mapWriteSlot B c R0 wst := by
                unfold mapWriteSlotDbg mapWriteSlot
                have hA : ((B.getMap c).length = 0 ∧ B.getOffset R0 = 0) ∨
                    ((B.getMap c).length ≠ 0 ∧ B.getOffset R0 ≠ 0 ∧
                      B.getOffset R0 ≤ wst.offset) := Or.inl ⟨hm, hR0v⟩
                rw [if_neg (not_not_intro hA)]
                have hL : ¬((B.getMap c).length ≠ 0 ∧
                    List.lookup (B.getMap c) d ≠ some (B.getOffset R0)) := by
                  intro hc
                  exact hc.1 hm
                rw [if_neg hL]
              have hskip : ¬((B.getMap c).length ≠ 0 ∧ B.getOffset R0 = wst.offset) := by
                intro hc
                exact hc.1 hm
              rw [hslotEq]
              unfold mapWriteSlot
              rw [if_neg hskip]
              exact ih recs' st rs1 st2 R1 d wst hrec hinv
                (fun q hq => h0 q (List.mem_cons_of_mem _ hq)) hpos hoff0 hpre hR1 hoff

/-- Class-level behaviour of one side-table layout visitor
(`InitMapMethodProcessor` driven over the whole traversal): dedup-table
extension, checksum trace, cursor monotonicity, invariant maintenance,
record preservation outside the binder's field, and the per-slot record
characterization against the final deduplication table. -/
theorem mapInitClasses_spec (B : MapBinder)
    (hB : ∀ r o, B.getOffset (B.setOffset r o) = o)
    (ocs : List OatClass) :
    ∀ st ocs2 st', mapInitClasses B ocs st = some (ocs2, st') →
    dedupInv st.dedupe st.offset →
    ∃ ne,
      st'.dedupe = ne ++ st.dedupe ∧
      (∀ p ∈ ne, st.offset ≤ p.2 ∧ p.1 ≠ []) ∧
      st'.csum = st.csum ++ ne.reverse.map (fun p => Chunk.mapBlob B.kind p.1) ∧
      st.offset ≤ st'.offset ∧
      dedupInv st'.dedupe st'.offset ∧
      classRecsUpdated B ocs ocs2 ∧
      ((∀ oc ∈ ocs, ∀ r ∈ oc.methodOffsets, B.getOffset r = 0) →
        List.Forall₂ (mapRecordChar B st'.dedupe) (compiledSlots ocs) (allRecords ocs2)) := by
  induction ocs with
  | nil =>
    intro st ocs2 st' h hinv
    simp only [mapInitClasses, Option.some.injEq, Prod.mk.injEq] at h
    obtain ⟨rfl, rfl⟩ := h
    exact ⟨[], by simp, by simp, by simp, le_refl _, hinv,
      List.Forall₂.nil, fun _ => by simp [compiledSlots, allRecords]⟩
  | cons oc rest ih =>
    intro st ocs2 st' h hinv
    simp only [mapInitClasses] at h
    cases hs : mapInitSlots B oc.compiledMethods oc.methodOffsets st with
    | none => rw [hs] at h; simp at h
    | some p =>
      obtain ⟨rs, st1⟩ := p
      rw [hs] at h
      simp only [Option.bind_eq_bind, Option.some_bind] at h
      by_cases hlen : rs.length = oc.methodOffsets.length
      · rw [if_pos hlen] at h
        cases hr : mapInitClasses B rest st1 with
        | none => rw [hr] at h; simp at h
        | some q =>
          obtain ⟨ocs1, st2⟩ := q
          rw [hr] at h
          simp only [Option.bind_eq_bind, Option.some_bind, Option.some.injEq,
            Prod.mk.injEq] at h
          obtain ⟨rfl, rfl⟩ := h
          obtain ⟨ne1, e1, e2, e3, e4, e5, e6, e7, e8⟩ :=
            mapInitSlots_spec B hB oc.compiledMethods oc.methodOffsets st rs st1 hs hinv
          obtain ⟨ne2, f1, f2, f3, f4, f5, f6, f7⟩ := ih st1 ocs1 st' hr e5
          refine ⟨ne2 ++ ne1, ?_, ?_, ?_, by omega, f5, ?_, ?_⟩
          · rw [f1, e1, List.append_assoc]
          · intro q hq
            rcases List.mem_append.mp hq with hq | hq
            · have := f2 q hq
              exact ⟨by omega, this.2⟩
            · exact e2 q hq
          · rw [f3, e3]
            simp
          · refine List.Forall₂.cons ?_ f6
            refine ⟨rfl, rfl, rfl, rfl, rfl, rfl, rfl, by simp [hlen], ?_⟩
            intro f hf
            have := e7 f hf
            simp only [this, hlen, List.take_length]
          · intro h0
            have hchar := e8 (h0 oc (List.mem_cons_self _ _))
            have hchar2 := f7 (fun q hq => h0 q (List.mem_cons_of_mem _ hq))
            simp only [compiledSlots, allRecords, List.flatMap_cons,
              List.filterMap_append]
            refine List.rel_append ?_ hchar2
            -- lift the head characterization from st1.dedupe to st'.dedupe
            refine hchar.imp ?_
            intro c r' hcr
            rcases hcr with ⟨hnil, hz⟩ | ⟨hnn, hlk⟩
            · exact Or.inl ⟨hnil, hz⟩
            · refine Or.inr ⟨hnn, ?_⟩
              have hnod : (st'.dedupe.map Prod.fst).Nodup := f5.2.2
              rw [f1, List.map_append] at hnod
              have hdisj := (List.nodup_append.mp hnod).2.2
              have hmem : B.getMap c ∈ st1.dedupe.map Prod.fst :=
                List.mem_map_of_mem Prod.fst (lookup_mem hlk)
              rw [f1, lookup_append_right (fun hin => hdisj hin hmem)]
              exact hlk
      · rw [if_neg hlen] at h
        simp at h

/-- Class-level pass-2 refinement for one side-table kind: run against
class descriptors whose records carry the offsets the layout pass
computed, the write visitor's cursor tracks the layout cursor and the
emitted chunks are exactly the checksummed blobs. -/
theorem mapWriteClasses_sim (B : MapBinder)
    (hB : ∀ r o, B.getOffset (B.setOffset r o) = o)
    (ocs : List OatClass) :
    ∀ st ocs2 st' W wst wst',
    mapInitClasses B ocs st = some (ocs2, st') →
    dedupInv st.dedupe st.offset →
    classesMatch B.getOffset W ocs2 →
    wst.offset = st.offset →
    mapWriteClasses B W wst = some wst' →
    wst'.offset = st'.offset ∧
    wst'.stream.pos = wst.stream.pos + (st'.offset - st.offset) ∧
    ∃ L, wst'.stream.chunks = wst.stream.chunks ++ L ∧
      st'.csum = st.csum ++ L.map Prod.snd := by
  induction ocs with
  | nil =>
    intro st ocs2 st' W wst wst' h hinv hW hoff hw
    simp only [mapInitClasses, Option.some.injEq, Prod.mk.injEq] at h
    obtain ⟨rfl, rfl⟩ := h
    have hWnil : W = [] := by
      cases hW
      rfl
    subst hWnil
    simp only [mapWriteClasses, Option.some.injEq] at hw
    subst hw
    exact ⟨hoff, by omega, [], by simp, by simp⟩
  | cons oc rest ih =>
    intro st ocs2 st' W wst wst' h hinv hW hoff hw
    simp only [mapInitClasses] at h
    cases hs : mapInitSlots B oc.compiledMethods oc.methodOffsets st with
    | none => rw [hs] at h; simp at h
    | some p =>
      obtain ⟨rs, st1⟩ := p
      rw [hs] at h
      simp only [Option.bind_eq_bind, Option.some_bind] at h
      by_cases hlen : rs.length = oc.methodOffsets.length
      · rw [if_pos hlen] at h
        cases hr : mapInitClasses B rest st1 with
        | none => rw [hr] at h; simp at h
        | some q =>
          obtain ⟨ocs1, st2⟩ := q
          rw [hr] at h
          simp only [Option.bind_eq_bind, Option.some_bind, Option.some.injEq,
            Prod.mk.injEq] at h
          obtain ⟨rfl, rfl⟩ := h
          -- decompose W
          cases hW with
          | cons hw0 hW1 =>
            rename_i w0 W1
            obtain ⟨hcm, hrecs⟩ := hw0
            simp only [mapWriteClasses] at hw
            cases hws : mapWriteSlots B w0.compiledMethods w0.methodOffsets wst with
            | none => rw [hws] at hw; simp at hw
            | some wst1 =>
              rw [hws] at hw
              simp only [Option.bind_eq_bind, Option.some_bind] at hw
              rw [hcm] at hws
              have hsim := mapWriteSlots_sim B hB oc.compiledMethods
                oc.methodOffsets st rs st1 w0.methodOffsets wst wst1 hs hinv
                (by simpa using hrecs) hoff hws
              obtain ⟨c1, c2, L1, c3, c4⟩ := hsim
              have hinv1 : dedupInv st1.dedupe st1.offset := by
                obtain ⟨ne, _, _, _, _, e5, _⟩ :=
                  mapInitSlots_spec B hB oc.compiledMethods oc.methodOffsets st rs st1 hs hinv
                exact e5
              obtain ⟨d1, d2, L2, d3, d4⟩ :=
                ih st1 ocs1 st' W1 wst1 wst' hr hinv1 hW1 c1 hw
              have hm1 : st.offset ≤ st1.offset := by
                obtain ⟨ne, _, _, _, e4, _⟩ :=
                  mapInitSlots_spec B hB oc.compiledMethods oc.methodOffsets st rs st1 hs hinv
                exact e4
              have hm2 : st1.offset ≤ st'.offset := by
                obtain ⟨ne, _, _, _, e4, _⟩ :=
                  mapInitClasses_spec B hB rest st1 ocs1 st' hr hinv1
                exact e4
              refine ⟨d1, by omega, L1 ++ L2, ?_, ?_⟩
              · rw [d3, c3, List.append_assoc]
              · rw [d4, c4]
                simp
      · rw [if_neg hlen] at h
        simp at h

/-- Class-level form of the side-table debug-check equivalence. -/
theorem mapWriteClassesDbg_eq (B : MapBinder)
    (hB : ∀ r o, B.getOffset (B.setOffset r o) = o)
    (ocs : List OatClass) :
    ∀ st ocs2 st' W d wst,
    mapInitClasses B ocs st = some (ocs2, st') →
    dedupInv st.dedupe st.offset →
    (∀ oc ∈ ocs, ∀ r ∈ oc.methodOffsets, B.getOffset r = 0) →
    (∀ p ∈ st.dedupe, 0 < p.2) →
    0 < st.offset →
    lookupPreserved st'.dedupe d →
    classesMatch B.getOffset W ocs2 →
    wst.offset = st.offset →
    mapWriteClassesDbg B d W wst = mapWriteClasses B W wst := by
  induction ocs with
  | nil =>
    intro st ocs2 st' W d wst h hinv h0 hpos hoff0 hpre hW hoff
    simp only [mapInitClasses, Option.some.injEq, Prod.mk.injEq] at h
    obtain ⟨rfl, rfl⟩ := h
    have hWnil : W = [] := by
      cases hW
      rfl
    subst hWnil
    rfl
  | cons oc rest ih =>
    intro st ocs2 st' W d wst h hinv h0 hpos hoff0 hpre hW hoff
    simp only [mapInitClasses] at h
    cases hs : mapInitSlots B oc.compiledMethods oc.methodOffsets st with
    | none => rw [hs] at h; simp at h
    | some p =>
      obtain ⟨rs, st1⟩ := p
      rw [hs] at h
      simp only [Option.bind_eq_bind, Option.some_bind] at h
      by_cases hlen : rs.length = oc.methodOffsets.length
      · rw [if_pos hlen] at h
        cases hr : mapInitClasses B rest st1 with
        | none => rw [hr] at h; simp at h
        | some q =>
          obtain ⟨ocs1, st2⟩ := q
          rw [hr] at h
          simp only [Option.bind_eq_bind, Option.some_bind, Option.some.injEq,
            Prod.mk.injEq] at h
          obtain ⟨rfl, rfl⟩ := h
          cases hW with
          | cons hw0 hW1 =>
            rename_i w0 W1
            obtain ⟨hcm, hrecs⟩ := hw0
            simp only [mapWriteClassesDbg, mapWriteClasses]
            -- the slot runs coincide
            have hpre1 : lookupPreserved st1.dedupe d := by
              intro b o hb
              obtain ⟨ne, f1, _, _, _, f5, _⟩ :=
                mapInitClasses_spec B hB rest st1 ocs1 st' hr (by
                  obtain ⟨_, _, _, _, _, e5, _⟩ :=
                    mapInitSlots_spec B hB oc.compiledMethods oc.methodOffsets st rs st1 hs hinv
                  exact e5)
              have hnod : (st'.dedupe.map Prod.fst).Nodup := f5.2.2
              rw [f1, List.map_append] at hnod
              have hdisj := (List.nodup_append.mp hnod).2.2
              have hmem : b ∈ st1.dedupe.map Prod.fst :=
                List.mem_map_of_mem Prod.fst (lookup_mem hb)
              refine hpre b o ?_
              rw [f1, lookup_append_right (fun hin => hdisj hin hmem)]
              exact hb
            have hdbg := mapWriteSlotsDbg_eq B hB oc.compiledMethods
              oc.methodOffsets st rs st1 w0.methodOffsets d wst hs hinv
              (h0 oc (List.mem_cons_self _ _)) hpos hoff0 hpre1
              (by simpa using hrecs) hoff
            rw [hcm, hdbg]
            cases hws : mapWriteSlots B oc.compiledMethods w0.methodOffsets wst with
            | none => rfl
            | some wst1 =>
              simp only [Option.bind_eq_bind, Option.some_bind]
              obtain ⟨hinv1, hext⟩ : dedupInv st1.dedupe st1.offset ∧
                  (∃ ne, st1.dedupe = ne ++ st.dedupe ∧ ∀ p ∈ ne, st.offset ≤ p.2) := by
                obtain ⟨ne, e1, e2, _, _, e5, _⟩ :=
                  mapInitSlots_spec B hB oc.compiledMethods oc.methodOffsets st rs st1 hs hinv
                exact ⟨e5, ne, e1, fun p hp => (e2 p hp).1⟩
              have hc1 : wst1.offset = st1.offset := by
                have := mapWriteSlots_sim B hB oc.compiledMethods
                  oc.methodOffsets st rs st1 w0.methodOffsets wst wst1 hs hinv
                  (by simpa using hrecs) hoff hws
                exact this.1
              have hpos1 : ∀ p ∈ st1.dedupe, 0 < p.2 := by
                obtain ⟨ne, he, hb⟩ := hext
                rw [he]
                intro p hp
                rcases List.mem_append.mp hp with hp | hp
                · have := hb p hp
                  omega
                · exact hpos p hp
              have hoff01 : 0 < st1.offset := by
                obtain ⟨_, _, _, _, e4, _⟩ :=
                  mapInitSlots_spec B hB oc.compiledMethods oc.methodOffsets st rs st1 hs hinv
                omega
              exact ih st1 ocs1 st' W1 d wst1 hr hinv1
                (fun q hq => h0 q (List.mem_cons_of_mem _ hq)) hpos1 hoff01 hpre hW1 hc1
      · rw [if_neg hlen] at h
        simp at h

theorem codeDelta_le_one (isa : InstructionSet) : codeDelta isa ≤ 1 := by
  cases isa <;> decide

/-- Behaviour of the code layout visitor over a slot list: dedup-table
extension, checksum trace (method header then code body per first
occurrence, in order), cursor monotonicity, the code dedup invariant and
key distinctness, and the per-slot record characterization: portable-code
methods keep code offset 0, quick-code methods carry the offset the final
code deduplication table assigns to their code blob.  All produced
records carry 0 in the three side-table offsets. -/
theorem codeInitSlots_spec (cms : List (Option CompiledMethod)) :
    ∀ st rs st', codeInitSlots cms st = some (rs, st') →
    codeDedupInv st.codeOffsets st.offset →
    (st.codeOffsets.map Prod.fst).Nodup →
    ∃ ne,
      st'.codeOffsets = ne ++ st.codeOffsets ∧
      (∀ p ∈ ne, st.offset ≤ p.2) ∧
      st'.csum = st.csum ++
        ne.reverse.flatMap (fun p => [Chunk.methodHeader p.1.length, Chunk.code p.1]) ∧
      st.offset ≤ st'.offset ∧
      codeDedupInv st'.codeOffsets st'.offset ∧
      (st'.codeOffsets.map Prod.fst).Nodup ∧
      rs.length = cms.countP Option.isSome ∧
      (∀ r' ∈ rs, r'.mappingTableOffset = 0 ∧ r'.vmapTableOffset = 0 ∧
        r'.gcMapOffset = 0) ∧
      List.Forall₂ (fun c r' =>
        (c.quickCode = none ∧ r'.codeOffset = 0) ∨
        (∃ q, c.quickCode = some q ∧
          List.lookup q st'.codeOffsets = some r'.codeOffset))
        (cms.filterMap id) rs := by
  induction cms with
  | nil =>
    intro st rs st' h hinv hnod
    simp only [codeInitSlots, Option.some.injEq, Prod.mk.injEq] at h
    obtain ⟨rfl, rfl⟩ := h
    exact ⟨[], by simp, by simp, by simp, le_refl _, hinv, hnod, by simp,
      by simp, by simp⟩
  | cons hd rest ih =>
    intro st rs st' h hinv hnod
    match hd with
    | none =>
      simp only [codeInitSlots] at h
      obtain ⟨ne, e1, e2, e3, e4, e5, e6, e7, e8, e9⟩ := ih st rs st' h hinv hnod
      exact ⟨ne, e1, e2, e3, e4, e5, e6, by simpa using e7, e8, by simpa using e9⟩
    | some c =>
      simp only [codeInitSlots] at h
      cases hslot : codeInitSlot c st with
      | none => rw [hslot] at h; simp at h
      | some p0 =>
        obtain ⟨r1, st1⟩ := p0
        rw [hslot] at h
        simp only [Option.bind_eq_bind, Option.some_bind] at h
        cases hrec : codeInitSlots rest st1 with
        | none => rw [hrec] at h; simp at h
        | some p =>
          obtain ⟨rs1, st2⟩ := p
          rw [hrec] at h
          simp only [Option.bind_eq_bind, Option.some_bind, Option.some.injEq,
            Prod.mk.injEq] at h
          obtain ⟨rfl, rfl⟩ := h
          -- analyze the slot
          cases hpc : c.portableCode with
          | some pc =>
            cases hqc : c.quickCode with
            | some q => simp [codeInitSlot, hpc, hqc] at hslot
            | none =>
              simp only [codeInitSlot, hpc, hqc, Option.some.injEq,
                Prod.mk.injEq] at hslot
              obtain ⟨hr1, hst1⟩ := hslot
              subst hst1
              obtain ⟨ne, e1, e2, e3, e4, e5, e6, e7, e8, e9⟩ := ih st rs1 st' hrec hinv hnod
              refine ⟨ne, e1, e2, e3, e4, e5, e6, by simp [hqc, e7], ?_, ?_⟩
              · intro r' hr'
                rcases List.mem_cons.mp hr' with rfl | hr'
                · rw [← hr1]
                  exact ⟨rfl, rfl, rfl⟩
                · exact e8 r' hr'
              · simp only [List.filterMap_cons, id_eq]
                refine List.Forall₂.cons ?_ e9
                left
                rw [← hr1]
                exact ⟨hqc, rfl⟩
          | none =>
            cases hqc : c.quickCode with
            | none => simp [codeInitSlot, hpc, hqc] at hslot
            | some q =>
              simp only [codeInitSlot, hpc, hqc] at hslot
              by_cases hz : q.length = 0
              · rw [if_pos hz] at hslot
                simp at hslot
              · rw [if_neg hz] at hslot
                have hla := le_alignCode st.offset c.isa
                have hmod := alignCode_mod4 st.offset c.isa
                have hdel := codeDelta_le_one c.isa
                have hlen1 : 1 ≤ q.length := Nat.one_le_iff_ne_zero.mpr hz
                have h4c : sizeofOatMethodHeader = 4 := rfl
                cases hl : List.lookup q st.codeOffsets with
                | some prev =>
                  rw [hl] at hslot
                  simp only [Option.some.injEq, Prod.mk.injEq] at hslot
                  obtain ⟨hr1, hst1⟩ := hslot
                  have hoff1 : st1.offset = alignCode st.offset c.isa := by rw [← hst1]
                  have hded1 : st1.codeOffsets = st.codeOffsets := by rw [← hst1]
                  have hcs1 : st1.csum = st.csum := by rw [← hst1]
                  have hinv1 : codeDedupInv st1.codeOffsets st1.offset := by
                    rw [hoff1, hded1]
                    intro p hp
                    have h1 := hinv p hp
                    exact ⟨by omega, fun h4 => by
                      have := h1.2 h4
                      omega⟩
                  have hnod1 : (st1.codeOffsets.map Prod.fst).Nodup := by
                    rw [hded1]
                    exact hnod
                  obtain ⟨ne, e1, e2, e3, e4, e5, e6, e7, e8, e9⟩ :=
                    ih st1 rs1 st' hrec hinv1 hnod1
                  refine ⟨ne, by rw [e1, hded1], ?_, by rw [e3, hcs1], by omega, e5,
                    e6, by simp [hqc, e7], ?_, ?_⟩
                  · intro p hp
                    have := e2 p hp
                    omega
                  · intro r' hr'
                    rcases List.mem_cons.mp hr' with rfl | hr'
                    · rw [← hr1]
                      exact ⟨rfl, rfl, rfl⟩
                    · exact e8 r' hr'
                  · simp only [List.filterMap_cons, id_eq]
                    refine List.Forall₂.cons ?_ e9
                    right
                    refine ⟨q, hqc, ?_⟩
                    rw [← hr1]
                    simp only []
                    have hnodf : (st'.codeOffsets.map Prod.fst).Nodup := e6
                    rw [e1, hded1, List.map_append] at hnodf
                    have hdisj := (List.nodup_append.mp hnodf).2.2
                    have hmem : q ∈ st.codeOffsets.map Prod.fst :=
                      List.mem_map_of_mem Prod.fst (lookup_mem hl)
                    rw [e1, hded1, lookup_append_right (fun hin => hdisj hin hmem)]
                    exact hl
                | none =>
                  rw [hl] at hslot
                  simp only [Option.some.injEq, Prod.mk.injEq] at hslot
                  obtain ⟨hr1, hst1⟩ := hslot
                  have hoff1 : st1.offset =
                      alignCode st.offset c.isa + sizeofOatMethodHeader + q.length := by
                    rw [← hst1]
                  have hded1 : st1.codeOffsets =
                      (q, alignCode st.offset c.isa + sizeofOatMethodHeader + codeDelta c.isa) ::
                        st.codeOffsets := by rw [← hst1]
                  have hcs1 : st1.csum = st.csum ++
                      [Chunk.methodHeader q.length, Chunk.code q] := by rw [← hst1]
                  have hqco4 : (alignCode st.offset c.isa + sizeofOatMethodHeader +
                      codeDelta c.isa) % 4 = codeDelta c.isa := by omega
                  have hinv1 : codeDedupInv st1.codeOffsets st1.offset := by
                    rw [hoff1, hded1]
                    intro p hp
                    rcases List.mem_cons.mp hp with rfl | hp
                    · refine ⟨?_, ?_⟩
                      · show alignCode st.offset c.isa + sizeofOatMethodHeader + codeDelta c.isa ≤
                          alignCode st.offset c.isa + sizeofOatMethodHeader + q.length
                        omega
                      · intro h4
                        show alignCode st.offset c.isa + sizeofOatMethodHeader + codeDelta c.isa <
                          alignCode st.offset c.isa + sizeofOatMethodHeader + q.length
                        rw [hqco4] at h4
                        omega
                    · have h1 := hinv p hp
                      exact ⟨by omega, fun h4 => by
                        have := h1.2 h4
                        omega⟩
                  have hnod1 : (st1.codeOffsets.map Prod.fst).Nodup := by
                    rw [hded1]
                    refine List.Nodup.cons ?_ hnod
                    simpa using not_mem_keys_of_lookup_none hl
                  obtain ⟨ne, e1, e2, e3, e4, e5, e6, e7, e8, e9⟩ :=
                    ih st1 rs1 st' hrec hinv1 hnod1
                  refine ⟨ne ++ [(q, alignCode st.offset c.isa + sizeofOatMethodHeader + codeDelta c.isa)],
                    ?_, ?_, ?_, by omega, e5, e6, by simp [hqc, e7], ?_, ?_⟩
                  · rw [e1, hded1]
                    simp
                  · intro p hp
                    rcases List.mem_append.mp hp with hp | hp
                    · have := e2 p hp
                      omega
                    · simp at hp
                      subst hp
                      omega
                  · rw [e3, hcs1]
                    simp
                  · intro r' hr'
                    rcases List.mem_cons.mp hr' with rfl | hr'
                    · rw [← hr1]
                      exact ⟨rfl, rfl, rfl⟩
                    · exact e8 r' hr'
                  · simp only [List.filterMap_cons, id_eq]
                    refine List.Forall₂.cons ?_ e9
                    right
                    refine ⟨q, hqc, ?_⟩
                    rw [← hr1]
                    simp only []
                    have hnodf : (st'.codeOffsets.map Prod.fst).Nodup := e6
                    rw [e1, List.map_append] at hnodf
                    have hdisj := (List.nodup_append.mp hnodf).2.2
                    have hmem : q ∈ st1.codeOffsets.map Prod.fst := by
                      rw [hded1]; simp
                    rw [e1, lookup_append_right (fun hin => hdisj hin hmem), hded1]
                    simp [List.lookup_cons]

/-- A successful `WriteFully` advances the position by the chunk size and
appends the position-stamped chunk. -/
theorem writeFully_spec {s s2 : OutStream} {c : Chunk}
    (h : s.writeFully c = some s2) :
    s2.pos = s.pos + c.size ∧ s2.chunks = s.chunks ++ [(s.pos, c)] := by
  unfold OutStream.writeFully at h
  cases hb : s.budget with
  | none =>
    rw [hb] at h
    simp only [Option.some.injEq] at h
    rw [← h]
    exact ⟨rfl, rfl⟩
  | some n =>
    cases n with
    | zero => rw [hb] at h; simp at h
    | succ m =>
      rw [hb] at h
      simp only [Option.some.injEq] at h
      rw [← h]
      exact ⟨rfl, rfl⟩


/-- Pass-2 refinement for the code region over a slot list: run with
records carrying the code offsets of the layout pass, the write visitor's
cursor tracks the layout cursor, the stream position advances by the
layout delta, the non-padding chunks it emits are exactly the blobs the
layout folded into the checksum, and all padding chunks are all-zero. -/
theorem codeWriteSlots_sim (cms : List (Option CompiledMethod)) :
    ∀ st rs st' R wst wst',
    codeInitSlots cms st = some (rs, st') →
    codeDedupInv st.codeOffsets st.offset →
    (st.codeOffsets.map Prod.fst).Nodup →
    R.map OatMethodOffsets.codeOffset = rs.map OatMethodOffsets.codeOffset →
    wst.offset = st.offset →
    codeWriteSlots cms R wst = some wst' →
    wst'.offset = st'.offset ∧
    wst'.stream.pos = wst.stream.pos + (st'.offset - st.offset) ∧
    ∃ L, wst'.stream.chunks = wst.stream.chunks ++ L ∧
      st'.csum = st.csum ++ ((L.map Prod.snd).filter fun c => !c.isPadding) ∧
      (∀ pc ∈ L, ∀ b, pc.2 = Chunk.padding b → b = List.replicate b.length 0) := by
  induction cms with
  | nil =>
    intro st rs st' R wst wst' h hinv hnod hR hoff hw
    simp only [codeInitSlots, Option.some.injEq, Prod.mk.injEq] at h
    obtain ⟨rfl, rfl⟩ := h
    simp only [codeWriteSlots, Option.some.injEq] at hw
    subst hw
    exact ⟨hoff, by omega, [], by simp, by simp, by simp⟩
  | cons hd rest ih =>
    intro st rs st' R wst wst' h hinv hnod hR hoff hw
    match hd with
    | none =>
      simp only [codeInitSlots] at h
      simp only [codeWriteSlots] at hw
      exact ih st rs st' R wst wst' h hinv hnod hR hoff hw
    | some c =>
      simp only [codeInitSlots] at h
      cases hslot : codeInitSlot c st with
      | none => rw [hslot] at h; simp at h
      | some p0 =>
        obtain ⟨r1, st1⟩ := p0
        rw [hslot] at h
        simp only [Option.bind_eq_bind, Option.some_bind] at h
        cases hrec : codeInitSlots rest st1 with
        | none => rw [hrec] at h; simp at h
        | some p =>
          obtain ⟨rs1, st2⟩ := p
          rw [hrec] at h
          simp only [Option.bind_eq_bind, Option.some_bind, Option.some.injEq,
            Prod.mk.injEq] at h
          obtain ⟨rfl, rfl⟩ := h
          match R with
          | [] => simp at hR
          | R0 :: R1 =>
            simp only [List.map_cons, List.cons.injEq] at hR
            obtain ⟨hR0, hR1⟩ := hR
            simp only [codeWriteSlots] at hw
            cases hpc : c.portableCode with
            | some pc =>
              cases hqc : c.quickCode with
              | some q => simp [codeInitSlot, hpc, hqc] at hslot
              | none =>
                simp only [codeInitSlot, hpc, hqc, Option.some.injEq,
                  Prod.mk.injEq] at hslot
                obtain ⟨hr1, hst1⟩ := hslot
                subst hst1
                simp only [codeWriteSlot, hqc] at hw
                exact ih st rs1 st' R1 wst wst' hrec hinv hnod hR1 hoff hw
            | none =>
              cases hqc : c.quickCode with
              | none => simp [codeInitSlot, hpc, hqc] at hslot
              | some q =>
                simp only [codeInitSlot, hpc, hqc] at hslot
                by_cases hz : q.length = 0
                · rw [if_pos hz] at hslot
                  simp at hslot
                · rw [if_neg hz] at hslot
                  have hla := le_alignCode st.offset c.isa
                  have hmod := alignCode_mod4 st.offset c.isa
                  have hdel := codeDelta_le_one c.isa
                  have hlen1 : 1 ≤ q.length := Nat.one_le_iff_ne_zero.mpr hz
                  have h4c : sizeofOatMethodHeader = 4 := rfl
                  simp only [codeWriteSlot, hqc, hpc] at hw
                  rw [hoff] at hw
                  cases hw1 : (if alignCode st.offset c.isa - st.offset ≠ 0 then
                      (wst.stream.writeFully
                        (.padding (List.replicate (alignCode st.offset c.isa - st.offset) 0))).map
                        fun s => (⟨st.offset + (alignCode st.offset c.isa - st.offset), s⟩ : WSt)
                    else some wst) with
                  | none => rw [hw1] at hw; simp at hw
                  | some out1 =>
                    rw [hw1] at hw
                    simp only [Option.some_bind, Option.bind_eq_bind] at hw
                    have hpad : out1.offset = alignCode st.offset c.isa ∧
                        out1.stream.pos = wst.stream.pos +
                          (alignCode st.offset c.isa - st.offset) ∧
                        ∃ L0, out1.stream.chunks = wst.stream.chunks ++ L0 ∧
                          (∀ pc0 ∈ L0, pc0.2.isPadding = true) ∧
                          (∀ pc0 ∈ L0, ∀ b, pc0.2 = Chunk.padding b →
                            b = List.replicate b.length 0) := by
                      by_cases hd0 : alignCode st.offset c.isa - st.offset ≠ 0
                      · rw [if_pos hd0] at hw1
                        cases hwf : wst.stream.writeFully
                            (.padding (List.replicate (alignCode st.offset c.isa - st.offset) 0)) with
                        | none => rw [hwf] at hw1; simp at hw1
                        | some s2 =>
                          rw [hwf] at hw1
                          simp only [Option.map_some', Option.some.injEq] at hw1
                          obtain ⟨hp1, hp2⟩ := writeFully_spec hwf
                          have ho1 : out1.offset = st.offset +
                              (alignCode st.offset c.isa - st.offset) := by rw [← hw1]
                          have ho2 : out1.stream = s2 := by rw [← hw1]
                          refine ⟨by omega, ?_, ?_⟩
                          · rw [ho2, hp1]
                            simp [Chunk.size]
                          · refine ⟨[(wst.stream.pos,
                              Chunk.padding (List.replicate (alignCode st.offset c.isa - st.offset) 0))],
                              by rw [ho2, hp2], ?_, ?_⟩
                            · intro pc0 hpc0
                              simp only [List.mem_singleton] at hpc0
                              subst hpc0
                              rfl
                            · intro pc0 hpc0 b hb
                              simp only [List.mem_singleton] at hpc0
                              subst hpc0
                              simp only [Chunk.padding.injEq] at hb
                              rw [← hb]
                              simp
                      · rw [if_neg hd0] at hw1
                        simp only [Option.some.injEq] at hw1
                        simp only [not_not] at hd0
                        have ho1 : out1.offset = st.offset + 0 := by
                          rw [← hw1, hoff]
                          omega
                        have ho2 : out1.stream = wst.stream := by rw [← hw1]
                        exact ⟨by omega, by rw [ho2]; omega, [], by rw [ho2]; simp,
                          by simp, by simp⟩
                    obtain ⟨ho1, ho2, L0, ho3, ho4, ho5⟩ := hpad
                    rw [if_neg hz, ho1] at hw
                    cases hl : List.lookup q st.codeOffsets with
                    | some prev =>
                      rw [hl] at hslot
                      simp only [Option.some.injEq, Prod.mk.injEq] at hslot
                      obtain ⟨hr1, hst1⟩ := hslot
                      have hoff1 : st1.offset = alignCode st.offset c.isa := by rw [← hst1]
                      have hded1 : st1.codeOffsets = st.codeOffsets := by rw [← hst1]
                      have hcs1 : st1.csum = st.csum := by rw [← hst1]
                      have hinv1 : codeDedupInv st1.codeOffsets st1.offset := by
                        rw [hoff1, hded1]
                        intro p hp
                        have h1 := hinv p hp
                        exact ⟨by omega, fun h4 => by
                          have := h1.2 h4
                          omega⟩
                      have hnod1 : (st1.codeOffsets.map Prod.fst).Nodup := by
                        rw [hded1]; exact hnod
                      have hprev : prev < alignCode st.offset c.isa := by
                        have h1 := hinv _ (lookup_mem hl)
                        rcases Nat.lt_or_ge prev st.offset with hc | hc
                        · omega
                        · have hpe : prev = st.offset := by omega
                          by_cases h4 : prev % 4 = 0
                          · have := h1.2 h4
                            omega
                          · omega
                      have hcond : ¬(R0.codeOffset ≥ alignCode st.offset c.isa) := by
                        rw [hR0, ← hr1]
                        show ¬(prev ≥ alignCode st.offset c.isa)
                        omega
                      rw [if_neg hcond] at hw
                      have hoffa : out1.offset = st1.offset := by rw [ho1, hoff1]
                      obtain ⟨c1, c2, L1, c3, c4, c5⟩ :=
                        ih st1 rs1 st' R1 out1 wst' hrec hinv1 hnod1 hR1 hoffa hw
                      have hm1 : st1.offset ≤ st'.offset := by
                        obtain ⟨_, _, _, _, e4, _⟩ :=
                          codeInitSlots_spec rest st1 rs1 st' hrec hinv1 hnod1
                        exact e4
                      refine ⟨c1, by omega, L0 ++ L1,
                        by rw [c3, ho3, List.append_assoc], ?_, ?_⟩
                      · rw [c4, hcs1]
                        have h0 : (L0.map Prod.snd).filter (fun c => !c.isPadding) = [] := by
                          rw [List.filter_eq_nil_iff]
                          intro ch hch
                          obtain ⟨pc0, hpc0, rfl⟩ := List.mem_map.mp hch
                          have := ho4 pc0 hpc0
                          simp [this]
                        simp [h0]
                      · intro pc0 hpc0 b hb
                        rcases List.mem_append.mp hpc0 with hpc0 | hpc0
                        · exact ho5 pc0 hpc0 b hb
                        · exact c5 pc0 hpc0 b hb
                    | none =>
                      rw [hl] at hslot
                      simp only [Option.some.injEq, Prod.mk.injEq] at hslot
                      obtain ⟨hr1, hst1⟩ := hslot
                      have hoff1 : st1.offset =
                          alignCode st.offset c.isa + sizeofOatMethodHeader + q.length := by
                        rw [← hst1]
                      have hded1 : st1.codeOffsets =
                          (q, alignCode st.offset c.isa + sizeofOatMethodHeader + codeDelta c.isa) ::
                            st.codeOffsets := by rw [← hst1]
                      have hcs1 : st1.csum = st.csum ++
                          [Chunk.methodHeader q.length, Chunk.code q] := by rw [← hst1]
                      have hqco4 : (alignCode st.offset c.isa + sizeofOatMethodHeader +
                          codeDelta c.isa) % 4 = codeDelta c.isa := by omega
                      have hinv1 : codeDedupInv st1.codeOffsets st1.offset := by
                        rw [hoff1, hded1]
                        intro p hp
                        rcases List.mem_cons.mp hp with rfl | hp
                        · refine ⟨?_, ?_⟩
                          · show alignCode st.offset c.isa + sizeofOatMethodHeader + codeDelta c.isa ≤
                              alignCode st.offset c.isa + sizeofOatMethodHeader + q.length
                            omega
                          · intro h4
                            show alignCode st.offset c.isa + sizeofOatMethodHeader + codeDelta c.isa <
                              alignCode st.offset c.isa + sizeofOatMethodHeader + q.length
                            rw [hqco4] at h4
                            omega
                        · have h1 := hinv p hp
                          exact ⟨by omega, fun h4 => by
                            have := h1.2 h4
                            omega⟩
                      have hnod1 : (st1.codeOffsets.map Prod.fst).Nodup := by
                        rw [hded1]
                        refine List.Nodup.cons ?_ hnod
                        simpa using not_mem_keys_of_lookup_none hl
                      have hcond : (R0.codeOffset ≥ alignCode st.offset c.isa) := by
                        rw [hR0, ← hr1]
                        show alignCode st.offset c.isa + sizeofOatMethodHeader + codeDelta c.isa ≥
                          alignCode st.offset c.isa
                        omega
                      rw [if_pos hcond] at hw
                      cases hwf1 : out1.stream.writeFully (.methodHeader q.length) with
                      | none => rw [hwf1] at hw; simp at hw
                      | some s3 =>
                        rw [hwf1] at hw
                        simp only [Option.some_bind, Option.bind_eq_bind] at hw
                        cases hwf2 : s3.writeFully (.code q) with
                        | none => rw [hwf2] at hw; simp at hw
                        | some s4 =>
                          rw [hwf2] at hw
                          simp only [Option.some_bind, Option.bind_eq_bind] at hw
                          obtain ⟨hq1, hq2⟩ := writeFully_spec hwf1
                          obtain ⟨hq3, hq4⟩ := writeFully_spec hwf2
                          have hw2 : codeWriteSlots rest R1
                              ⟨alignCode st.offset c.isa + sizeofOatMethodHeader + q.length, s4⟩ =
                              some wst' := hw
                          have hoffa : (⟨alignCode st.offset c.isa + sizeofOatMethodHeader + q.length,
                              s4⟩ : WSt).offset = st1.offset := by
                            show alignCode st.offset c.isa + sizeofOatMethodHeader + q.length
                              = st1.offset
                            rw [hoff1]
                          obtain ⟨c1, c2, L1, c3, c4, c5⟩ :=
                            ih st1 rs1 st' R1 _ wst' hrec hinv1 hnod1 hR1 hoffa hw2
                          have c2' : wst'.stream.pos = s4.pos + (st'.offset - st1.offset) := c2
                          have c3' : wst'.stream.chunks = s4.chunks ++ L1 := c3
                          have hm1 : st1.offset ≤ st'.offset := by
                            obtain ⟨_, _, _, _, e4, _⟩ :=
                              codeInitSlots_spec rest st1 rs1 st' hrec hinv1 hnod1
                            exact e4
                          have hsz1 : (Chunk.methodHeader q.length).size = 4 := rfl
                          have hsz2 : (Chunk.code q).size = q.length := rfl
                          refine ⟨c1, ?_,
                            L0 ++ [(out1.stream.pos, Chunk.methodHeader q.length),
                                   (s3.pos, Chunk.code q)] ++ L1, ?_, ?_, ?_⟩
                          · rw [c2', hq3, hq1, hsz1, hsz2, ho2]
                            omega
                          · rw [c3', hq4, hq2, ho3]
                            simp
                          · rw [c4, hcs1]
                            have h0 : (L0.map Prod.snd).filter (fun c => !c.isPadding) = [] := by
                              rw [List.filter_eq_nil_iff]
                              intro ch hch
                              obtain ⟨pc0, hpc0, rfl⟩ := List.mem_map.mp hch
                              have := ho4 pc0 hpc0
                              simp [this]
                            simp only [List.append_assoc, List.map_append, List.filter_append, h0,
                              List.nil_append, List.map_cons, List.map_nil]
                            simp [Chunk.isPadding]
                          · intro pc0 hpc0 b hb
                            rcases List.mem_append.mp hpc0 with hpc0 | hpc0
                            · rcases List.mem_append.mp hpc0 with hpc0 | hpc0
                              · exact ho5 pc0 hpc0 b hb
                              · simp only [List.mem_cons, List.mem_singleton,
                                  List.not_mem_nil, or_false] at hpc0
                                rcases hpc0 with h' | h' <;>
                                  · rw [h'] at hb
                                    simp at hb
                            · exact c5 pc0 hpc0 b hb

/-- The debug checks of the code write visitor never fire: run against the
records and final code deduplication table produced by the layout pass,
the checked visitor behaves exactly like the unchecked one (in particular
the cursor after alignment padding always satisfies the architecture's
code alignment, and each recorded code offset is either strictly below
the aligned cursor or exactly the aligned cursor plus method header plus
code delta). -/
theorem codeWriteSlotsDbg_eq (cms : List (Option CompiledMethod)) :
    ∀ st rs st' R d wst,
    codeInitSlots cms st = some (rs, st') →
    codeDedupInv st.codeOffsets st.offset →
    (st.codeOffsets.map Prod.fst).Nodup →
    lookupPreserved st'.codeOffsets d →
    R.map OatMethodOffsets.codeOffset = rs.map OatMethodOffsets.codeOffset →
    wst.offset = st.offset →
    codeWriteSlotsDbg d cms R wst = codeWriteSlots cms R wst := by
  induction cms with
  | nil => intro st rs st' R d wst _ _ _ _ _ _; rfl
  | cons hd rest ih =>
    intro st rs st' R d wst h hinv hnod hpre hR hoff
    match hd with
    | none =>
      simp only [codeInitSlots] at h
      simp only [codeWriteSlotsDbg, codeWriteSlots]
      exact ih st rs st' R d wst h hinv hnod hpre hR hoff
    | some c =>
      simp only [codeInitSlots] at h
      cases hslot : codeInitSlot c st with
      | none => rw [hslot] at h; simp at h
      | some p0 =>
        obtain ⟨r1, st1⟩ := p0
        rw [hslot] at h
        simp only [Option.bind_eq_bind, Option.some_bind] at h
        cases hrec : codeInitSlots rest st1 with
        | none => rw [hrec] at h; simp at h
        | some p =>
          obtain ⟨rs1, st2⟩ := p
          rw [hrec] at h
          simp only [Option.bind_eq_bind, Option.some_bind, Option.some.injEq,
            Prod.mk.injEq] at h
          obtain ⟨rfl, rfl⟩ := h
          match R with
          | [] => simp at hR
          | R0 :: R1 =>
            simp only [List.map_cons, List.cons.injEq] at hR
            obtain ⟨hR0, hR1⟩ := hR
            simp only [codeWriteSlotsDbg, codeWriteSlots]
            cases hpc : c.portableCode with
            | some pc =>
              cases hqc : c.quickCode with
              | some q => simp [codeInitSlot, hpc, hqc] at hslot
              | none =>
                simp only [codeInitSlot, hpc, hqc, Option.some.injEq,
                  Prod.mk.injEq] at hslot
                obtain ⟨hr1, hst1⟩ := hslot
                subst hst1
                simp only [codeWriteSlotDbg, codeWriteSlot, hqc]
                exact ih st rs1 st' R1 d wst hrec hinv hnod hpre hR1 hoff
            | none =>
              cases hqc : c.quickCode with
              | none => simp [codeInitSlot, hpc, hqc] at hslot
              | some q =>
                simp only [codeInitSlot, hpc, hqc] at hslot
                by_cases hz : q.length = 0
                · rw [if_pos hz] at hslot
                  simp at hslot
                · rw [if_neg hz] at hslot
                  have hla := le_alignCode st.offset c.isa
                  have hmod := alignCode_mod4 st.offset c.isa
                  have hmodi := alignCode_mod st.offset c.isa
                  have hdel := codeDelta_le_one c.isa
                  have hlen1 : 1 ≤ q.length := Nat.one_le_iff_ne_zero.mpr hz
                  have h4c : sizeofOatMethodHeader = 4 := rfl
                  simp only [codeWriteSlotDbg, codeWriteSlot, hqc, hpc]
                  rw [hoff]
                  cases hw1 : (if alignCode st.offset c.isa - st.offset ≠ 0 then
                      (wst.stream.writeFully
                        (.padding (List.replicate (alignCode st.offset c.isa - st.offset) 0))).map
                        fun s => (⟨st.offset + (alignCode st.offset c.isa - st.offset), s⟩ : WSt)
                    else some wst) with
                  | none => rfl
                  | some out1 =>
                    simp only [Option.some_bind, Option.bind_eq_bind]
                    have ho1 : out1.offset = alignCode st.offset c.isa := by
                      by_cases hd0 : alignCode st.offset c.isa - st.offset ≠ 0
                      · rw [if_pos hd0] at hw1
                        cases hwf : wst.stream.writeFully
                            (.padding (List.replicate (alignCode st.offset c.isa - st.offset) 0)) with
                        | none => rw [hwf] at hw1; simp at hw1
                        | some s2 =>
                          rw [hwf] at hw1
                          simp only [Option.map_some', Option.some.injEq] at hw1
                          have : out1.offset = st.offset +
                              (alignCode st.offset c.isa - st.offset) := by rw [← hw1]
                          omega
                      · rw [if_neg hd0] at hw1
                        simp only [Option.some.injEq] at hw1
                        simp only [not_not] at hd0
                        have : out1.offset = wst.offset := by rw [← hw1]
                        omega
                    rw [ho1]
                    have hal : ¬(alignCode st.offset c.isa % instructionSetAlignment c.isa ≠ 0) := by
                      simp [hmodi]
                    rw [if_neg hal]
                    simp only [if_neg hz]
                    -- the record's code offset and its final-table lookup
                    cases hl : List.lookup q st.codeOffsets with
                    | some prev =>
                      rw [hl] at hslot
                      simp only [Option.some.injEq, Prod.mk.injEq] at hslot
                      obtain ⟨hr1, hst1⟩ := hslot
                      have hded1 : st1.codeOffsets = st.codeOffsets := by rw [← hst1]
                      have hoff1 : st1.offset = alignCode st.offset c.isa := by rw [← hst1]
                      have hinv1 : codeDedupInv st1.codeOffsets st1.offset := by
                        rw [hoff1, hded1]
                        intro p hp
                        have h1 := hinv p hp
                        exact ⟨by omega, fun h4 => by
                          have := h1.2 h4
                          omega⟩
                      have hnod1 : (st1.codeOffsets.map Prod.fst).Nodup := by
                        rw [hded1]; exact hnod
                      have hR0v : R0.codeOffset = prev := by
                        rw [hR0, ← hr1]
                      have hprev : prev < alignCode st.offset c.isa := by
                        have h1 := hinv _ (lookup_mem hl)
                        rcases Nat.lt_or_ge prev st.offset with hc | hc
                        · omega
                        · by_cases h4 : prev % 4 = 0
                          · have := h1.2 h4
                            omega
                          · omega
                      have hfin : List.lookup q st'.codeOffsets = some prev := by
                        obtain ⟨ne, e1, _, _, _, _, e6, _⟩ :=
                          codeInitSlots_spec rest st1 rs1 st' hrec hinv1 hnod1
                        rw [e1, hded1] at *
                        have hnodf : ((ne ++ st.codeOffsets).map Prod.fst).Nodup := by
                          rw [← hded1, ← e1]
                          exact e6
                        rw [List.map_append] at hnodf
                        have hdisj := (List.nodup_append.mp hnodf).2.2
                        have hmem : q ∈ st.codeOffsets.map Prod.fst :=
                          List.mem_map_of_mem Prod.fst (lookup_mem hl)
                        rw [lookup_append_right (fun hin => hdisj hin hmem)]
                        exact hl
                      have hlk : ¬(List.lookup q d ≠ some R0.codeOffset) := by
                        rw [hR0v]
                        intro hc
                        exact hc (hpre _ _ hfin)
                      rw [if_neg hlk]
                      have hdc : ¬¬(R0.codeOffset < alignCode st.offset c.isa ∨
                          R0.codeOffset = alignCode st.offset c.isa + sizeofOatMethodHeader +
                            codeDelta c.isa) := by
                        rw [hR0v]
                        exact not_not_intro (Or.inl hprev)
                      rw [if_neg hdc]
                      have hge : ¬(R0.codeOffset ≥ alignCode st.offset c.isa) := by
                        rw [hR0v]
                        omega
                      rw [if_neg hge]
                      have hoffa : out1.offset = st1.offset := by rw [ho1, hoff1]
                      exact ih st1 rs1 st' R1 d out1 hrec hinv1 hnod1 hpre hR1 hoffa
                    | none =>
                      rw [hl] at hslot
                      simp only [Option.some.injEq, Prod.mk.injEq] at hslot
                      obtain ⟨hr1, hst1⟩ := hslot
                      have hded1 : st1.codeOffsets =
                          (q, alignCode st.offset c.isa + sizeofOatMethodHeader + codeDelta c.isa) ::
                            st.codeOffsets := by rw [← hst1]
                      have hoff1 : st1.offset =
                          alignCode st.offset c.isa + sizeofOatMethodHeader + q.length := by
                        rw [← hst1]
                      have hqco4 : (alignCode st.offset c.isa + sizeofOatMethodHeader +
                          codeDelta c.isa) % 4 = codeDelta c.isa := by omega
                      have hinv1 : codeDedupInv st1.codeOffsets st1.offset := by
                        rw [hoff1, hded1]
                        intro p hp
                        rcases List.mem_cons.mp hp with rfl | hp
                        · refine ⟨?_, ?_⟩
                          · show alignCode st.offset c.isa + sizeofOatMethodHeader + codeDelta c.isa ≤
                              alignCode st.offset c.isa + sizeofOatMethodHeader + q.length
                            omega
                          · intro h4
                            show alignCode st.offset c.isa + sizeofOatMethodHeader + codeDelta c.isa <
                              alignCode st.offset c.isa + sizeofOatMethodHeader + q.length
                            rw [hqco4] at h4
                            omega
                        · have h1 := hinv p hp
                          exact ⟨by omega, fun h4 => by
                            have := h1.2 h4
                            omega⟩
                      have hnod1 : (st1.codeOffsets.map Prod.fst).Nodup := by
                        rw [hded1]
                        refine List.Nodup.cons ?_ hnod
                        simpa using not_mem_keys_of_lookup_none hl
                      have hR0v : R0.codeOffset =
                          alignCode st.offset c.isa + sizeofOatMethodHeader + codeDelta c.isa := by
                        rw [hR0, ← hr1]
                      have hfin : List.lookup q st'.codeOffsets =
                          some (alignCode st.offset c.isa + sizeofOatMethodHeader +
                            codeDelta c.isa) := by
                        obtain ⟨ne, e1, _, _, _, _, e6, _⟩ :=
                          codeInitSlots_spec rest st1 rs1 st' hrec hinv1 hnod1
                        have hnodf : (st'.codeOffsets.map Prod.fst).Nodup := e6
                        rw [e1, List.map_append] at hnodf
                        have hdisj := (List.nodup_append.mp hnodf).2.2
                        have hmem : q ∈ st1.codeOffsets.map Prod.fst := by
                          rw [hded1]; simp
                        rw [e1, lookup_append_right (fun hin => hdisj hin hmem), hded1]
                        simp [List.lookup_cons]
                      have hlk : ¬(List.lookup q d ≠ some R0.codeOffset) := by
                        rw [hR0v]
                        intro hc
                        exact hc (hpre _ _ hfin)
                      rw [if_neg hlk]
                      have hdc : ¬¬(R0.codeOffset < alignCode st.offset c.isa ∨
                          R0.codeOffset = alignCode st.offset c.isa + sizeofOatMethodHeader +
                            codeDelta c.isa) := by
                        rw [hR0v]
                        exact not_not_intro (Or.inr rfl)
                      rw [if_neg hdc]
                      have hge : (R0.codeOffset ≥ alignCode st.offset c.isa) := by
                        rw [hR0v]
                        omega
                      rw [if_pos hge]
                      cases hwf1 : out1.stream.writeFully (.methodHeader q.length) with
                      | none => rfl
                      | some s3 =>
                        simp only [Option.some_bind, Option.bind_eq_bind]
                        cases hwf2 : s3.writeFully (.code q) with
                        | none => rfl
                        | some s4 =>
                          simp only [Option.some_bind, Option.bind_eq_bind]
                          have hoffa : (⟨alignCode st.offset c.isa + sizeofOatMethodHeader + q.length,
                              s4⟩ : WSt).offset = st1.offset := by
                            show alignCode st.offset c.isa + sizeofOatMethodHeader + q.length
                              = st1.offset
                            rw [hoff1]
                          exact ih st1 rs1 st' R1 d _ hrec hinv1 hnod1 hpre hR1 hoffa

/-- Class-level behaviour of the code layout visitor
(`InitCodeMethodProcessor` driven over the whole traversal). -/
theorem codeInitClasses_spec (ocs : List OatClass) :
    ∀ st ocs2 st', codeInitClasses ocs st = some (ocs2, st') →
    codeDedupInv st.codeOffsets st.offset →
    (st.codeOffsets.map Prod.fst).Nodup →
    ∃ ne,
      st'.codeOffsets = ne ++ st.codeOffsets ∧
      (∀ p ∈ ne, st.offset ≤ p.2) ∧
      st'.csum = st.csum ++
        ne.reverse.flatMap (fun p => [Chunk.methodHeader p.1.length, Chunk.code p.1]) ∧
      st.offset ≤ st'.offset ∧
      codeDedupInv st'.codeOffsets st'.offset ∧
      (st'.codeOffsets.map Prod.fst).Nodup ∧
      List.Forall₂ (fun oc oc2 =>
        oc2.offset = oc.offset ∧ oc2.compiledMethods = oc.compiledMethods ∧
        oc2.status = oc.status ∧ oc2.type = oc.type ∧
        oc2.methodBitmapSize = oc.methodBitmapSize ∧
        oc2.methodBitmap = oc.methodBitmap ∧
        oc2.oatMethodOffsetsOffsetsFromOatClass = oc.oatMethodOffsetsOffsetsFromOatClass ∧
        oc2.methodOffsets.length = oc.methodOffsets.length ∧
        (∀ r ∈ oc2.methodOffsets, r.mappingTableOffset = 0 ∧
          r.vmapTableOffset = 0 ∧ r.gcMapOffset = 0)) ocs ocs2 ∧
      List.Forall₂ (fun c r' =>
        (c.quickCode = none ∧ r'.codeOffset = 0) ∨
        (∃ q, c.quickCode = some q ∧
          List.lookup q st'.codeOffsets = some r'.codeOffset))
        (compiledSlots ocs) (allRecords ocs2) := by
  induction ocs with
  | nil =>
    intro st ocs2 st' h hinv hnod
    simp only [codeInitClasses, Option.some.injEq, Prod.mk.injEq] at h
    obtain ⟨rfl, rfl⟩ := h
    exact ⟨[], by simp, by simp, by simp, le_refl _, hinv, hnod,
      List.Forall₂.nil, by simp [compiledSlots, allRecords]⟩
  | cons oc rest ih =>
    intro st ocs2 st' h hinv hnod
    simp only [codeInitClasses] at h
    cases hs : codeInitSlots oc.compiledMethods st with
    | none => rw [hs] at h; simp at h
    | some p =>
      obtain ⟨rs, st1⟩ := p
      rw [hs] at h
      simp only [Option.bind_eq_bind, Option.some_bind] at h
      by_cases hlen : rs.length = oc.methodOffsets.length
      · rw [if_pos hlen] at h
        cases hr : codeInitClasses rest st1 with
        | none => rw [hr] at h; simp at h
        | some q =>
          obtain ⟨ocs1, st2⟩ := q
          rw [hr] at h
          simp only [Option.bind_eq_bind, Option.some_bind, Option.some.injEq,
            Prod.mk.injEq] at h
          obtain ⟨rfl, rfl⟩ := h
          obtain ⟨ne1, e1, e2, e3, e4, e5, e6, e7, e8, e9⟩ :=
            codeInitSlots_spec oc.compiledMethods st rs st1 hs hinv hnod
          obtain ⟨ne2, f1, f2, f3, f4, f5, f6, f7, f8⟩ := ih st1 ocs1 st' hr e5 e6
          refine ⟨ne2 ++ ne1, ?_, ?_, ?_, by omega, f5, f6, ?_, ?_⟩
          · rw [f1, e1, List.append_assoc]
          · intro p hp
            rcases List.mem_append.mp hp with hp | hp
            · have := f2 p hp
              omega
            · exact e2 p hp
          · rw [f3, e3]
            simp
          · refine List.Forall₂.cons ?_ f7
            exact ⟨rfl, rfl, rfl, rfl, rfl, rfl, rfl, by simp [hlen], e8⟩
          · simp only [compiledSlots, allRecords, List.flatMap_cons,
              List.filterMap_append]
            refine List.rel_append ?_ f8
            refine e9.imp ?_
            intro c r' hcr
            rcases hcr with ⟨hqn, hz⟩ | ⟨q, hq, hlk⟩
            · exact Or.inl ⟨hqn, hz⟩
            · refine Or.inr ⟨q, hq, ?_⟩
              have hnodf : (st'.codeOffsets.map Prod.fst).Nodup := f6
              rw [f1, List.map_append] at hnodf
              have hdisj := (List.nodup_append.mp hnodf).2.2
              have hmem : q ∈ st1.codeOffsets.map Prod.fst :=
                List.mem_map_of_mem Prod.fst (lookup_mem hlk)
              rw [f1, lookup_append_right (fun hin => hdisj hin hmem)]
              exact hlk
      · rw [if_neg hlen] at h
        simp at h

/-- Class-level pass-2 refinement for the code region. -/
theorem codeWriteClasses_sim (ocs : List OatClass) :
    ∀ st ocs2 st' W wst wst',
    codeInitClasses ocs st = some (ocs2, st') →
    codeDedupInv st.codeOffsets st.offset →
    (st.codeOffsets.map Prod.fst).Nodup →
    classesMatch OatMethodOffsets.codeOffset W ocs2 →
    wst.offset = st.offset →
    codeWriteClasses W wst = some wst' →
    wst'.offset = st'.offset ∧
    wst'.stream.pos = wst.stream.pos + (st'.offset - st.offset) ∧
    ∃ L, wst'.stream.chunks = wst.stream.chunks ++ L ∧
      st'.csum = st.csum ++ ((L.map Prod.snd).filter fun c => !c.isPadding) ∧
      (∀ pc ∈ L, ∀ b, pc.2 = Chunk.padding b → b = List.replicate b.length 0) := by
  induction ocs with
  | nil =>
    intro st ocs2 st' W wst wst' h hinv hnod hW hoff hw
    simp only [codeInitClasses, Option.some.injEq, Prod.mk.injEq] at h
    obtain ⟨rfl, rfl⟩ := h
    have hWnil : W = [] := by cases hW; rfl
    subst hWnil
    simp only [codeWriteClasses, Option.some.injEq] at hw
    subst hw
    exact ⟨hoff, by omega, [], by simp, by simp, by simp⟩
  | cons oc rest ih =>
    intro st ocs2 st' W wst wst' h hinv hnod hW hoff hw
    simp only [codeInitClasses] at h
    cases hs : codeInitSlots oc.compiledMethods st with
    | none => rw [hs] at h; simp at h
    | some p =>
      obtain ⟨rs, st1⟩ := p
      rw [hs] at h
      simp only [Option.bind_eq_bind, Option.some_bind] at h
      by_cases hlen : rs.length = oc.methodOffsets.length
      · rw [if_pos hlen] at h
        cases hr : codeInitClasses rest st1 with
        | none => rw [hr] at h; simp at h
        | some q =>
          obtain ⟨ocs1, st2⟩ := q
          rw [hr] at h
          simp only [Option.bind_eq_bind, Option.some_bind, Option.some.injEq,
            Prod.mk.injEq] at h
          obtain ⟨rfl, rfl⟩ := h
          cases hW with
          | cons hw0 hW1 =>
            rename_i w0 W1
            obtain ⟨hcm, hrecs⟩ := hw0
            simp only [codeWriteClasses] at hw
            cases hws : codeWriteSlots w0.compiledMethods w0.methodOffsets wst with
            | none => rw [hws] at hw; simp at hw
            | some wst1 =>
              rw [hws] at hw
              simp only [Option.bind_eq_bind, Option.some_bind] at hw
              rw [hcm] at hws
              obtain ⟨c1, c2, L1, c3, c4, c5⟩ := codeWriteSlots_sim
                oc.compiledMethods st rs st1 w0.methodOffsets wst wst1 hs hinv hnod
                (by simpa using hrecs) hoff hws
              obtain ⟨_, _, _, _, e4, e5, e6, _⟩ :=
                codeInitSlots_spec oc.compiledMethods st rs st1 hs hinv hnod
              obtain ⟨d1, d2, L2, d3, d4, d5⟩ :=
                ih st1 ocs1 st' W1 wst1 wst' hr e5 e6 hW1 c1 hw
              have hm2 : st1.offset ≤ st'.offset := by
                obtain ⟨_, _, _, _, f4, _⟩ :=
                  codeInitClasses_spec rest st1 ocs1 st' hr e5 e6
                exact f4
              refine ⟨d1, by omega, L1 ++ L2, by rw [d3, c3, List.append_assoc], ?_, ?_⟩
              · rw [d4, c4]
                simp
              · intro pc0 hpc0 b hb
                rcases List.mem_append.mp hpc0 with hpc0 | hpc0
                · exact c5 pc0 hpc0 b hb
                · exact d5 pc0 hpc0 b hb
      · rw [if_neg hlen] at h
        simp at h

/-- Class-level form of the code debug-check equivalence. -/
theorem codeWriteClassesDbg_eq (ocs : List OatClass) :
    ∀ st ocs2 st' W d wst,
    codeInitClasses ocs st = some (ocs2, st') →
    codeDedupInv st.codeOffsets st.offset →
    (st.codeOffsets.map Prod.fst).Nodup →
    lookupPreserved st'.codeOffsets d →
    classesMatch OatMethodOffsets.codeOffset W ocs2 →
    wst.offset = st.offset →
    codeWriteClassesDbg d W wst = codeWriteClasses W wst := by
  induction ocs with
  | nil =>
    intro st ocs2 st' W d wst h hinv hnod hpre hW hoff
    simp only [codeInitClasses, Option.some.injEq, Prod.mk.injEq] at h
    obtain ⟨rfl, rfl⟩ := h
    have hWnil : W = [] := by cases hW; rfl
    subst hWnil
    rfl
  | cons oc rest ih =>
    intro st ocs2 st' W d wst h hinv hnod hpre hW hoff
    simp only [codeInitClasses] at h
    cases hs : codeInitSlots oc.compiledMethods st with
    | none => rw [hs] at h; simp at h
    | some p =>
      obtain ⟨rs, st1⟩ := p
      rw [hs] at h
      simp only [Option.bind_eq_bind, Option.some_bind] at h
      by_cases hlen : rs.length = oc.methodOffsets.length
      · rw [if_pos hlen] at h
        cases hr : codeInitClasses rest st1 with
        | none => rw [hr] at h; simp at h
        | some q =>
          obtain ⟨ocs1, st2⟩ := q
          rw [hr] at h
          simp only [Option.bind_eq_bind, Option.some_bind, Option.some.injEq,
            Prod.mk.injEq] at h
          obtain ⟨rfl, rfl⟩ := h
          cases hW with
          | cons hw0 hW1 =>
            rename_i w0 W1
            obtain ⟨hcm, hrecs⟩ := hw0
            simp only [codeWriteClassesDbg, codeWriteClasses]
            obtain ⟨_, _, _, _, e4, e5, e6, _⟩ :=
              codeInitSlots_spec oc.compiledMethods st rs st1 hs hinv hnod
            have hpre1 : lookupPreserved st1.codeOffsets d := by
              intro b o hb
              obtain ⟨ne, f1, _, _, _, _, f6, _⟩ :=
                codeInitClasses_spec rest st1 ocs1 st' hr e5 e6
              have hnodf : (st'.codeOffsets.map Prod.fst).Nodup := f6
              rw [f1, List.map_append] at hnodf
              have hdisj := (List.nodup_append.mp hnodf).2.2
              have hmem : b ∈ st1.codeOffsets.map Prod.fst :=
                List.mem_map_of_mem Prod.fst (lookup_mem hb)
              refine hpre b o ?_
              rw [f1, lookup_append_right (fun hin => hdisj hin hmem)]
              exact hb
            have hdbg := codeWriteSlotsDbg_eq oc.compiledMethods st rs st1
              w0.methodOffsets d wst hs hinv hnod hpre1 (by simpa using hrecs) hoff
            rw [hcm, hdbg]
            cases hws : codeWriteSlots oc.compiledMethods w0.methodOffsets wst with
            | none => rfl
            | some wst1 =>
              simp only [Option.bind_eq_bind, Option.some_bind]
              have hc1 : wst1.offset = st1.offset := by
                have := codeWriteSlots_sim oc.compiledMethods st rs st1
                  w0.methodOffsets wst wst1 hs hinv hnod (by simpa using hrecs) hoff hws
                exact this.1
              exact ih st1 ocs1 st' W1 d wst1 hr e5 e6 hpre hW1 hc1
      · rw [if_neg hlen] at h
        simp at h

theorem map_eq_zero_transport {l1 l2 : List OatMethodOffsets}
    {f : OatMethodOffsets → Nat} (h : l1.map f = l2.map f)
    (h0 : ∀ r ∈ l2, f r = 0) : ∀ r ∈ l1, f r = 0 := by
  intro r hr
  have : f r ∈ l1.map f := List.mem_map_of_mem f hr
  rw [h] at this
  obtain ⟨r2, hr2, he⟩ := List.mem_map.mp this
  rw [← he]
  exact h0 r2 hr2

theorem forall₂_record_transport {P : CompiledMethod → Nat → Prop}
    {S : List CompiledMethod} {A1 A2 : List OatMethodOffsets}
    {f : OatMethodOffsets → Nat}
    (h : List.Forall₂ (fun c r => P c (f r)) S A1) (he : A2.map f = A1.map f) :
    List.Forall₂ (fun c r => P c (f r)) S A2 := by
  induction h generalizing A2 with
  | nil =>
    cases A2 with
    | nil => exact List.Forall₂.nil
    | cons a A2' => simp at he
  | cons h1 h2 ih =>
    cases A2 with
    | nil => simp at he
    | cons a A2' =>
      simp only [List.map_cons, List.cons.injEq] at he
      exact List.Forall₂.cons (he.1 ▸ h1) (ih he.2)

theorem classRecsUpdated_compiledSlots {B : MapBinder} {ocs ocs2 : List OatClass}
    (h : classRecsUpdated B ocs ocs2) : compiledSlots ocs2 = compiledSlots ocs := by
  induction h with
  | nil => rfl
  | cons h1 h2 ih =>
    simp only [compiledSlots, List.flatMap_cons, List.filterMap_append] at *
    rw [h1.2.1, ih]

theorem classRecsUpdated_allRecords {B : MapBinder} {f : OatMethodOffsets → Nat}
    (hf : ∀ r o, f (B.setOffset r o) = f r) {ocs ocs2 : List OatClass}
    (h : classRecsUpdated B ocs ocs2) :
    (allRecords ocs2).map f = (allRecords ocs).map f := by
  induction h with
  | nil => rfl
  | cons h1 h2 ih =>
    simp only [allRecords, List.flatMap_cons, List.map_append] at *
    rw [ih, h1.2.2.2.2.2.2.2.2 f hf]

theorem classRecsUpdated_sizes {B : MapBinder} {ocs ocs2 : List OatClass}
    (h : classRecsUpdated B ocs ocs2) :
    ocs2.map OatClass.sizeOf = ocs.map OatClass.sizeOf := by
  induction h with
  | nil => rfl
  | cons h1 h2 ih =>
    simp only [List.map_cons, ih, List.cons.injEq, and_true]
    unfold OatClass.sizeOf
    rw [h1.2.2.2.2.1, h1.2.2.2.2.2.2.2.1]

theorem classRecsUpdated_zeroField {B : MapBinder} {f : OatMethodOffsets → Nat}
    (hf : ∀ r o, f (B.setOffset r o) = f r) {ocs ocs2 : List OatClass}
    (h : classRecsUpdated B ocs ocs2)
    (h0 : ∀ oc ∈ ocs, ∀ r ∈ oc.methodOffsets, f r = 0) :
    ∀ oc ∈ ocs2, ∀ r ∈ oc.methodOffsets, f r = 0 := by
  induction h with
  | nil => simp
  | cons h1 h2 ih =>
    rename_i a b l1 l2
    intro oc hoc
    rcases List.mem_cons.mp hoc with rfl | hoc
    · exact map_eq_zero_transport (h1.2.2.2.2.2.2.2.2 f hf)
        (h0 a (List.mem_cons_self _ _))
    · exact ih (fun q hq => h0 q (List.mem_cons_of_mem _ hq)) oc hoc

theorem classRecsUpdated_match {B : MapBinder} {f : OatMethodOffsets → Nat}
    (hf : ∀ r o, f (B.setOffset r o) = f r) {ocs ocs2 : List OatClass}
    (h : classRecsUpdated B ocs ocs2) :
    classesMatch f ocs2 ocs := by
  induction h with
  | nil => exact List.Forall₂.nil
  | cons h1 h2 ih =>
    exact List.Forall₂.cons ⟨h1.2.1, h1.2.2.2.2.2.2.2.2 f hf⟩ ih

theorem classesMatch_trans {f : OatMethodOffsets → Nat} {xs ys zs : List OatClass}
    (h1 : classesMatch f xs ys) (h2 : classesMatch f ys zs) :
    classesMatch f xs zs := by
  induction h1 generalizing zs with
  | nil =>
    cases h2
    exact List.Forall₂.nil
  | cons ha hb ih =>
    cases h2 with
    | cons hc hd =>
      exact List.Forall₂.cons ⟨ha.1.trans hc.1, ha.2.trans hc.2⟩ (ih hd)

theorem classesMatch_refl (f : OatMethodOffsets → Nat) (xs : List OatClass) :
    classesMatch f xs xs := by
  induction xs with
  | nil => exact List.Forall₂.nil
  | cons x l ih => exact List.Forall₂.cons ⟨rfl, rfl⟩ ih

theorem lookupPreserved_refl (d : List (Blob × Nat)) : lookupPreserved d d :=
  fun _ _ h => h

/-- `OatDexFile::Write` emits the five descriptor fields, advancing the
position by `SizeOf` (the recorded location size must match the location
data, as the constructor guarantees). -/
theorem OatDexFile_write_spec {odf : OatDexFile} {s s' : OutStream}
    (h : OatDexFile.write odf s = some s')
    (hlen : odf.dexFileLocationSize = odf.dexFileLocationData.length) :
    s'.pos = s.pos + odf.sizeOf ∧
    ∃ L : List (Nat × Chunk), s'.chunks = s.chunks ++ L ∧
      L.map Prod.snd = odf.checksumItems := by
  unfold OatDexFile.write at h
  cases h1 : s.writeFully (Chunk.u32 odf.dexFileLocationSize) with
  | none => rw [h1] at h; simp at h
  | some s1 =>
    rw [h1] at h
    simp only [Option.bind_eq_bind, Option.some_bind] at h
    cases h2 : s1.writeFully (Chunk.locationData odf.dexFileLocationData) with
    | none => rw [h2] at h; simp at h
    | some s2 =>
      rw [h2] at h
      simp only [Option.bind_eq_bind, Option.some_bind] at h
      cases h3 : s2.writeFully (Chunk.u32 odf.dexFileLocationChecksum) with
      | none => rw [h3] at h; simp at h
      | some s3 =>
        rw [h3] at h
        simp only [Option.bind_eq_bind, Option.some_bind] at h
        cases h4 : s3.writeFully (Chunk.u32 odf.dexFileOffset) with
        | none => rw [h4] at h; simp at h
        | some s4 =>
          rw [h4] at h
          simp only [Option.bind_eq_bind, Option.some_bind] at h
          obtain ⟨hp1, hc1⟩ := writeFully_spec h1
          obtain ⟨hp2, hc2⟩ := writeFully_spec h2
          obtain ⟨hp3, hc3⟩ := writeFully_spec h3
          obtain ⟨hp4, hc4⟩ := writeFully_spec h4
          obtain ⟨hp5, hc5⟩ := writeFully_spec h
          constructor
          · simp only [Chunk.size] at hp1 hp2 hp3 hp4 hp5
            simp only [OatDexFile.sizeOf]
            omega
          · refine ⟨[(s.pos, Chunk.u32 odf.dexFileLocationSize),
              (s1.pos, Chunk.locationData odf.dexFileLocationData),
              (s2.pos, Chunk.u32 odf.dexFileLocationChecksum),
              (s3.pos, Chunk.u32 odf.dexFileOffset),
              (s4.pos, Chunk.u32seq odf.methodsOffsets)], ?_, by
                simp [OatDexFile.checksumItems]⟩
            rw [hc5, hc4, hc3, hc2, hc1]
            simp

/-- The module-descriptor loop of `WriteTables` advances the position by
the sum of the descriptor sizes and emits exactly the chunks the layout
pass folded into the checksum. -/
theorem writeOatDexFiles_spec (odfs : List OatDexFile)
    (hlen : ∀ odf ∈ odfs, odf.dexFileLocationSize = odf.dexFileLocationData.length) :
    ∀ s s', writeOatDexFiles odfs s = some s' →
    s'.pos = s.pos + (odfs.map OatDexFile.sizeOf).sum ∧
    ∃ L, s'.chunks = s.chunks ++ L ∧
      L.map Prod.snd = odfs.flatMap OatDexFile.checksumItems := by
  induction odfs with
  | nil =>
    intro s s' h
    simp only [writeOatDexFiles, Option.some.injEq] at h
    subst h
    exact ⟨by simp, [], by simp, by simp⟩
  | cons odf rest ih =>
    intro s s' h
    simp only [writeOatDexFiles] at h
    cases h1 : OatDexFile.write odf s with
    | none => rw [h1] at h; simp at h
    | some s1 =>
      rw [h1] at h
      simp only [Option.bind_eq_bind, Option.some_bind] at h
      obtain ⟨hp1, L1, hc1, hv1⟩ :=
        OatDexFile_write_spec h1 (hlen odf (List.mem_cons_self _ _))
      obtain ⟨hp2, L2, hc2, hv2⟩ :=
        ih (fun o ho => hlen o (List.mem_cons_of_mem _ ho)) s1 s' h
      refine ⟨?_, L1 ++ L2, ?_, ?_⟩
      · simp only [List.map_cons, List.sum_cons]
        omega
      · rw [hc2, hc1, List.append_assoc]
      · simp only [List.map_append, List.flatMap_cons, hv1, hv2]

/-- `OatClass::Write` emits the class-descriptor chunks, advancing the
position by `SizeOf`. -/
theorem OatClass_write_spec {oc : OatClass} {s s' : OutStream}
    (h : OatClass.write oc s = some s') :
    s'.pos = s.pos + oc.sizeOf ∧
    ∃ L : List (Nat × Chunk), s'.chunks = s.chunks ++ L ∧
      ∀ pc ∈ L, (Prod.snd pc).isClassDescriptor = true := by
  unfold OatClass.write at h
  cases h1 : s.writeFully (Chunk.classStatus oc.status) with
  | none => rw [h1] at h; simp at h
  | some s1 =>
    rw [h1] at h
    simp only [Option.bind_eq_bind, Option.some_bind] at h
    cases h2 : s1.writeFully (Chunk.classType oc.type) with
    | none => rw [h2] at h; simp at h
    | some s2 =>
      rw [h2] at h
      simp only [Option.bind_eq_bind, Option.some_bind] at h
      obtain ⟨hp1, hc1⟩ := writeFully_spec h1
      obtain ⟨hp2, hc2⟩ := writeFully_spec h2
      by_cases hmb : oc.methodBitmapSize = 0
      · rw [if_neg (not_not_intro hmb)] at h
        simp only [pure, Option.bind_eq_bind, Option.some_bind] at h
        obtain ⟨hp5, hc5⟩ := writeFully_spec h
        constructor
        · simp only [Chunk.size] at hp1 hp2 hp5
          simp only [OatClass.sizeOf, if_pos hmb]
          simp only [sizeofClassStatus, sizeofClassType] at *
          omega
        · refine ⟨[(s.pos, Chunk.classStatus oc.status),
            (s1.pos, Chunk.classType oc.type),
            (s2.pos, Chunk.methodOffsetsArr oc.methodOffsets)], ?_, ?_⟩
          · rw [hc5, hc2, hc1]
            simp
          · intro pc hpc
            simp only [List.mem_cons, List.not_mem_nil, or_false] at hpc
            rcases hpc with rfl | rfl | rfl <;> rfl
      · rw [if_pos hmb] at h
        by_cases htype : oc.type = OatClassType.kOatClassSomeCompiled
        · rw [if_pos htype] at h
          cases h3 : s2.writeFully (Chunk.bitmapSizeField oc.methodBitmapSize) with
          | none => rw [h3] at h; simp at h
          | some s3 =>
            rw [h3] at h
            simp only [Option.bind_eq_bind, Option.some_bind] at h
            cases h4 : s3.writeFully (Chunk.bitmap (oc.methodBitmap.getD []) oc.methodBitmapSize) with
            | none => rw [h4] at h; simp at h
            | some s4 =>
              rw [h4] at h
              simp only [Option.bind_eq_bind, Option.some_bind] at h
              obtain ⟨hp3, hc3⟩ := writeFully_spec h3
              obtain ⟨hp4, hc4⟩ := writeFully_spec h4
              obtain ⟨hp5, hc5⟩ := writeFully_spec h
              constructor
              · simp only [Chunk.size] at hp1 hp2 hp3 hp4 hp5
                simp only [OatClass.sizeOf, if_neg hmb]
                simp only [sizeofClassStatus, sizeofClassType] at *
                omega
              · refine ⟨[(s.pos, Chunk.classStatus oc.status),
                  (s1.pos, Chunk.classType oc.type),
                  (s2.pos, Chunk.bitmapSizeField oc.methodBitmapSize),
                  (s3.pos, Chunk.bitmap (oc.methodBitmap.getD []) oc.methodBitmapSize),
                  (s4.pos, Chunk.methodOffsetsArr oc.methodOffsets)], ?_, ?_⟩
                · rw [hc5, hc4, hc3, hc2, hc1]
                  simp
                · intro pc hpc
                  simp only [List.mem_cons, List.not_mem_nil, or_false] at hpc
                  rcases hpc with rfl | rfl | rfl | rfl | rfl <;> rfl
        · rw [if_neg htype] at h
          simp at h

/-- The class-descriptor loop of `WriteTables` advances the position by
the sum of the class sizes and emits only class-descriptor chunks. -/
theorem writeOatClasses_spec (ocs : List OatClass) :
    ∀ s s', writeOatClasses ocs s = some s' →
    s'.pos = s.pos + (ocs.map OatClass.sizeOf).sum ∧
    ∃ L, s'.chunks = s.chunks ++ L ∧
      ∀ pc ∈ L, (Prod.snd pc).isClassDescriptor = true := by
  induction ocs with
  | nil =>
    intro s s' h
    simp only [writeOatClasses, Option.some.injEq] at h
    subst h
    exact ⟨by simp, [], by simp, by simp⟩
  | cons oc rest ih =>
    intro s s' h
    simp only [writeOatClasses] at h
    cases h1 : OatClass.write oc s with
    | none => rw [h1] at h; simp at h
    | some s1 =>
      rw [h1] at h
      simp only [Option.bind_eq_bind, Option.some_bind] at h
      obtain ⟨hp1, L1, hc1, hv1⟩ := OatClass_write_spec h1
      obtain ⟨hp2, L2, hc2, hv2⟩ := ih s1 s' h
      refine ⟨?_, L1 ++ L2, ?_, ?_⟩
      · simp only [List.map_cons, List.sum_cons]
        omega
      · rw [hc2, hc1, List.append_assoc]
      · intro pc hpc
        rcases List.mem_append.mp hpc with hpc | hpc
        · exact hv1 pc hpc
        · exact hv2 pc hpc

/-- Pass-2 refinement of the raw-module loop of `WriteTables` against
`InitDexFiles`: run with module descriptors carrying the recorded
4-aligned data offsets, the loop lands exactly at pass 1's post-module
offset and emits one raw-contents chunk per module at its recorded
offset. -/
theorem writeDexContents_sim (fileOffset : Nat) (odfs : List OatDexFile) :
    ∀ dexes off odfs2 off2 (odfs3 : List OatDexFile) (s s' : OutStream),
    initDexFiles odfs dexes off = (odfs2, off2) →
    odfs.length = dexes.length →
    List.Forall₂ (fun (a b : OatDexFile) => a.dexFileOffset = b.dexFileOffset) odfs3 odfs2 →
    s.pos = fileOffset + off →
    writeDexContents fileOffset odfs3 dexes s = some s' →
    s'.pos = fileOffset + off2 ∧
    ∃ L, s'.chunks = s.chunks ++ L ∧
      L.map Prod.snd = dexes.map (fun dex => Chunk.dexContents dex.contents) ∧
      ∀ pc ∈ L, ∃ odf ∈ odfs3, Prod.fst pc = fileOffset + odf.dexFileOffset := by
  induction odfs with
  | nil =>
    intro dexes off odfs2 off2 odfs3 s s' h hlen hF hpos hw
    cases dexes with
    | cons d ds => simp at hlen
    | nil =>
      simp only [initDexFiles, Prod.mk.injEq] at h
      obtain ⟨rfl, rfl⟩ := h
      have hnil : odfs3 = [] := by cases hF; rfl
      subst hnil
      simp only [writeDexContents, Option.some.injEq] at hw
      subst hw
      exact ⟨hpos, [], by simp, by simp, by simp⟩
  | cons odf odfs ih =>
    intro dexes off odfs2 off2 odfs3 s s' h hlen hF hpos hw
    cases dexes with
    | nil => simp at hlen
    | cons dex dexes =>
      simp only [initDexFiles] at h
      cases hrec : initDexFiles odfs dexes (roundUp off 4 + dex.contents.length) with
      | mk rest final =>
        rw [hrec] at h
        simp only [Prod.mk.injEq] at h
        obtain ⟨rfl, rfl⟩ := h
        cases hF with
        | cons hf0 hF1 =>
          rename_i odf3 odfs3'
          simp only [writeDexContents] at hw
          rw [if_neg (by simp [OutStream.seekSet])] at hw
          cases hwf : (s.seekSet (fileOffset + odf3.dexFileOffset)).writeFully
              (Chunk.dexContents dex.contents) with
          | none => rw [hwf] at hw; simp at hw
          | some s2 =>
            rw [hwf] at hw
            simp only [Option.bind_eq_bind, Option.some_bind] at hw
            obtain ⟨hp2, hc2⟩ := writeFully_spec hwf
            have hoff3 : odf3.dexFileOffset = roundUp off 4 := hf0
            have hp2' : s2.pos = fileOffset + (roundUp off 4 + dex.contents.length) := by
              rw [hp2]
              simp only [OutStream.seekSet, Chunk.size, hoff3]
              omega
            obtain ⟨hpx, L', hcx, hvx, hposx⟩ :=
              ih dexes (roundUp off 4 + dex.contents.length) rest final odfs3' s2 s'
                hrec (by simpa using hlen) hF1 hp2' hw
            refine ⟨hpx, (fileOffset + odf3.dexFileOffset, Chunk.dexContents dex.contents) :: L',
              ?_, ?_, ?_⟩
            · rw [hcx, hc2]
              simp [OutStream.seekSet]
            · simp [hvx]
            · intro pc hpc
              rcases List.mem_cons.mp hpc with rfl | hpc
              · exact ⟨odf3, List.mem_cons_self _ _, rfl⟩
              · obtain ⟨o, ho, he⟩ := hposx pc hpc
                exact ⟨o, List.mem_cons_of_mem _ ho, he⟩

/-- Pass-2 refinement of the trampoline loop of `WriteCode` against the
trampoline layout of `InitOatCode`: the returned relative offset is the
layout's final offset, the position lands at it, and one stub chunk is
emitted per trampoline. -/
theorem writeTrampolines_sim (isa : InstructionSet) (fo : Nat) (bs : List Blob) :
    ∀ relOff tos off' (s : OutStream) (p : OutStream × Nat),
    layoutTrampolines isa bs relOff = (tos, off') →
    writeTrampolines isa bs relOff s = some p →
    s.pos = fo + relOff →
    p.2 = off' ∧ p.1.pos = fo + off' ∧
    ∃ L, p.1.chunks = s.chunks ++ L ∧ L.map Prod.snd = bs.map Chunk.trampoline := by
  induction bs with
  | nil =>
    intro relOff tos off' s p h hw hpos
    simp only [layoutTrampolines, Prod.mk.injEq] at h
    obtain ⟨rfl, rfl⟩ := h
    simp only [writeTrampolines, Option.some.injEq] at hw
    subst hw
    exact ⟨rfl, hpos, [], by simp, by simp⟩
  | cons b rest ih =>
    intro relOff tos off' s p h hw hpos
    simp only [layoutTrampolines] at h
    cases hrec : layoutTrampolines isa rest (alignCode relOff isa + b.length) with
    | mk os off1 =>
      rw [hrec] at h
      simp only [Prod.mk.injEq] at h
      obtain ⟨rfl, rfl⟩ := h
      simp only [writeTrampolines] at hw
      cases hwf : (s.seekCur (alignCode relOff isa - relOff)).writeFully
          (Chunk.trampoline b) with
      | none => rw [hwf] at hw; simp at hw
      | some s2 =>
        rw [hwf] at hw
        simp only [Option.bind_eq_bind, Option.some_bind] at hw
        obtain ⟨hp2, hc2⟩ := writeFully_spec hwf
        have halign := le_alignCode relOff isa
        have hp2' : s2.pos = fo + (alignCode relOff isa + b.length) := by
          rw [hp2]
          simp only [OutStream.seekCur, Chunk.size]
          omega
        obtain ⟨h1, h2, L', hc', hv'⟩ :=
          ih (alignCode relOff isa + b.length) os off1 s2 p hrec hw hp2'
        refine ⟨h1, h2, (s.pos + (alignCode relOff isa - relOff), Chunk.trampoline b) :: L',
          ?_, ?_⟩
        · rw [hc', hc2]
          simp [OutStream.seekCur]
        · simp [hv']

/-- `InitOatDexFiles` facts: the offset advances by the sum of the
descriptor sizes, one descriptor per module, and every descriptor's
recorded location size is its location data's length. -/
theorem initOatDexFiles_spec (dexes : List DexFile) :
    ∀ off odfs off', initOatDexFiles dexes off = (odfs, off') →
    off' = off + (odfs.map OatDexFile.sizeOf).sum ∧
    odfs.length = dexes.length ∧
    ∀ odf ∈ odfs, odf.dexFileLocationSize = odf.dexFileLocationData.length := by
  induction dexes with
  | nil =>
    intro off odfs off' h
    simp only [initOatDexFiles, Prod.mk.injEq] at h
    obtain ⟨rfl, rfl⟩ := h
    exact ⟨by simp, rfl, by simp⟩
  | cons dex rest ih =>
    intro off odfs off' h
    simp only [initOatDexFiles] at h
    cases hrec : initOatDexFiles rest (off + (OatDexFile.make off dex).sizeOf) with
    | mk odfs1 off1 =>
      rw [hrec] at h
      simp only [Prod.mk.injEq] at h
      obtain ⟨rfl, rfl⟩ := h
      obtain ⟨e1, e2, e3⟩ := ih _ _ _ hrec
      refine ⟨by simp only [List.map_cons, List.sum_cons]; omega, by simp [e2], ?_⟩
      intro odf hodf
      rcases List.mem_cons.mp hodf with rfl | hodf
      · rfl
      · exact e3 odf hodf

/-- `InitDexFiles` facts: the offset never decreases and every descriptor
keeps its fields except the data offset, which becomes 4-aligned. -/
theorem initDexFiles_spec (odfs : List OatDexFile) :
    ∀ dexes off odfs2 off2, initDexFiles odfs dexes off = (odfs2, off2) →
    odfs.length = dexes.length →
    off ≤ off2 ∧
    List.Forall₂ (fun (a b : OatDexFile) =>
      a.dexFileLocationSize = b.dexFileLocationSize ∧
      a.dexFileLocationData = b.dexFileLocationData ∧
      a.dexFileLocationChecksum = b.dexFileLocationChecksum ∧
      a.methodsOffsets = b.methodsOffsets ∧
      a.dexFileOffset % 4 = 0) odfs2 odfs := by
  induction odfs with
  | nil =>
    intro dexes off odfs2 off2 h hlen
    cases dexes with
    | cons d ds => simp at hlen
    | nil =>
      simp only [initDexFiles, Prod.mk.injEq] at h
      obtain ⟨rfl, rfl⟩ := h
      exact ⟨le_refl _, List.Forall₂.nil⟩
  | cons odf odfs ih =>
    intro dexes off odfs2 off2 h hlen
    cases dexes with
    | nil => simp at hlen
    | cons dex dexes =>
      simp only [initDexFiles] at h
      cases hrec : initDexFiles odfs dexes (roundUp off 4 + dex.contents.length) with
      | mk rest final =>
        rw [hrec] at h
        simp only [Prod.mk.injEq] at h
        obtain ⟨rfl, rfl⟩ := h
        obtain ⟨e1, e2⟩ := ih dexes _ rest final hrec (by simpa using hlen)
        have h4 := roundUp_ge off (by omega : (0:Nat) < 4)
        refine ⟨by omega, List.Forall₂.cons ⟨rfl, rfl, rfl, rfl, ?_⟩ e2⟩
        exact roundUp_mod off 4

/-- Scattering the class offsets into the module descriptors preserves
every descriptor field except the class-offset list, whose length is
preserved. -/
theorem scatterClassOffsets_spec (odfs : List OatDexFile) :
    ∀ cos odfs2 left, scatterClassOffsets odfs cos = some (odfs2, left) →
    List.Forall₂ (fun (a b : OatDexFile) =>
      a.offset = b.offset ∧
      a.dexFileLocationSize = b.dexFileLocationSize ∧
      a.dexFileLocationData = b.dexFileLocationData ∧
      a.dexFileLocationChecksum = b.dexFileLocationChecksum ∧
      a.dexFileOffset = b.dexFileOffset ∧
      a.methodsOffsets.length = b.methodsOffsets.length) odfs2 odfs := by
  induction odfs with
  | nil =>
    intro cos odfs2 left h
    simp only [scatterClassOffsets, Option.some.injEq, Prod.mk.injEq] at h
    obtain ⟨rfl, rfl⟩ := h
    exact List.Forall₂.nil
  | cons odf odfs ih =>
    intro cos odfs2 left h
    simp only [scatterClassOffsets] at h
    by_cases hle : odf.methodsOffsets.length ≤ cos.length
    · rw [if_pos hle] at h
      cases hrec : scatterClassOffsets odfs (cos.drop odf.methodsOffsets.length) with
      | none => rw [hrec] at h; simp at h
      | some q =>
        rw [hrec] at h
        simp only [Option.map_some', Option.some.injEq, Prod.mk.injEq] at h
        obtain ⟨rfl, rfl⟩ := h
        refine List.Forall₂.cons ⟨rfl, rfl, rfl, rfl, rfl, ?_⟩ (ih _ _ _ hrec)
        simp only [List.length_take]
        omega
    · rw [if_neg hle] at h
      simp at h

/-- Per-dex class layout: the offset advances by the sum of the class
descriptor sizes. -/
theorem initOatClassesOfClasses_spec (input : OatInput) (dexIdx : Nat)
    (cds : List ClassDef) :
    ∀ ci off ocs off', initOatClassesOfClasses input dexIdx cds ci off = some (ocs, off') →
    off' = off + (ocs.map OatClass.sizeOf).sum := by
  induction cds with
  | nil =>
    intro ci off ocs off' h
    simp only [initOatClassesOfClasses, Option.some.injEq, Prod.mk.injEq] at h
    obtain ⟨rfl, rfl⟩ := h
    simp
  | cons cd rest ih =>
    intro ci off ocs off' h
    simp only [initOatClassesOfClasses] at h
    cases hmk : OatClass.make off (classCompiledList input dexIdx cd)
        ((classCompiledList input dexIdx cd).countP Option.isSome)
        (input.classStatus dexIdx ci) with
    | none => rw [hmk] at h; simp at h
    | some oc =>
      rw [hmk] at h
      simp only [Option.bind_eq_bind, Option.some_bind] at h
      cases hrec : initOatClassesOfClasses input dexIdx rest (ci + 1) (off + oc.sizeOf) with
      | none => rw [hrec] at h; simp at h
      | some q =>
        obtain ⟨ocs1, off1⟩ := q
        rw [hrec] at h
        simp only [Option.bind_eq_bind, Option.some_bind, Option.some.injEq,
          Prod.mk.injEq] at h
        obtain ⟨rfl, rfl⟩ := h
        have := ih _ _ _ _ hrec
        simp only [List.map_cons, List.sum_cons]
        omega

/-- All-dex class layout: the offset advances by the sum of the class
descriptor sizes. -/
theorem initOatClassesOfDexFiles_spec (input : OatInput) (dexes : List DexFile) :
    ∀ di off ocs off', initOatClassesOfDexFiles input dexes di off = some (ocs, off') →
    off' = off + (ocs.map OatClass.sizeOf).sum := by
  induction dexes with
  | nil =>
    intro di off ocs off' h
    simp only [initOatClassesOfDexFiles, Option.some.injEq, Prod.mk.injEq] at h
    obtain ⟨rfl, rfl⟩ := h
    simp
  | cons dex rest ih =>
    intro di off ocs off' h
    simp only [initOatClassesOfDexFiles] at h
    cases h1 : initOatClassesOfClasses input di dex.classDefs 0 off with
    | none => rw [h1] at h; simp at h
    | some p =>
      obtain ⟨ocs1, off1⟩ := p
      rw [h1] at h
      simp only [Option.bind_eq_bind, Option.some_bind] at h
      cases h2 : initOatClassesOfDexFiles input rest (di + 1) off1 with
      | none => rw [h2] at h; simp at h
      | some q =>
        obtain ⟨ocs2, off2⟩ := q
        rw [h2] at h
        simp only [Option.bind_eq_bind, Option.some_bind, Option.some.injEq,
          Prod.mk.injEq] at h
        obtain ⟨rfl, rfl⟩ := h
        have e1 := initOatClassesOfClasses_spec input di dex.classDefs 0 off ocs1 off1 h1
        have e2 := ih _ _ _ _ h2
        simp only [List.map_append, List.sum_append]
        omega

/-- `InitOatClasses` facts: offset advance, the checksum items, and field
preservation of the module descriptors under the scatter. -/
theorem initOatClasses_spec {input : OatInput} {odfs : List OatDexFile}
    {offset : Nat} {ocs : List OatClass} {odfs' : List OatDexFile}
    {csum : List Chunk} {off3 : Nat}
    (h : initOatClasses input odfs offset = some (ocs, odfs', csum, off3)) :
    off3 = offset + (ocs.map OatClass.sizeOf).sum ∧
    csum = odfs'.flatMap OatDexFile.checksumItems ∧
    List.Forall₂ (fun (a b : OatDexFile) =>
      a.offset = b.offset ∧
      a.dexFileLocationSize = b.dexFileLocationSize ∧
      a.dexFileLocationData = b.dexFileLocationData ∧
      a.dexFileLocationChecksum = b.dexFileLocationChecksum ∧
      a.dexFileOffset = b.dexFileOffset ∧
      a.methodsOffsets.length = b.methodsOffsets.length) odfs' odfs := by
  unfold initOatClasses at h
  cases h1 : initOatClassesOfDexFiles input input.dexFiles 0 offset with
  | none => rw [h1] at h; simp at h
  | some p =>
    obtain ⟨ocs0, off0⟩ := p
    rw [h1] at h
    simp only [Option.bind_eq_bind, Option.some_bind] at h
    cases h2 : scatterClassOffsets odfs (ocs0.map OatClass.offset) with
    | none => rw [h2] at h; simp at h
    | some q =>
      obtain ⟨odfs1, left⟩ := q
      rw [h2] at h
      simp only [Option.bind_eq_bind, Option.some_bind] at h
      by_cases hleft : left.isEmpty
      · rw [if_pos hleft] at h
        simp only [pure, Option.some.injEq, Prod.mk.injEq] at h
        obtain ⟨rfl, rfl, rfl, rfl⟩ := h
        exact ⟨initOatClassesOfDexFiles_spec input input.dexFiles 0 offset _ _ h1,
          rfl, scatterClassOffsets_spec odfs _ _ _ h2⟩
      · rw [if_neg hleft] at h
        simp at h

/-- Trampoline layout never moves the offset backwards. -/
theorem layoutTrampolines_le (isa : InstructionSet) (bs : List Blob) :
    ∀ off, off ≤ (layoutTrampolines isa bs off).2 := by
  induction bs with
  | nil => intro off; simp [layoutTrampolines]
  | cons b rest ih =>
    intro off
    simp only [layoutTrampolines]
    have h1 := le_alignCode off isa
    have h2 := ih (alignCode off isa + b.length)
    cases hrec : layoutTrampolines isa rest (alignCode off isa + b.length) with
    | mk os off1 =>
      rw [hrec] at h2
      simp only []
      omega

/-- Unfolding of a successful `OatWriter` construction into its six layout
stages. -/
theorem mkWriter_destruct {input : OatInput} {w : Writer}
    (h : mkWriter input = some w) :
    input.imageFileLocation.isEmpty = input.isImage ∧
    ∃ odfs1 off1 odfs2 off2 ocs0 odfs3 csum1 off3 execOff trampOffs execPad off4
      ocs1 cst ocs2 gst ocs3 mst ocs4 vst,
      initOatDexFiles input.dexFiles (initOatHeader input) = (odfs1, off1) ∧
      initDexFiles odfs1 input.dexFiles off1 = (odfs2, off2) ∧
      initOatClasses input odfs2 off2 = some (ocs0, odfs3, csum1, off3) ∧
      initOatCode input off3 = (execOff, trampOffs, execPad, off4) ∧
      codeInitClasses ocs0 ⟨off4, [], []⟩ = some (ocs1, cst) ∧
      mapInitClasses GcMapBinder ocs1 ⟨cst.offset, [], []⟩ = some (ocs2, gst) ∧
      mapInitClasses MappingTableBinder ocs2 ⟨gst.offset, [], []⟩ = some (ocs3, mst) ∧
      mapInitClasses VmapTableBinder ocs3 ⟨mst.offset, [], []⟩ = some (ocs4, vst) ∧
      w = { input := input
            executableOffset := execOff
            trampolineOffsets := trampOffs
            sizeExecutableOffsetAlignment := execPad
            oatDexFiles := odfs3
            oatClasses := ocs4
            codeOffsets := cst.codeOffsets
            gcMapOffsets := gst.dedupe
            mappingTableOffsets := mst.dedupe
            vmapTableOffsets := vst.dedupe
            checksum := csum1 ++ cst.csum ++ gst.csum ++ mst.csum ++ vst.csum
            size := vst.offset } := by
  unfold mkWriter at h
  by_cases hcond : input.imageFileLocation.isEmpty = input.isImage
  · rw [if_pos hcond] at h
    simp only [] at h
    refine ⟨hcond, ?_⟩
    cases h1 : initOatDexFiles input.dexFiles (initOatHeader input) with
    | mk odfs1 off1 =>
      rw [h1] at h
      cases h2 : initDexFiles odfs1 input.dexFiles off1 with
      | mk odfs2 off2 =>
        rw [h2] at h
        cases h3 : initOatClasses input odfs2 off2 with
        | none => rw [h3] at h; simp at h
        | some p3 =>
          obtain ⟨ocs0, odfs3, csum1, off3⟩ := p3
          rw [h3] at h
          simp only [Option.bind_eq_bind, Option.some_bind] at h
          cases h4 : initOatCode input off3 with
          | mk execOff p4 =>
            obtain ⟨trampOffs, execPad, off4⟩ := p4
            rw [h4] at h
            cases h5 : codeInitClasses ocs0 ⟨off4, [], []⟩ with
            | none => rw [h5] at h; simp at h
            | some p5 =>
              obtain ⟨ocs1, cst⟩ := p5
              rw [h5] at h
              simp only [Option.bind_eq_bind, Option.some_bind] at h
              cases h6 : mapInitClasses GcMapBinder ocs1 ⟨cst.offset, [], []⟩ with
              | none => rw [h6] at h; simp at h
              | some p6 =>
                obtain ⟨ocs2, gst⟩ := p6
                rw [h6] at h
                simp only [Option.bind_eq_bind, Option.some_bind] at h
                cases h7 : mapInitClasses MappingTableBinder ocs2 ⟨gst.offset, [], []⟩ with
                | none => rw [h7] at h; simp at h
                | some p7 =>
                  obtain ⟨ocs3, mst⟩ := p7
                  rw [h7] at h
                  simp only [Option.bind_eq_bind, Option.some_bind] at h
                  cases h8 : mapInitClasses VmapTableBinder ocs3 ⟨mst.offset, [], []⟩ with
                  | none => rw [h8] at h; simp at h
                  | some p8 =>
                    obtain ⟨ocs4, vst⟩ := p8
                    rw [h8] at h
                    simp only [Option.bind_eq_bind, Option.some_bind, pure,
                      Option.some.injEq] at h
                    exact ⟨odfs1, off1, odfs2, off2, ocs0, odfs3, csum1, off3,
                      execOff, trampOffs, execPad, off4, ocs1, cst, ocs2, gst,
                      ocs3, mst, ocs4, vst, rfl, h2, h3, h4, h5, h6, h7, h8,
                      h.symm⟩
  · rw [if_neg hcond] at h
    simp at h

theorem forall₂_map_eq {α β : Type} {f : α → β} {l1 l2 : List α}
    (h : List.Forall₂ (fun a b => f a = f b) l1 l2) : l1.map f = l2.map f := by
  induction h with
  | nil => rfl
  | cons h1 h2 ih => simp only [List.map_cons, h1, ih]

theorem filter_included_eq_nil {l : List Chunk}
    (h : ∀ c ∈ l, c.checksumExcluded = true) :
    l.filter (fun c => !c.checksumExcluded) = [] := by
  refine List.filter_eq_nil_iff.mpr ?_
  intro c hc
  simp [h c hc]

theorem filter_included_eq_self {l : List Chunk}
    (h : ∀ c ∈ l, c.checksumExcluded = false) :
    l.filter (fun c => !c.checksumExcluded) = l := by
  refine List.filter_eq_self.mpr ?_
  intro c hc
  simp [h c hc]

theorem checksumItems_not_excluded (odf : OatDexFile) :
    ∀ c ∈ odf.checksumItems, c.checksumExcluded = false := by
  intro c hc
  simp only [OatDexFile.checksumItems, List.mem_cons, List.not_mem_nil, or_false] at hc
  rcases hc with rfl | rfl | rfl | rfl | rfl <;> rfl

theorem flatMap_checksumItems_not_excluded (odfs : List OatDexFile) :
    ∀ c ∈ odfs.flatMap OatDexFile.checksumItems, c.checksumExcluded = false := by
  intro c hc
  obtain ⟨odf, _, hm⟩ := List.mem_flatMap.mp hc
  exact checksumItems_not_excluded odf c hm

theorem checksumItems_not_mapBlob (odfs : List OatDexFile) :
    ∀ c ∈ odfs.flatMap OatDexFile.checksumItems, ∀ k b, c ≠ Chunk.mapBlob k b := by
  intro c hc
  obtain ⟨odf, _, hm⟩ := List.mem_flatMap.mp hc
  simp only [OatDexFile.checksumItems, List.mem_cons, List.not_mem_nil, or_false] at hm
  rcases hm with rfl | rfl | rfl | rfl | rfl <;> intro k b <;> simp

theorem isClassDescriptor_excluded {c : Chunk} (h : c.isClassDescriptor = true) :
    c.checksumExcluded = true := by
  cases c <;> first | rfl | simp [Chunk.isClassDescriptor] at h

theorem isClassDescriptor_not_mapBlob {c : Chunk} (h : c.isClassDescriptor = true) :
    ∀ k b, c ≠ Chunk.mapBlob k b := by
  cases c <;> intro k b <;> simp_all [Chunk.isClassDescriptor]

theorem chunkBlobsOfKind_append (k : MapKind) (l1 l2 : List (Nat × Chunk)) :
    chunkBlobsOfKind k (l1 ++ l2) = chunkBlobsOfKind k l1 ++ chunkBlobsOfKind k l2 := by
  simp [chunkBlobsOfKind, List.filterMap_append]

theorem chunkBlobsOfKind_eq_vals (k : MapKind) (l : List (Nat × Chunk)) :
    chunkBlobsOfKind k l = (l.map Prod.snd).filterMap fun c =>
      match c with
      | Chunk.mapBlob k' b => if k' = k then some b else none
      | _ => none := by
  rw [List.filterMap_map]
  rfl

theorem chunkBlobsOfKind_nil_of_no_mapBlob (k : MapKind) (l : List (Nat × Chunk))
    (h : ∀ c ∈ l.map Prod.snd, ∀ k' b, c ≠ Chunk.mapBlob k' b) :
    chunkBlobsOfKind k l = [] := by
  rw [chunkBlobsOfKind_eq_vals]
  refine List.filterMap_eq_nil_iff.mpr ?_
  intro c hc
  have := h c hc
  cases c <;> first | rfl | exact absurd rfl (this _ _)

theorem filterMap_mapBlob_self (k : MapKind) (ps : List (Blob × Nat)) :
    ((ps.map fun p => Chunk.mapBlob k p.1).filterMap fun c =>
      match c with
      | Chunk.mapBlob k' b => if k' = k then some b else none
      | _ => none) = ps.map Prod.fst := by
  induction ps with
  | nil => rfl
  | cons p rest ih =>
    simp [List.filterMap_cons, ih]

theorem filterMap_mapBlob_other {k k0 : MapKind} (h : k0 ≠ k) (ps : List (Blob × Nat)) :
    ((ps.map fun p => Chunk.mapBlob k0 p.1).filterMap fun c =>
      match c with
      | Chunk.mapBlob k' b => if k' = k then some b else none
      | _ => none) = [] := by
  induction ps with
  | nil => rfl
  | cons p rest ih =>
    simp [List.filterMap_cons, h, ih]

/-- `WriteTables` advances the position from the post-header offset to the
post-class-table offset and emits the module descriptors, the raw module
bytes and the class descriptors, in that order. -/
theorem writeTables_spec {w : Writer} {fo : Nat} {s s' : OutStream}
    {odfs1 odfs2 : List OatDexFile} {off0 off1 off2 off3 : Nat}
    (hdflen : ∀ odf ∈ w.oatDexFiles,
      odf.dexFileLocationSize = odf.dexFileLocationData.length)
    (hsum : off1 = off0 + (w.oatDexFiles.map OatDexFile.sizeOf).sum)
    (hinit : initDexFiles odfs1 w.input.dexFiles off1 = (odfs2, off2))
    (hlen1 : odfs1.length = w.input.dexFiles.length)
    (hF : List.Forall₂ (fun (a b : OatDexFile) => a.dexFileOffset = b.dexFileOffset)
      w.oatDexFiles odfs2)
    (hocsum : off3 = off2 + (w.oatClasses.map OatClass.sizeOf).sum)
    (hpos : s.pos = fo + off0)
    (h : writeTables w fo s = some s') :
    s'.pos = fo + off3 ∧
    ∃ L2 L3 L4, s'.chunks = s.chunks ++ L2 ++ L3 ++ L4 ∧
      L2.map Prod.snd = w.oatDexFiles.flatMap OatDexFile.checksumItems ∧
      L3.map Prod.snd = w.input.dexFiles.map (fun dex => Chunk.dexContents dex.contents) ∧
      (∀ pc ∈ L3, ∃ odf ∈ w.oatDexFiles, Prod.fst pc = fo + odf.dexFileOffset) ∧
      (∀ pc ∈ L4, (Prod.snd pc).isClassDescriptor = true) := by
  unfold writeTables at h
  cases h1 : writeOatDexFiles w.oatDexFiles s with
  | none => rw [h1] at h; simp at h
  | some s1 =>
    rw [h1] at h
    simp only [Option.bind_eq_bind, Option.some_bind] at h
    cases h2 : writeDexContents fo w.oatDexFiles w.input.dexFiles s1 with
    | none => rw [h2] at h; simp at h
    | some s2 =>
      rw [h2] at h
      simp only [Option.bind_eq_bind, Option.some_bind] at h
      obtain ⟨hp1, L2, hc1, hv1⟩ := writeOatDexFiles_spec w.oatDexFiles hdflen s s1 h1
      have hp1' : s1.pos = fo + off1 := by omega
      obtain ⟨hp2, L3, hc2, hv2, hpos3⟩ :=
        writeDexContents_sim fo odfs1 w.input.dexFiles off1 odfs2 off2
          w.oatDexFiles s1 s2 hinit hlen1 hF hp1' h2
      obtain ⟨hp3, L4, hc3, hv3⟩ := writeOatClasses_spec w.oatClasses s2 s' h
      refine ⟨by omega, L2, L3, L4, ?_, hv1, hv2, hpos3, hv3⟩
      rw [hc3, hc2, hc1]

/-- `WriteCode` seeks over the executable-offset alignment, passes its
position check, and (base-image builds) emits the trampoline stubs,
returning `InitOatCode`'s final offset. -/
theorem writeCode_spec {w : Writer} {off3 off4 : Nat} {trampOffs : List Nat}
    {fo : Nat} {s : OutStream} {p : OutStream × Nat}
    (h4 : initOatCode w.input off3 =
      (w.executableOffset, trampOffs, w.sizeExecutableOffsetAlignment, off4))
    (hpos : s.pos = fo + off3)
    (h : writeCode w fo s = some p) :
    p.2 = off4 ∧ p.1.pos = fo + off4 ∧
    ∃ L, p.1.chunks = s.chunks ++ L ∧
      L.map Prod.snd =
        (if w.input.isImage then w.input.trampolines.map Chunk.trampoline else []) := by
  unfold initOatCode at h4
  simp only [] at h4
  unfold writeCode at h
  have hle3 : off3 ≤ roundUp off3 kPageSize :=
    roundUp_ge off3 (by decide : 0 < kPageSize)
  by_cases himg : w.input.isImage = true
  · rw [if_pos himg] at h4
    cases hlay : layoutTrampolines w.input.isa w.input.trampolines
        (roundUp off3 kPageSize) with
    | mk tos offL =>
      rw [hlay] at h4
      simp only [Prod.mk.injEq] at h4
      obtain ⟨he, ht, hpd, ho⟩ := h4
      rw [if_neg (by simp only [OutStream.seekCur]; omega)] at h
      rw [if_pos himg] at h
      rw [← he] at h
      have hpos' : (s.seekCur w.sizeExecutableOffsetAlignment).pos =
          fo + roundUp off3 kPageSize := by
        simp only [OutStream.seekCur]
        omega
      obtain ⟨r1, r2, L, rc, rv⟩ :=
        writeTrampolines_sim w.input.isa fo w.input.trampolines
          (roundUp off3 kPageSize) tos offL _ p hlay h hpos'
      refine ⟨by omega, by omega, L, ?_, by rw [rv]; simp [himg]⟩
      simpa [OutStream.seekCur] using rc
  · rw [if_neg himg] at h4
    simp only [Prod.mk.injEq] at h4
    obtain ⟨he, ht, hpd, ho⟩ := h4
    rw [if_neg (by simp only [OutStream.seekCur]; omega)] at h
    rw [if_neg himg] at h
    simp only [Option.some.injEq] at h
    subst h
    refine ⟨by simp; omega, ?_, [], by simp [OutStream.seekCur], by simp [himg]⟩
    simp only [OutStream.seekCur]
    omega

theorem forall₂_right {α β : Type} {R : α → β → Prop} {P : β → Prop}
    {l1 : List α} {l2 : List β} (h : List.Forall₂ R l1 l2)
    (hP : ∀ a b, R a b → P b) : ∀ b ∈ l2, P b := by
  induction h with
  | nil => simp
  | cons h1 h2 ih =>
    intro b hb
    rcases List.mem_cons.mp hb with rfl | hb
    · exact hP _ _ h1
    · exact ih b hb

/-- `WriteCodeDexFiles` refines the four layout visitors: the returned
relative offset is pass 1's final offset, the position advances by the
code-and-tables span, and the emitted chunks decompose into the code
region (whose non-padding chunks are the code checksum trace, with
all-zero padding) followed by the three side-table regions (exactly their
checksum traces). -/
theorem writeCodeDexFiles_sim {w : Writer}
    {ocs0 ocs1 ocs2 ocs3 ocs4 : List OatClass} {off4 : Nat}
    {cst : CodeSt} {gst mst vst : MapSt} {s : OutStream} {res : OutStream × Nat}
    (h5 : codeInitClasses ocs0 ⟨off4, [], []⟩ = some (ocs1, cst))
    (h6 : mapInitClasses GcMapBinder ocs1 ⟨cst.offset, [], []⟩ = some (ocs2, gst))
    (h7 : mapInitClasses MappingTableBinder ocs2 ⟨gst.offset, [], []⟩ = some (ocs3, mst))
    (h8 : mapInitClasses VmapTableBinder ocs3 ⟨mst.offset, [], []⟩ = some (ocs4, vst))
    (hocs : w.oatClasses = ocs4)
    (h : writeCodeDexFiles w off4 s = some res) :
    res.2 = vst.offset ∧ res.1.pos = s.pos + (vst.offset - off4) ∧
    ∃ L6 L7 L8 L9, res.1.chunks = s.chunks ++ L6 ++ L7 ++ L8 ++ L9 ∧
      ((L6.map Prod.snd).filter fun c => !c.isPadding) = cst.csum ∧
      (∀ pc ∈ L6, ∀ b, Prod.snd pc = Chunk.padding b → b = List.replicate b.length 0) ∧
      L7.map Prod.snd = gst.csum ∧
      L8.map Prod.snd = mst.csum ∧
      L9.map Prod.snd = vst.csum := by
  have hGc : classRecsUpdated GcMapBinder ocs1 ocs2 := by
    obtain ⟨ne, -, -, -, -, -, hcr, -⟩ :=
      mapInitClasses_spec GcMapBinder (fun r o => rfl) ocs1 _ _ _ h6
        (by simp [dedupInv])
    exact hcr
  have hMp : classRecsUpdated MappingTableBinder ocs2 ocs3 := by
    obtain ⟨ne, -, -, -, -, -, hcr, -⟩ :=
      mapInitClasses_spec MappingTableBinder (fun r o => rfl) ocs2 _ _ _ h7
        (by simp [dedupInv])
    exact hcr
  have hVm : classRecsUpdated VmapTableBinder ocs3 ocs4 := by
    obtain ⟨ne, -, -, -, -, -, hcr, -⟩ :=
      mapInitClasses_spec VmapTableBinder (fun r o => rfl) ocs3 _ _ _ h8
        (by simp [dedupInv])
    exact hcr
  have hMcode : classesMatch OatMethodOffsets.codeOffset ocs4 ocs1 :=
    classesMatch_trans
      (classesMatch_trans (classRecsUpdated_match (fun r o => rfl) hVm)
        (classRecsUpdated_match (fun r o => rfl) hMp))
      (classRecsUpdated_match (fun r o => rfl) hGc)
  have hMgc : classesMatch GcMapBinder.getOffset ocs4 ocs2 :=
    classesMatch_trans (classRecsUpdated_match (fun r o => rfl) hVm)
      (classRecsUpdated_match (fun r o => rfl) hMp)
  have hMmp : classesMatch MappingTableBinder.getOffset ocs4 ocs3 :=
    classRecsUpdated_match (fun r o => rfl) hVm
  have hMvm : classesMatch VmapTableBinder.getOffset ocs4 ocs4 :=
    classesMatch_refl _ _
  unfold writeCodeDexFiles at h
  cases hws1 : codeWriteClasses w.oatClasses ⟨off4, s⟩ with
  | none => rw [hws1] at h; simp at h
  | some wst1 =>
    rw [hws1] at h
    simp only [Option.bind_eq_bind, Option.some_bind] at h
    obtain ⟨ho1, hp1, L6, hc1, hf1, hz1⟩ :=
      codeWriteClasses_sim ocs0 ⟨off4, [], []⟩ ocs1 cst w.oatClasses ⟨off4, s⟩ wst1
        h5 (by simp [codeDedupInv]) (by simp) (hocs ▸ hMcode) rfl hws1
    cases hws2 : mapWriteClasses GcMapBinder w.oatClasses wst1 with
    | none => rw [hws2] at h; simp at h
    | some wst2 =>
      rw [hws2] at h
      simp only [Option.bind_eq_bind, Option.some_bind] at h
      obtain ⟨ho2, hp2, L7, hc2, hv2⟩ :=
        mapWriteClasses_sim GcMapBinder (fun r o => rfl) ocs1 ⟨cst.offset, [], []⟩
          ocs2 gst w.oatClasses wst1 wst2 h6 (by simp [dedupInv]) (hocs ▸ hMgc) ho1 hws2
      cases hws3 : mapWriteClasses MappingTableBinder w.oatClasses wst2 with
      | none => rw [hws3] at h; simp at h
      | some wst3 =>
        rw [hws3] at h
        simp only [Option.bind_eq_bind, Option.some_bind] at h
        obtain ⟨ho3, hp3, L8, hc3, hv3⟩ :=
          mapWriteClasses_sim MappingTableBinder (fun r o => rfl) ocs2
            ⟨gst.offset, [], []⟩ ocs3 mst w.oatClasses wst2 wst3 h7
            (by simp [dedupInv]) (hocs ▸ hMmp) ho2 hws3
        cases hws4 : mapWriteClasses VmapTableBinder w.oatClasses wst3 with
        | none => rw [hws4] at h; simp at h
        | some wst4 =>
          rw [hws4] at h
          simp only [Option.bind_eq_bind, Option.some_bind, pure,
            Option.some.injEq] at h
          obtain ⟨ho4, hp4, L9, hc4, hv4⟩ :=
            mapWriteClasses_sim VmapTableBinder (fun r o => rfl) ocs3
              ⟨mst.offset, [], []⟩ ocs4 vst w.oatClasses wst3 wst4 h8
              (by simp [dedupInv]) (hocs ▸ hMvm) ho3 hws4
          subst h
          have e4 : off4 ≤ cst.offset := by
            obtain ⟨ne, -, -, -, hle, -, -, -, -⟩ :=
              codeInitClasses_spec ocs0 ⟨off4, [], []⟩ ocs1 cst h5
                (by simp [codeDedupInv]) (by simp)
            simpa using hle
          have e6 : cst.offset ≤ gst.offset := by
            obtain ⟨ne, -, -, -, hle, -, -, -⟩ :=
              mapInitClasses_spec GcMapBinder (fun r o => rfl) ocs1 _ _ _ h6
                (by simp [dedupInv])
            simpa using hle
          have e7 : gst.offset ≤ mst.offset := by
            obtain ⟨ne, -, -, -, hle, -, -, -⟩ :=
              mapInitClasses_spec MappingTableBinder (fun r o => rfl) ocs2 _ _ _ h7
                (by simp [dedupInv])
            simpa using hle
          have e8 : mst.offset ≤ vst.offset := by
            obtain ⟨ne, -, -, -, hle, -, -, -⟩ :=
              mapInitClasses_spec VmapTableBinder (fun r o => rfl) ocs3 _ _ _ h8
                (by simp [dedupInv])
            simpa using hle
          have hp1' : wst1.stream.pos = s.pos + (cst.offset - off4) := by
            simpa using hp1
          have hp2' : wst2.stream.pos = wst1.stream.pos + (gst.offset - cst.offset) := by
            simpa using hp2
          have hp3' : wst3.stream.pos = wst2.stream.pos + (mst.offset - gst.offset) := by
            simpa using hp3
          have hp4' : wst4.stream.pos = wst3.stream.pos + (vst.offset - mst.offset) := by
            simpa using hp4
          refine ⟨ho4, ?_, L6, L7, L8, L9, ?_, ?_, hz1, ?_, ?_, ?_⟩
          · simp only []
            omega
          · simp only []
            rw [hc4, hc3, hc2, hc1]
          · simpa using hf1.symm
          · simpa using hv2.symm
          · simpa using hv3.symm
          · simpa using hv4.symm

/-- The debug-build `WriteCodeDexFiles` — with every `DCHECK` of the four
write visitors — behaves identically to the release build: all the
re-verifications of pass 1's decisions succeed. -/
theorem writeCodeDexFilesDbg_spec {w : Writer}
    {ocs0 ocs1 ocs2 ocs3 ocs4 : List OatClass} {off4 : Nat}
    {cst : CodeSt} {gst mst vst : MapSt}
    (h5 : codeInitClasses ocs0 ⟨off4, [], []⟩ = some (ocs1, cst))
    (h6 : mapInitClasses GcMapBinder ocs1 ⟨cst.offset, [], []⟩ = some (ocs2, gst))
    (h7 : mapInitClasses MappingTableBinder ocs2 ⟨gst.offset, [], []⟩ = some (ocs3, mst))
    (h8 : mapInitClasses VmapTableBinder ocs3 ⟨mst.offset, [], []⟩ = some (ocs4, vst))
    (hocs : w.oatClasses = ocs4)
    (hco : w.codeOffsets = cst.codeOffsets)
    (hgo : w.gcMapOffsets = gst.dedupe)
    (hmo : w.mappingTableOffsets = mst.dedupe)
    (hvo : w.vmapTableOffsets = vst.dedupe)
    (hpos4 : 0 < off4) :
    ∀ s, writeCodeDexFilesDbg w off4 s = writeCodeDexFiles w off4 s := by
  have hGc : classRecsUpdated GcMapBinder ocs1 ocs2 := by
    obtain ⟨ne, -, -, -, -, -, hcr, -⟩ :=
      mapInitClasses_spec GcMapBinder (fun r o => rfl) ocs1 _ _ _ h6
        (by simp [dedupInv])
    exact hcr
  have hMp : classRecsUpdated MappingTableBinder ocs2 ocs3 := by
    obtain ⟨ne, -, -, -, -, -, hcr, -⟩ :=
      mapInitClasses_spec MappingTableBinder (fun r o => rfl) ocs2 _ _ _ h7
        (by simp [dedupInv])
    exact hcr
  have hVm : classRecsUpdated VmapTableBinder ocs3 ocs4 := by
    obtain ⟨ne, -, -, -, -, -, hcr, -⟩ :=
      mapInitClasses_spec VmapTableBinder (fun r o => rfl) ocs3 _ _ _ h8
        (by simp [dedupInv])
    exact hcr
  have hMcode : classesMatch OatMethodOffsets.codeOffset ocs4 ocs1 :=
    classesMatch_trans
      (classesMatch_trans (classRecsUpdated_match (fun r o => rfl) hVm)
        (classRecsUpdated_match (fun r o => rfl) hMp))
      (classRecsUpdated_match (fun r o => rfl) hGc)
  have hMgc : classesMatch GcMapBinder.getOffset ocs4 ocs2 :=
    classesMatch_trans (classRecsUpdated_match (fun r o => rfl) hVm)
      (classRecsUpdated_match (fun r o => rfl) hMp)
  have hMmp : classesMatch MappingTableBinder.getOffset ocs4 ocs3 :=
    classRecsUpdated_match (fun r o => rfl) hVm
  have hMvm : classesMatch VmapTableBinder.getOffset ocs4 ocs4 :=
    classesMatch_refl _ _
  obtain ⟨ne0, -, -, -, hle4, -, -, hF7, -⟩ :=
    codeInitClasses_spec ocs0 ⟨off4, [], []⟩ ocs1 cst h5
      (by simp [codeDedupInv]) (by simp)
  have hz_all : ∀ oc ∈ ocs1, ∀ r ∈ oc.methodOffsets,
      r.mappingTableOffset = 0 ∧ r.vmapTableOffset = 0 ∧ r.gcMapOffset = 0 :=
    forall₂_right hF7 (fun a b hr => hr.2.2.2.2.2.2.2.2)
  have hzGc : ∀ oc ∈ ocs1, ∀ r ∈ oc.methodOffsets, GcMapBinder.getOffset r = 0 :=
    fun oc h r hr => (hz_all oc h r hr).2.2
  have hzMp : ∀ oc ∈ ocs2, ∀ r ∈ oc.methodOffsets,
      MappingTableBinder.getOffset r = 0 :=
    classRecsUpdated_zeroField (fun r o => rfl) hGc
      (fun oc h r hr => (hz_all oc h r hr).1)
  have hzVm : ∀ oc ∈ ocs3, ∀ r ∈ oc.methodOffsets,
      VmapTableBinder.getOffset r = 0 :=
    classRecsUpdated_zeroField (fun r o => rfl) hMp
      (classRecsUpdated_zeroField (fun r o => rfl) hGc
        (fun oc h r hr => (hz_all oc h r hr).2.1))
  have hle4' : off4 ≤ cst.offset := by simpa using hle4
  obtain ⟨ne6, -, -, -, hle6, -, -, -⟩ :=
    mapInitClasses_spec GcMapBinder (fun r o => rfl) ocs1 _ _ _ h6
      (by simp [dedupInv])
  obtain ⟨ne7, -, -, -, hle7, -, -, -⟩ :=
    mapInitClasses_spec MappingTableBinder (fun r o => rfl) ocs2 _ _ _ h7
      (by simp [dedupInv])
  have hle6' : cst.offset ≤ gst.offset := by simpa using hle6
  have hle7' : gst.offset ≤ mst.offset := by simpa using hle7
  intro s
  unfold writeCodeDexFilesDbg writeCodeDexFiles
  rw [hco, hocs,
    codeWriteClassesDbg_eq ocs0 ⟨off4, [], []⟩ ocs1 cst ocs4 cst.codeOffsets ⟨off4, s⟩
      h5 (by simp [codeDedupInv]) (by simp) (lookupPreserved_refl _) hMcode rfl]
  cases hws1 : codeWriteClasses ocs4 ⟨off4, s⟩ with
  | none => rfl
  | some wst1 =>
    simp only [Option.bind_eq_bind, Option.some_bind]
    have ho1 : wst1.offset = cst.offset :=
      (codeWriteClasses_sim ocs0 ⟨off4, [], []⟩ ocs1 cst ocs4 ⟨off4, s⟩ wst1
        h5 (by simp [codeDedupInv]) (by simp) hMcode rfl hws1).1
    rw [hgo,
      mapWriteClassesDbg_eq GcMapBinder (fun r o => rfl) ocs1 ⟨cst.offset, [], []⟩
        ocs2 gst ocs4 gst.dedupe wst1 h6 (by simp [dedupInv]) hzGc (by simp)
        (by simp only []; omega) (lookupPreserved_refl _) hMgc ho1]
    cases hws2 : mapWriteClasses GcMapBinder ocs4 wst1 with
    | none => rfl
    | some wst2 =>
      simp only [Option.bind_eq_bind, Option.some_bind]
      have ho2 : wst2.offset = gst.offset :=
        (mapWriteClasses_sim GcMapBinder (fun r o => rfl) ocs1 ⟨cst.offset, [], []⟩
          ocs2 gst ocs4 wst1 wst2 h6 (by simp [dedupInv]) hMgc ho1 hws2).1
      rw [hmo,
        mapWriteClassesDbg_eq MappingTableBinder (fun r o => rfl) ocs2
          ⟨gst.offset, [], []⟩ ocs3 mst ocs4 mst.dedupe wst2 h7 (by simp [dedupInv])
          hzMp (by simp) (by simp only []; omega) (lookupPreserved_refl _) hMmp ho2]
      cases hws3 : mapWriteClasses MappingTableBinder ocs4 wst2 with
      | none => rfl
      | some wst3 =>
        simp only [Option.bind_eq_bind, Option.some_bind]
        have ho3 : wst3.offset = mst.offset :=
          (mapWriteClasses_sim MappingTableBinder (fun r o => rfl) ocs2
            ⟨gst.offset, [], []⟩ ocs3 mst ocs4 wst2 wst3 h7 (by simp [dedupInv])
            hMmp ho2 hws3).1
        rw [hvo,
          mapWriteClassesDbg_eq VmapTableBinder (fun r o => rfl) ocs3
            ⟨mst.offset, [], []⟩ ocs4 vst ocs4 vst.dedupe wst3 h8 (by simp [dedupInv])
            hzVm (by simp) (by simp only []; omega) (lookupPreserved_refl _) hMvm ho3]

theorem not_excluded_not_padding {c : Chunk} (h : c.checksumExcluded = false) :
    ∀ b, c ≠ Chunk.padding b := by
  cases c <;> intro b <;> simp_all [Chunk.checksumExcluded]

theorem isClassDescriptor_not_padding {c : Chunk} (h : c.isClassDescriptor = true) :
    ∀ b, c ≠ Chunk.padding b := by
  cases c <;> intro b <;> simp_all [Chunk.isClassDescriptor]

theorem forall₂_left_transfer {α β : Type} {R : α → β → Prop} {Q : β → Prop}
    {P : α → Prop} {l1 : List α} {l2 : List β} (h : List.Forall₂ R l1 l2)
    (hQ : ∀ b ∈ l2, Q b) (hPQ : ∀ a b, R a b → Q b → P a) : ∀ a ∈ l1, P a := by
  induction h with
  | nil => simp
  | cons h1 h2 ih =>
    intro a ha
    rcases List.mem_cons.mp ha with rfl | ha
    · exact hPQ _ _ h1 (hQ _ (List.mem_cons_self _ _))
    · exact ih (fun b hb => hQ b (List.mem_cons_of_mem _ hb)) a ha

theorem isPadding_excluded {c : Chunk} (h : c.isPadding = true) :
    c.checksumExcluded = true := by
  cases c <;> simp_all [Chunk.isPadding, Chunk.checksumExcluded]

theorem isPadding_exists {c : Chunk} (h : c.isPadding = true) :
    ∃ b, c = Chunk.padding b := by
  cases c <;> simp_all [Chunk.isPadding]

/-- Master pass-2 refinement: on any successful `Write` of a successfully
constructed writer, the relative offset returned equals `size_`, the
stream advances by exactly `size_` bytes, the non-excluded chunk values
are exactly the running-checksum trace of pass 1, each side-table kind's
blobs on the stream are its deduplication table's keys (newest first
reversed, i.e. in layout order), and all written alignment padding is
zero. -/
theorem write_spec {input : OatInput} {w : Writer} {s : OutStream}
    {res : OutStream × Nat}
    (hmk : mkWriter input = some w) (h : Writer.write w s = some res) :
    res.2 = w.size ∧ res.1.pos = s.pos + w.size ∧
    ∃ L, res.1.chunks = s.chunks ++ L ∧
      ((L.map Prod.snd).filter fun c => !c.checksumExcluded) = w.checksum ∧
      chunkBlobsOfKind MapKind.gc L = (w.gcMapOffsets.map Prod.fst).reverse ∧
      chunkBlobsOfKind MapKind.mapping L = (w.mappingTableOffsets.map Prod.fst).reverse ∧
      chunkBlobsOfKind MapKind.vmap L = (w.vmapTableOffsets.map Prod.fst).reverse ∧
      (∀ pc ∈ L, ∀ b, Prod.snd pc = Chunk.padding b → b = List.replicate b.length 0) := by
  obtain ⟨hcond, odfs1, off1, odfs2, off2, ocs0, odfs3, csum1, off3, execOff,
    trampOffs, execPad, off4, ocs1, cst, ocs2, gst, ocs3, mst, ocs4, vst,
    h1, h2, h3, h4, h5, h6, h7, h8, hw⟩ := mkWriter_destruct hmk
  have fInput : w.input = input := by rw [hw]
  have fExec : w.executableOffset = execOff := by rw [hw]
  have fPad : w.sizeExecutableOffsetAlignment = execPad := by rw [hw]
  have fOdfs : w.oatDexFiles = odfs3 := by rw [hw]
  have fOcs : w.oatClasses = ocs4 := by rw [hw]
  have fGc : w.gcMapOffsets = gst.dedupe := by rw [hw]
  have fMp : w.mappingTableOffsets = mst.dedupe := by rw [hw]
  have fVm : w.vmapTableOffsets = vst.dedupe := by rw [hw]
  have fCk : w.checksum = csum1 ++ cst.csum ++ gst.csum ++ mst.csum ++ vst.csum := by
    rw [hw]
  have fSz : w.size = vst.offset := by rw [hw]
  obtain ⟨la1, la2, la3⟩ := initOatDexFiles_spec input.dexFiles _ _ _ h1
  obtain ⟨lb1, lb2⟩ := initDexFiles_spec odfs1 input.dexFiles off1 odfs2 off2 h2 la2
  obtain ⟨lc1, lc2, lc3⟩ := initOatClasses_spec h3
  have mo2 : odfs2.map OatDexFile.sizeOf = odfs1.map OatDexFile.sizeOf :=
    forall₂_map_eq (lb2.imp (fun a b hcc => by
      unfold OatDexFile.sizeOf
      rw [hcc.1, hcc.2.2.2.1]))
  have mo3 : odfs3.map OatDexFile.sizeOf = odfs2.map OatDexFile.sizeOf :=
    forall₂_map_eq (lc3.imp (fun a b hcc => by
      unfold OatDexFile.sizeOf
      rw [hcc.2.1, hcc.2.2.2.2.2]))
  have hdflen2 : ∀ odf ∈ odfs2,
      odf.dexFileLocationSize = odf.dexFileLocationData.length :=
    forall₂_left_transfer lb2 la3 (fun a b hr hb => by rw [hr.1, hr.2.1]; exact hb)
  have hdflen3 : ∀ odf ∈ odfs3,
      odf.dexFileLocationSize = odf.dexFileLocationData.length :=
    forall₂_left_transfer lc3 hdflen2
      (fun a b hr hb => by rw [hr.2.1, hr.2.2.1]; exact hb)
  have hF : List.Forall₂ (fun (a b : OatDexFile) => a.dexFileOffset = b.dexFileOffset)
      odfs3 odfs2 :=
    lc3.imp (fun a b hr => hr.2.2.2.2.1)
  obtain ⟨ne0, ec1, -, ec3, hle4, -, -, hF7, -⟩ :=
    codeInitClasses_spec ocs0 ⟨off4, [], []⟩ ocs1 cst h5
      (by simp [codeDedupInv]) (by simp)
  obtain ⟨neG, eG1, -, eG3, hle6, -, hGc, -⟩ :=
    mapInitClasses_spec GcMapBinder (fun r o => rfl) ocs1 _ _ _ h6
      (by simp [dedupInv])
  obtain ⟨neM, eM1, -, eM3, hle7, -, hMp, -⟩ :=
    mapInitClasses_spec MappingTableBinder (fun r o => rfl) ocs2 _ _ _ h7
      (by simp [dedupInv])
  obtain ⟨neV, eV1, -, eV3, hle8, -, hVm, -⟩ :=
    mapInitClasses_spec VmapTableBinder (fun r o => rfl) ocs3 _ _ _ h8
      (by simp [dedupInv])
  have hle4' : off4 ≤ cst.offset := by simpa using hle4
  have hle6' : cst.offset ≤ gst.offset := by simpa using hle6
  have hle7' : gst.offset ≤ mst.offset := by simpa using hle7
  have hle8' : mst.offset ≤ vst.offset := by simpa using hle8
  have ms1 : ocs1.map OatClass.sizeOf = ocs0.map OatClass.sizeOf :=
    (forall₂_map_eq (hF7.imp (fun a b hcc => by
      unfold OatClass.sizeOf
      rw [hcc.2.2.2.2.1, hcc.2.2.2.2.2.2.2.1]))).symm
  have ms2 : ocs2.map OatClass.sizeOf = ocs1.map OatClass.sizeOf :=
    classRecsUpdated_sizes hGc
  have ms3 : ocs3.map OatClass.sizeOf = ocs2.map OatClass.sizeOf :=
    classRecsUpdated_sizes hMp
  have ms4 : ocs4.map OatClass.sizeOf = ocs3.map OatClass.sizeOf :=
    classRecsUpdated_sizes hVm
  have mgc : gst.csum = gst.dedupe.reverse.map (fun p => Chunk.mapBlob MapKind.gc p.1) := by
    have hg : gst.dedupe = neG := by simpa using eG1
    rw [hg]
    simpa using eG3
  have mmp : mst.csum =
      mst.dedupe.reverse.map (fun p => Chunk.mapBlob MapKind.mapping p.1) := by
    have hg : mst.dedupe = neM := by simpa using eM1
    rw [hg]
    simpa using eM3
  have mvm : vst.csum =
      vst.dedupe.reverse.map (fun p => Chunk.mapBlob MapKind.vmap p.1) := by
    have hg : vst.dedupe = neV := by simpa using eV1
    rw [hg]
    simpa using eV3
  have mcsum : ∀ c ∈ cst.csum,
      (∃ n, c = Chunk.methodHeader n) ∨ (∃ b, c = Chunk.code b) := by
    intro c hc
    have hc3 : cst.csum = ne0.reverse.flatMap
        (fun p => [Chunk.methodHeader p.1.length, Chunk.code p.1]) := by
      simpa using ec3
    rw [hc3] at hc
    obtain ⟨p, -, hm⟩ := List.mem_flatMap.mp hc
    simp only [List.mem_cons, List.not_mem_nil, or_false] at hm
    rcases hm with rfl | rfl
    · exact Or.inl ⟨p.1.length, rfl⟩
    · exact Or.inr ⟨p.1, rfl⟩
  unfold Writer.write at h
  simp only [] at h
  cases hA : s.writeFully Chunk.oatHeader with
  | none => rw [hA] at h; simp at h
  | some sA =>
    rw [hA] at h
    simp only [Option.bind_eq_bind, Option.some_bind] at h
    cases hB : sA.writeFully (Chunk.imageFileLocation w.input.imageFileLocation) with
    | none => rw [hB] at h; simp at h
    | some sB =>
      rw [hB] at h
      simp only [Option.bind_eq_bind, Option.some_bind] at h
      cases hC : writeTables w s.pos sB with
      | none => rw [hC] at h; simp at h
      | some sC =>
        rw [hC] at h
        simp only [Option.bind_eq_bind, Option.some_bind] at h
        cases hD : writeCode w s.pos sC with
        | none => rw [hD] at h; simp at h
        | some pD =>
          obtain ⟨sD, rel⟩ := pD
          rw [hD] at h
          simp only [Option.bind_eq_bind, Option.some_bind] at h
          obtain ⟨pA1, pA2⟩ := writeFully_spec hA
          obtain ⟨pB1, pB2⟩ := writeFully_spec hB
          have hposB : sB.pos = s.pos + initOatHeader input := by
            simp only [Chunk.size, fInput] at pA1 pB1
            simp only [initOatHeader, sizeofOatHeader] at *
            omega
          have targ2 : off1 = initOatHeader input +
              (w.oatDexFiles.map OatDexFile.sizeOf).sum := by
            rw [fOdfs, mo3, mo2]
            omega
          have targ3 : initDexFiles odfs1 w.input.dexFiles off1 = (odfs2, off2) := by
            rw [fInput]
            exact h2
          have targ4 : odfs1.length = w.input.dexFiles.length := by
            rw [fInput]
            exact la2
          have targ6 : off3 = off2 + (w.oatClasses.map OatClass.sizeOf).sum := by
            rw [fOcs, ms4, ms3, ms2, ms1]
            omega
          obtain ⟨hposC, L2, L3, L4, hCc, hv2, hv3, hpos3, hv4⟩ :=
            writeTables_spec (fOdfs ▸ hdflen3) targ2 targ3 targ4
              (fOdfs ▸ hF) targ6 hposB hC
          have h4' : initOatCode w.input off3 =
              (w.executableOffset, trampOffs, w.sizeExecutableOffsetAlignment, off4) := by
            rw [fInput, fExec, fPad]
            exact h4
          obtain ⟨hrel, hposD, L5, hDc, hv5⟩ := writeCode_spec h4' hposC hD
          have hrel' : rel = off4 := hrel
          have hposD' : sD.pos = s.pos + off4 := hposD
          have hDc' : sD.chunks = sC.chunks ++ L5 := hDc
          rw [hrel'] at h
          obtain ⟨hres2, hresPos, L6, L7, L8, L9, hresC, hf6, hz6, hv7, hv8, hv9⟩ :=
            writeCodeDexFiles_sim h5 h6 h7 h8 fOcs h
          refine ⟨by rw [fSz]; exact hres2, by rw [fSz]; clear hposD hDc hrel; omega,
            [(s.pos, Chunk.oatHeader),
             (sA.pos, Chunk.imageFileLocation w.input.imageFileLocation)] ++
              L2 ++ L3 ++ L4 ++ L5 ++ L6 ++ L7 ++ L8 ++ L9, ?_, ?_, ?_, ?_, ?_, ?_⟩
          · rw [hresC, hDc, hCc, pB2, pA2]
            simp [List.append_assoc]
          · -- checksum trace
            simp only [List.map_append, List.filter_append]
            rw [fCk]
            have s1 : ([(s.pos, Chunk.oatHeader),
                (sA.pos, Chunk.imageFileLocation w.input.imageFileLocation)].map
                  Prod.snd).filter (fun c => !c.checksumExcluded) = [] := by
              simp [Chunk.checksumExcluded]
            have s2 : (L2.map Prod.snd).filter (fun c => !c.checksumExcluded) = csum1 := by
              rw [hv2, fOdfs, filter_included_eq_self (flatMap_checksumItems_not_excluded _)]
              exact lc2.symm
            have s3 : (L3.map Prod.snd).filter (fun c => !c.checksumExcluded) = [] := by
              refine filter_included_eq_nil ?_
              intro c hc
              rw [hv3] at hc
              obtain ⟨dex, -, rfl⟩ := List.mem_map.mp hc
              rfl
            have s4 : (L4.map Prod.snd).filter (fun c => !c.checksumExcluded) = [] := by
              refine filter_included_eq_nil ?_
              intro c hc
              obtain ⟨pc, hpc, rfl⟩ := List.mem_map.mp hc
              exact isClassDescriptor_excluded (hv4 pc hpc)
            have s5 : (L5.map Prod.snd).filter (fun c => !c.checksumExcluded) = [] := by
              refine filter_included_eq_nil ?_
              intro c hc
              rw [hv5] at hc
              by_cases himg : w.input.isImage = true
              · simp only [himg, if_true] at hc
                obtain ⟨b, -, rfl⟩ := List.mem_map.mp hc
                rfl
              · simp only [himg, if_false] at hc
                simp at hc
            have s6 : (L6.map Prod.snd).filter (fun c => !c.checksumExcluded) = cst.csum := by
              rw [← hf6]
              refine List.filter_congr ?_
              intro c hc
              by_cases hp : c.isPadding = true
              · simp [isPadding_excluded hp, hp]
              · have hcin : c ∈ cst.csum := by
                  rw [← hf6]
                  exact List.mem_filter.mpr ⟨hc, by simp [hp]⟩
                have : c.checksumExcluded = false := by
                  rcases mcsum c hcin with ⟨n, rfl⟩ | ⟨b, rfl⟩ <;> rfl
                simp [this, hp]
            have s7 : (L7.map Prod.snd).filter (fun c => !c.checksumExcluded) = gst.csum := by
              rw [hv7]
              refine filter_included_eq_self ?_
              intro c hc
              rw [mgc] at hc
              obtain ⟨p, -, rfl⟩ := List.mem_map.mp hc
              rfl
            have s8 : (L8.map Prod.snd).filter (fun c => !c.checksumExcluded) = mst.csum := by
              rw [hv8]
              refine filter_included_eq_self ?_
              intro c hc
              rw [mmp] at hc
              obtain ⟨p, -, rfl⟩ := List.mem_map.mp hc
              rfl
            have s9 : (L9.map Prod.snd).filter (fun c => !c.checksumExcluded) = vst.csum := by
              rw [hv9]
              refine filter_included_eq_self ?_
              intro c hc
              rw [mvm] at hc
              obtain ⟨p, -, rfl⟩ := List.mem_map.mp hc
              rfl
            rw [s1, s2, s3, s4, s5, s6, s7, s8, s9]
            simp
          · -- gc blobs
            simp only [chunkBlobsOfKind_append]
            have n1 : chunkBlobsOfKind MapKind.gc
                [(s.pos, Chunk.oatHeader),
                 (sA.pos, Chunk.imageFileLocation w.input.imageFileLocation)] = [] := rfl
            have n2 : chunkBlobsOfKind MapKind.gc L2 = [] := by
              refine chunkBlobsOfKind_nil_of_no_mapBlob _ _ ?_
              rw [hv2, fOdfs]
              exact checksumItems_not_mapBlob _
            have n3 : chunkBlobsOfKind MapKind.gc L3 = [] := by
              refine chunkBlobsOfKind_nil_of_no_mapBlob _ _ ?_
              rw [hv3]
              intro c hc
              obtain ⟨dex, -, rfl⟩ := List.mem_map.mp hc
              simp
            have n4 : chunkBlobsOfKind MapKind.gc L4 = [] := by
              refine chunkBlobsOfKind_nil_of_no_mapBlob _ _ ?_
              intro c hc
              obtain ⟨pc, hpc, rfl⟩ := List.mem_map.mp hc
              exact isClassDescriptor_not_mapBlob (hv4 pc hpc)
            have n5 : chunkBlobsOfKind MapKind.gc L5 = [] := by
              refine chunkBlobsOfKind_nil_of_no_mapBlob _ _ ?_
              rw [hv5]
              intro c hc
              by_cases himg : w.input.isImage = true
              · simp only [himg, if_true] at hc
                obtain ⟨b, -, rfl⟩ := List.mem_map.mp hc
                simp
              · simp only [himg, if_false] at hc
                simp at hc
            have n6 : chunkBlobsOfKind MapKind.gc L6 = [] := by
              refine chunkBlobsOfKind_nil_of_no_mapBlob _ _ ?_
              intro c hc
              by_cases hp : c.isPadding = true
              · obtain ⟨bb, rfl⟩ := isPadding_exists hp
                simp
              · have hcin : c ∈ cst.csum := by
                  rw [← hf6]
                  exact List.mem_filter.mpr ⟨hc, by simp [hp]⟩
                rcases mcsum c hcin with ⟨n, rfl⟩ | ⟨b, rfl⟩ <;> simp
            have n7 : chunkBlobsOfKind MapKind.gc L7 =
                (gst.dedupe.map Prod.fst).reverse := by
              rw [chunkBlobsOfKind_eq_vals, hv7, mgc, filterMap_mapBlob_self,
                List.map_reverse]
            have n8 : chunkBlobsOfKind MapKind.gc L8 = [] := by
              rw [chunkBlobsOfKind_eq_vals, hv8, mmp,
                filterMap_mapBlob_other (by decide)]
            have n9 : chunkBlobsOfKind MapKind.gc L9 = [] := by
              rw [chunkBlobsOfKind_eq_vals, hv9, mvm,
                filterMap_mapBlob_other (by decide)]
            rw [n1, n2, n3, n4, n5, n6, n7, n8, n9, fGc]
            simp
          · -- mapping blobs
            simp only [chunkBlobsOfKind_append]
            have n1 : chunkBlobsOfKind MapKind.mapping
                [(s.pos, Chunk.oatHeader),
                 (sA.pos, Chunk.imageFileLocation w.input.imageFileLocation)] = [] := rfl
            have n2 : chunkBlobsOfKind MapKind.mapping L2 = [] := by
              refine chunkBlobsOfKind_nil_of_no_mapBlob _ _ ?_
              rw [hv2, fOdfs]
              exact checksumItems_not_mapBlob _
            have n3 : chunkBlobsOfKind MapKind.mapping L3 = [] := by
              refine chunkBlobsOfKind_nil_of_no_mapBlob _ _ ?_
              rw [hv3]
              intro c hc
              obtain ⟨dex, -, rfl⟩ := List.mem_map.mp hc
              simp
            have n4 : chunkBlobsOfKind MapKind.mapping L4 = [] := by
              refine chunkBlobsOfKind_nil_of_no_mapBlob _ _ ?_
              intro c hc
              obtain ⟨pc, hpc, rfl⟩ := List.mem_map.mp hc
              exact isClassDescriptor_not_mapBlob (hv4 pc hpc)
            have n5 : chunkBlobsOfKind MapKind.mapping L5 = [] := by
              refine chunkBlobsOfKind_nil_of_no_mapBlob _ _ ?_
              rw [hv5]
              intro c hc
              by_cases himg : w.input.isImage = true
              · simp only [himg, if_true] at hc
                obtain ⟨b, -, rfl⟩ := List.mem_map.mp hc
                simp
              · simp only [himg, if_false] at hc
                simp at hc
            have n6 : chunkBlobsOfKind MapKind.mapping L6 = [] := by
              refine chunkBlobsOfKind_nil_of_no_mapBlob _ _ ?_
              intro c hc
              by_cases hp : c.isPadding = true
              · obtain ⟨bb, rfl⟩ := isPadding_exists hp
                simp
              · have hcin : c ∈ cst.csum := by
                  rw [← hf6]
                  exact List.mem_filter.mpr ⟨hc, by simp [hp]⟩
                rcases mcsum c hcin with ⟨n, rfl⟩ | ⟨b, rfl⟩ <;> simp
            have n7 : chunkBlobsOfKind MapKind.mapping L7 = [] := by
              rw [chunkBlobsOfKind_eq_vals, hv7, mgc,
                filterMap_mapBlob_other (by decide)]
            have n8 : chunkBlobsOfKind MapKind.mapping L8 =
                (mst.dedupe.map Prod.fst).reverse := by
              rw [chunkBlobsOfKind_eq_vals, hv8, mmp, filterMap_mapBlob_self,
                List.map_reverse]
            have n9 : chunkBlobsOfKind MapKind.mapping L9 = [] := by
              rw [chunkBlobsOfKind_eq_vals, hv9, mvm,
                filterMap_mapBlob_other (by decide)]
            rw [n1, n2, n3, n4, n5, n6, n7, n8, n9, fMp]
            simp
          · -- vmap blobs
            simp only [chunkBlobsOfKind_append]
            have n1 : chunkBlobsOfKind MapKind.vmap
                [(s.pos, Chunk.oatHeader),
                 (sA.pos, Chunk.imageFileLocation w.input.imageFileLocation)] = [] := rfl
            have n2 : chunkBlobsOfKind MapKind.vmap L2 = [] := by
              refine chunkBlobsOfKind_nil_of_no_mapBlob _ _ ?_
              rw [hv2, fOdfs]
              exact checksumItems_not_mapBlob _
            have n3 : chunkBlobsOfKind MapKind.vmap L3 = [] := by
              refine chunkBlobsOfKind_nil_of_no_mapBlob _ _ ?_
              rw [hv3]
              intro c hc
              obtain ⟨dex, -, rfl⟩ := List.mem_map.mp hc
              simp
            have n4 : chunkBlobsOfKind MapKind.vmap L4 = [] := by
              refine chunkBlobsOfKind_nil_of_no_mapBlob _ _ ?_
              intro c hc
              obtain ⟨pc, hpc, rfl⟩ := List.mem_map.mp hc
              exact isClassDescriptor_not_mapBlob (hv4 pc hpc)
            have n5 : chunkBlobsOfKind MapKind.vmap L5 = [] := by
              refine chunkBlobsOfKind_nil_of_no_mapBlob _ _ ?_
              rw [hv5]
              intro c hc
              by_cases himg : w.input.isImage = true
              · simp only [himg, if_true] at hc
                obtain ⟨b, -, rfl⟩ := List.mem_map.mp hc
                simp
              · simp only [himg, if_false] at hc
                simp at hc
            have n6 : chunkBlobsOfKind MapKind.vmap L6 = [] := by
              refine chunkBlobsOfKind_nil_of_no_mapBlob _ _ ?_
              intro c hc
              by_cases hp : c.isPadding = true
              · obtain ⟨bb, rfl⟩ := isPadding_exists hp
                simp
              · have hcin : c ∈ cst.csum := by
                  rw [← hf6]
                  exact List.mem_filter.mpr ⟨hc, by simp [hp]⟩
                rcases mcsum c hcin with ⟨n, rfl⟩ | ⟨b, rfl⟩ <;> simp
            have n7 : chunkBlobsOfKind MapKind.vmap L7 = [] := by
              rw [chunkBlobsOfKind_eq_vals, hv7, mgc,
                filterMap_mapBlob_other (by decide)]
            have n8 : chunkBlobsOfKind MapKind.vmap L8 = [] := by
              rw [chunkBlobsOfKind_eq_vals, hv8, mmp,
                filterMap_mapBlob_other (by decide)]
            have n9 : chunkBlobsOfKind MapKind.vmap L9 =
                (vst.dedupe.map Prod.fst).reverse := by
              rw [chunkBlobsOfKind_eq_vals, hv9, mvm, filterMap_mapBlob_self,
                List.map_reverse]
            rw [n1, n2, n3, n4, n5, n6, n7, n8, n9, fVm]
            simp
          · -- padding is zero
            intro pc hpc b hb
            simp only [List.append_assoc, List.mem_append, List.mem_cons,
              List.not_mem_nil, or_false] at hpc
            rcases hpc with (rfl | rfl) | hpc | hpc | hpc | hpc | hpc | hpc | hpc | hpc
            · simp at hb
            · simp at hb
            · have hcv : Prod.snd pc ∈ L2.map Prod.snd := List.mem_map_of_mem _ hpc
              rw [hv2, fOdfs] at hcv
              exact absurd hb
                (not_excluded_not_padding (flatMap_checksumItems_not_excluded _ _ hcv) b)
            · have hcv : Prod.snd pc ∈ L3.map Prod.snd := List.mem_map_of_mem _ hpc
              rw [hv3] at hcv
              obtain ⟨dex, -, he⟩ := List.mem_map.mp hcv
              rw [← he] at hb
              simp at hb
            · have := hv4 pc hpc
              exact absurd hb (isClassDescriptor_not_padding this b)
            · have hcv : Prod.snd pc ∈ L5.map Prod.snd := List.mem_map_of_mem _ hpc
              rw [hv5] at hcv
              by_cases himg : w.input.isImage = true
              · simp only [himg, if_true] at hcv
                obtain ⟨bb, -, he⟩ := List.mem_map.mp hcv
                rw [← he] at hb
                simp at hb
              · simp only [himg, if_false] at hcv
                simp at hcv
            · exact hz6 pc hpc b hb
            · have hcv : Prod.snd pc ∈ L7.map Prod.snd := List.mem_map_of_mem _ hpc
              rw [hv7, mgc] at hcv
              obtain ⟨p, -, he⟩ := List.mem_map.mp hcv
              rw [← he] at hb
              simp at hb
            · have hcv : Prod.snd pc ∈ L8.map Prod.snd := List.mem_map_of_mem _ hpc
              rw [hv8, mmp] at hcv
              obtain ⟨p, -, he⟩ := List.mem_map.mp hcv
              rw [← he] at hb
              simp at hb
            · have hcv : Prod.snd pc ∈ L9.map Prod.snd := List.mem_map_of_mem _ hpc
              rw [hv9, mvm] at hcv
              obtain ⟨p, -, he⟩ := List.mem_map.mp hcv
              rw [← he] at hb
              simp at hb

/-- The trampoline write loop's returned relative offset depends only on
the layout inputs: it is the trampoline layout's final offset. -/
theorem writeTrampolines_offset (isa : InstructionSet) (bs : List Blob) :
    ∀ relOff (s : OutStream) (p : OutStream × Nat),
    writeTrampolines isa bs relOff s = some p →
    p.2 = (layoutTrampolines isa bs relOff).2 := by
  induction bs with
  | nil =>
    intro relOff s p h
    simp only [writeTrampolines, Option.some.injEq] at h
    subst h
    rfl
  | cons b rest ih =>
    intro relOff s p h
    simp only [writeTrampolines] at h
    cases hwf : (s.seekCur (alignCode relOff isa - relOff)).writeFully
        (Chunk.trampoline b) with
    | none => rw [hwf] at h; simp at h
    | some s2 =>
      rw [hwf] at h
      simp only [Option.bind_eq_bind, Option.some_bind] at h
      simp only [layoutTrampolines]
      cases hrec : layoutTrampolines isa rest (alignCode relOff isa + b.length) with
      | mk os off1 =>
        have := ih (alignCode relOff isa + b.length) s2 p h
        rw [hrec] at this
        simpa using this

/-- `InitOatCode` never moves the offset backwards. -/
theorem initOatCode_le {input : OatInput} {off3 e p o4 : Nat} {t : List Nat}
    (h : initOatCode input off3 = (e, t, p, o4)) : off3 ≤ o4 := by
  unfold initOatCode at h
  simp only [] at h
  have hr : off3 ≤ roundUp off3 kPageSize := roundUp_ge off3 (by decide)
  by_cases himg : input.isImage = true
  · rw [if_pos himg] at h
    cases hlay : layoutTrampolines input.isa input.trampolines
        (roundUp off3 kPageSize) with
    | mk tos offL =>
      rw [hlay] at h
      simp only [Prod.mk.injEq] at h
      have := layoutTrampolines_le input.isa input.trampolines (roundUp off3 kPageSize)
      rw [hlay] at this
      simp only [] at this
      omega
  · rw [if_neg himg] at h
    simp only [Prod.mk.injEq] at h
    omega

/-- `writeCode` on success returns `InitOatCode`'s final offset. -/
theorem writeCode_rel {w : Writer} {off3 off4 : Nat} {trampOffs : List Nat}
    {fo : Nat} {s : OutStream} {p : OutStream × Nat}
    (h4 : initOatCode w.input off3 =
      (w.executableOffset, trampOffs, w.sizeExecutableOffsetAlignment, off4))
    (h : writeCode w fo s = some p) : p.2 = off4 := by
  unfold initOatCode at h4
  simp only [] at h4
  unfold writeCode at h
  by_cases hguard : (s.seekCur w.sizeExecutableOffsetAlignment).pos ≠
      fo + w.executableOffset
  · rw [if_pos hguard] at h
    simp at h
  · rw [if_neg hguard] at h
    by_cases himg : w.input.isImage = true
    · rw [if_pos himg] at h4
      rw [if_pos himg] at h
      cases hlay : layoutTrampolines w.input.isa w.input.trampolines
          (roundUp off3 kPageSize) with
      | mk tos offL =>
        rw [hlay] at h4
        simp only [Prod.mk.injEq] at h4
        have := writeTrampolines_offset w.input.isa w.input.trampolines
          w.executableOffset _ p h
        rw [← h4.1, hlay] at this
        simp only [] at this
        omega
    · rw [if_neg himg] at h4
      rw [if_neg himg] at h
      simp only [Option.some.injEq] at h
      subst h
      simp only [Prod.mk.injEq] at h4
      omega

/-- On every successfully constructed writer, a debug build's `Write` —
with all its `DCHECK` re-verification of the pass-1 layout decisions —
computes exactly what the release build computes, on every output stream
(including failing ones). -/
theorem writeDbg_eq {input : OatInput} {w : Writer}
    (hmk : mkWriter input = some w) :
    ∀ s, Writer.writeDbg w s = Writer.write w s := by
  obtain ⟨hcond, odfs1, off1, odfs2, off2, ocs0, odfs3, csum1, off3, execOff,
    trampOffs, execPad, off4, ocs1, cst, ocs2, gst, ocs3, mst, ocs4, vst,
    h1, h2, h3, h4, h5, h6, h7, h8, hw⟩ := mkWriter_destruct hmk
  have fInput : w.input = input := by rw [hw]
  have fExec : w.executableOffset = execOff := by rw [hw]
  have fPad : w.sizeExecutableOffsetAlignment = execPad := by rw [hw]
  have fOcs : w.oatClasses = ocs4 := by rw [hw]
  have fCo : w.codeOffsets = cst.codeOffsets := by rw [hw]
  have fGc : w.gcMapOffsets = gst.dedupe := by rw [hw]
  have fMp : w.mappingTableOffsets = mst.dedupe := by rw [hw]
  have fVm : w.vmapTableOffsets = vst.dedupe := by rw [hw]
  obtain ⟨la1, la2, la3⟩ := initOatDexFiles_spec input.dexFiles _ _ _ h1
  obtain ⟨lb1, lb2⟩ := initDexFiles_spec odfs1 input.dexFiles off1 odfs2 off2 h2 la2
  obtain ⟨lc1, lc2, lc3⟩ := initOatClasses_spec h3
  have h0 : 0 < initOatHeader input := by
    unfold initOatHeader sizeofOatHeader
    omega
  have hle34 : off3 ≤ off4 := initOatCode_le h4
  have hpos4 : 0 < off4 := by omega
  intro s
  unfold Writer.writeDbg Writer.write
  simp only []
  cases hA : s.writeFully Chunk.oatHeader with
  | none => rfl
  | some sA =>
    simp only [Option.bind_eq_bind, Option.some_bind]
    cases hB : sA.writeFully (Chunk.imageFileLocation w.input.imageFileLocation) with
    | none => rfl
    | some sB =>
      simp only [Option.bind_eq_bind, Option.some_bind]
      cases hC : writeTables w s.pos sB with
      | none => rfl
      | some sC =>
        simp only [Option.bind_eq_bind, Option.some_bind]
        cases hD : writeCode w s.pos sC with
        | none => rfl
        | some pD =>
          obtain ⟨sD, rel⟩ := pD
          simp only [Option.bind_eq_bind, Option.some_bind]
          have h4' : initOatCode w.input off3 =
              (w.executableOffset, trampOffs, w.sizeExecutableOffsetAlignment, off4) := by
            rw [fInput, fExec, fPad]
            exact h4
          have hrel : rel = off4 := writeCode_rel h4' hD
          rw [hrel]
          exact writeCodeDexFilesDbg_spec h5 h6 h7 h8 fOcs fCo fGc fMp fVm hpos4 sD

/-- Alignment facts of a successful construction: the executable-region
start is page-aligned and every module's raw-data offset is 4-aligned. -/
theorem mkWriter_alignment {input : OatInput} {w : Writer}
    (hmk : mkWriter input = some w) :
    w.executableOffset % kPageSize = 0 ∧
    ∀ odf ∈ w.oatDexFiles, odf.dexFileOffset % 4 = 0 := by
  obtain ⟨hcond, odfs1, off1, odfs2, off2, ocs0, odfs3, csum1, off3, execOff,
    trampOffs, execPad, off4, ocs1, cst, ocs2, gst, ocs3, mst, ocs4, vst,
    h1, h2, h3, h4, h5, h6, h7, h8, hw⟩ := mkWriter_destruct hmk
  have fExec : w.executableOffset = execOff := by rw [hw]
  have fOdfs : w.oatDexFiles = odfs3 := by rw [hw]
  obtain ⟨la1, la2, la3⟩ := initOatDexFiles_spec input.dexFiles _ _ _ h1
  obtain ⟨lb1, lb2⟩ := initDexFiles_spec odfs1 input.dexFiles off1 odfs2 off2 h2 la2
  obtain ⟨lc1, lc2, lc3⟩ := initOatClasses_spec h3
  constructor
  · rw [fExec]
    unfold initOatCode at h4
    simp only [] at h4
    by_cases himg : input.isImage = true
    · rw [if_pos himg] at h4
      cases hlay : layoutTrampolines input.isa input.trampolines
          (roundUp off3 kPageSize) with
      | mk tos offL =>
        rw [hlay] at h4
        simp only [Prod.mk.injEq] at h4
        rw [← h4.1]
        exact roundUp_mod off3 kPageSize
    · rw [if_neg himg] at h4
      simp only [Prod.mk.injEq] at h4
      rw [← h4.1]
      exact roundUp_mod off3 kPageSize
  · rw [fOdfs]
    have hm2 : ∀ a ∈ odfs2, a.dexFileOffset % 4 = 0 :=
      forall₂_left_transfer lb2 (fun _ _ => trivial) (fun a b hr _ => hr.2.2.2.2)
    exact forall₂_left_transfer lc3 hm2 (fun a b hr hb => hr.2.2.2.2.1 ▸ hb)

/-- The side-table characterization of a successful construction: every
per-method record offset of each kind is 0 for an empty blob and its
kind's deduplication-table entry otherwise, and each kind's table
satisfies the dedup invariant at the final size. -/
theorem mkWriter_tables {input : OatInput} {w : Writer}
    (hmk : mkWriter input = some w) :
    List.Forall₂ (mapRecordChar GcMapBinder w.gcMapOffsets)
      (compiledSlots w.oatClasses) (allRecords w.oatClasses) ∧
    List.Forall₂ (mapRecordChar MappingTableBinder w.mappingTableOffsets)
      (compiledSlots w.oatClasses) (allRecords w.oatClasses) ∧
    List.Forall₂ (mapRecordChar VmapTableBinder w.vmapTableOffsets)
      (compiledSlots w.oatClasses) (allRecords w.oatClasses) ∧
    dedupInv w.gcMapOffsets w.size ∧
    dedupInv w.mappingTableOffsets w.size ∧
    dedupInv w.vmapTableOffsets w.size := by
  obtain ⟨hcond, odfs1, off1, odfs2, off2, ocs0, odfs3, csum1, off3, execOff,
    trampOffs, execPad, off4, ocs1, cst, ocs2, gst, ocs3, mst, ocs4, vst,
    h1, h2, h3, h4, h5, h6, h7, h8, hw⟩ := mkWriter_destruct hmk
  have fOcs : w.oatClasses = ocs4 := by rw [hw]
  have fGc : w.gcMapOffsets = gst.dedupe := by rw [hw]
  have fMp : w.mappingTableOffsets = mst.dedupe := by rw [hw]
  have fVm : w.vmapTableOffsets = vst.dedupe := by rw [hw]
  have fSz : w.size = vst.offset := by rw [hw]
  obtain ⟨ne0, -, -, -, -, -, -, hF7, -⟩ :=
    codeInitClasses_spec ocs0 ⟨off4, [], []⟩ ocs1 cst h5
      (by simp [codeDedupInv]) (by simp)
  have hz_all : ∀ oc ∈ ocs1, ∀ r ∈ oc.methodOffsets,
      r.mappingTableOffset = 0 ∧ r.vmapTableOffset = 0 ∧ r.gcMapOffset = 0 :=
    forall₂_right hF7 (fun a b hr => hr.2.2.2.2.2.2.2.2)
  obtain ⟨neG, -, -, -, hle6, invG, hGc, charG⟩ :=
    mapInitClasses_spec GcMapBinder (fun r o => rfl) ocs1 _ _ _ h6
      (by simp [dedupInv])
  obtain ⟨neM, -, -, -, hle7, invM, hMp, charM⟩ :=
    mapInitClasses_spec MappingTableBinder (fun r o => rfl) ocs2 _ _ _ h7
      (by simp [dedupInv])
  obtain ⟨neV, -, -, -, hle8, invV, hVm, charV⟩ :=
    mapInitClasses_spec VmapTableBinder (fun r o => rfl) ocs3 _ _ _ h8
      (by simp [dedupInv])
  have hle6' : cst.offset ≤ gst.offset := by simpa using hle6
  have hle7' : gst.offset ≤ mst.offset := by simpa using hle7
  have hle8' : mst.offset ≤ vst.offset := by simpa using hle8
  have cs2 : compiledSlots ocs2 = compiledSlots ocs1 := classRecsUpdated_compiledSlots hGc
  have cs3 : compiledSlots ocs3 = compiledSlots ocs2 := classRecsUpdated_compiledSlots hMp
  have cs4 : compiledSlots ocs4 = compiledSlots ocs3 := classRecsUpdated_compiledSlots hVm
  have hzGc : ∀ oc ∈ ocs1, ∀ r ∈ oc.methodOffsets, GcMapBinder.getOffset r = 0 :=
    fun oc h r hr => (hz_all oc h r hr).2.2
  have hzMp : ∀ oc ∈ ocs2, ∀ r ∈ oc.methodOffsets,
      MappingTableBinder.getOffset r = 0 :=
    classRecsUpdated_zeroField (fun r o => rfl) hGc
      (fun oc h r hr => (hz_all oc h r hr).1)
  have hzVm : ∀ oc ∈ ocs3, ∀ r ∈ oc.methodOffsets,
      VmapTableBinder.getOffset r = 0 :=
    classRecsUpdated_zeroField (fun r o => rfl) hMp
      (classRecsUpdated_zeroField (fun r o => rfl) hGc
        (fun oc h r hr => (hz_all oc h r hr).2.1))
  have chG := charG hzGc
  have chM := charM hzMp
  have chV := charV hzVm
  -- transport the GC characterization to the final classes
  have recG : (allRecords ocs4).map GcMapBinder.getOffset =
      (allRecords ocs2).map GcMapBinder.getOffset := by
    rw [classRecsUpdated_allRecords (fun r o => rfl) hVm,
      classRecsUpdated_allRecords (fun r o => rfl) hMp]
  have recM : (allRecords ocs4).map MappingTableBinder.getOffset =
      (allRecords ocs3).map MappingTableBinder.getOffset :=
    classRecsUpdated_allRecords (fun r o => rfl) hVm
  have chG4 : List.Forall₂ (mapRecordChar GcMapBinder gst.dedupe)
      (compiledSlots ocs4) (allRecords ocs4) := by
    have hs : compiledSlots ocs4 = compiledSlots ocs1 := by rw [cs4, cs3, cs2]
    rw [hs]
    exact @forall₂_record_transport
      (fun c o => (GcMapBinder.getMap c = [] ∧ o = 0) ∨
        (GcMapBinder.getMap c ≠ [] ∧
          List.lookup (GcMapBinder.getMap c) gst.dedupe = some o))
      (compiledSlots ocs1) (allRecords ocs2) (allRecords ocs4)
      GcMapBinder.getOffset chG recG
  have chM4 : List.Forall₂ (mapRecordChar MappingTableBinder mst.dedupe)
      (compiledSlots ocs4) (allRecords ocs4) := by
    have hs : compiledSlots ocs4 = compiledSlots ocs2 := by rw [cs4, cs3]
    rw [hs]
    exact @forall₂_record_transport
      (fun c o => (MappingTableBinder.getMap c = [] ∧ o = 0) ∨
        (MappingTableBinder.getMap c ≠ [] ∧
          List.lookup (MappingTableBinder.getMap c) mst.dedupe = some o))
      (compiledSlots ocs2) (allRecords ocs3) (allRecords ocs4)
      MappingTableBinder.getOffset chM recM
  have chV4 : List.Forall₂ (mapRecordChar VmapTableBinder vst.dedupe)
      (compiledSlots ocs4) (allRecords ocs4) := by
    have hs : compiledSlots ocs4 = compiledSlots ocs3 := cs4
    rw [hs]
    exact chV
  refine ⟨?_, ?_, ?_, ?_, ?_, ?_⟩
  · rw [fOcs, fGc]
    exact chG4
  · rw [fOcs, fMp]
    exact chM4
  · rw [fOcs, fVm]
    exact chV4
  · rw [fGc, fSz]
    exact dedupInv_mono invG (by omega)
  · rw [fMp, fSz]
    exact dedupInv_mono invM (by omega)
  · rw [fVm, fSz]
    exact dedupInv_mono invV (by omega)

/-! ## Traversal lemmas -/

theorem runEvents_record (es : List VisitEvent) :
    ∀ acc : List (Nat × Nat),
    runEvents (fun e acc =>
      match e with
      | VisitEvent.processMethod i m => some (acc ++ [(i, m)])
      | _ => some acc) es acc =
    (es, some (acc ++ es.filterMap fun e =>
      match e with
      | VisitEvent.processMethod i m => some (i, m)
      | _ => none)) := by
  induction es with
  | nil => intro acc; simp [runEvents]
  | cons e rest ih =>
    intro acc
    cases e <;> simp [runEvents, ih, List.filterMap_cons]

theorem filterMap_flatMap {α β γ : Type} (l : List α) (g : α → List β)
    (f : β → Option γ) :
    (l.flatMap g).filterMap f = l.flatMap fun a => (g a).filterMap f := by
  induction l with
  | nil => rfl
  | cons x xs ih => simp [List.flatMap_cons, List.filterMap_append, ih]

theorem enumFrom_flatMap_snd {α β : Type} (g : α → List β) :
    ∀ (l : List α) (n : Nat),
    (l.enumFrom n).flatMap (fun p => g p.2) = l.flatMap g := by
  intro l
  induction l with
  | nil => intro n; rfl
  | cons x xs ih => intro n; simp [List.enumFrom, List.flatMap_cons, ih]

theorem classEvents_visits (di ci : Nat) (cd : ClassDef) :
    (classEvents di ci cd).filterMap (fun e =>
      match e with
      | VisitEvent.processMethod i m => some (i, m)
      | _ => none) = (classVisitedMethods cd).enum := by
  simp only [classEvents, List.filterMap_cons, List.filterMap_append,
    List.filterMap_map]
  have h1 : ((classVisitedMethods cd).enum.filterMap fun p =>
      (fun e => match e with
        | VisitEvent.processMethod i m => some (i, m)
        | _ => none) (VisitEvent.processMethod p.1 p.2)) =
      (classVisitedMethods cd).enum := by
    have : ∀ l : List (Nat × Nat),
        (l.filterMap fun p => some (p.1, p.2)) = l := by
      intro l
      induction l with
      | nil => rfl
      | cons p rest ih => simp [List.filterMap_cons, ih]
    exact this _
  rw [show ((fun e => match e with
      | VisitEvent.processMethod i m => some (i, m)
      | _ => none) ∘ fun p => VisitEvent.processMethod p.1 p.2) =
      (fun p : Nat × Nat => some (p.1, p.2)) from rfl] at *
  simp only [List.filterMap_cons] at *
  rw [h1]
  simp

theorem collectedMethodVisits_eq (dexFiles : List DexFile) :
    collectedMethodVisits dexFiles =
      dexFiles.flatMap fun df => df.classDefs.flatMap fun cd =>
        (classVisitedMethods cd).enum := by
  unfold collectedMethodVisits processDexMethods
  rw [runEvents_record]
  simp only [Option.getD_some, List.nil_append]
  unfold traversalEvents
  rw [filterMap_flatMap]
  unfold List.enum
  rw [show (fun (p : Nat × DexFile) =>
      (dexFileEvents p.1 p.2).filterMap fun e =>
        match e with
        | VisitEvent.processMethod i m => some (i, m)
        | _ => none) =
      (fun p : Nat × DexFile => p.2.classDefs.flatMap fun cd =>
        (classVisitedMethods cd).enum) from ?_]
  · exact enumFrom_flatMap_snd
      (fun df => df.classDefs.flatMap fun cd => (classVisitedMethods cd).enum)
      dexFiles 0
  · funext p
    unfold dexFileEvents
    rw [filterMap_flatMap]
    unfold List.enum
    rw [show (fun (q : Nat × ClassDef) =>
        (classEvents p.1 q.1 q.2).filterMap fun e =>
          match e with
          | VisitEvent.processMethod i m => some (i, m)
          | _ => none) =
        (fun q : Nat × ClassDef => (classVisitedMethods q.2).enum) from ?_]
    · exact enumFrom_flatMap_snd
        (fun cd => (classVisitedMethods cd).enum) p.2.classDefs 0
    · funext q
      exact classEvents_visits p.1 q.1 q.2

theorem skipConsecutiveDup_sublist :
    ∀ (l : List Nat) (prev : Option Nat),
    List.Sublist (skipConsecutiveDup prev l) l := by
  intro l
  induction l with
  | nil => intro prev; simp [skipConsecutiveDup]
  | cons x xs ih =>
    intro prev
    simp only [skipConsecutiveDup]
    by_cases hp : prev = some x
    · rw [if_pos hp]
      exact (ih prev).trans (List.sublist_cons_self x xs)
    · rw [if_neg hp]
      exact List.Sublist.cons₂ x (ih (some x))

theorem skipConsecutiveDup_mem :
    ∀ (l : List Nat) (prev : Option Nat) (m : Nat), prev ≠ some m →
    (m ∈ skipConsecutiveDup prev l ↔ m ∈ l) := by
  intro l
  induction l with
  | nil => intro prev m hprev; simp [skipConsecutiveDup]
  | cons x xs ih =>
    intro prev m hprev
    simp only [skipConsecutiveDup]
    constructor
    · intro hmem
      by_cases hp : prev = some x
      · rw [if_pos hp] at hmem
        exact List.mem_cons_of_mem _ ((ih prev m hprev).mp hmem)
      · rw [if_neg hp] at hmem
        rcases List.mem_cons.mp hmem with rfl | hmem
        · exact List.mem_cons_self _ _
        · by_cases hxm : x = m
          · subst hxm
            exact List.mem_cons_self _ _
          · exact List.mem_cons_of_mem _
              ((ih (some x) m (by simpa using hxm)).mp hmem)
    · intro hmem
      by_cases hp : prev = some x
      · rw [if_pos hp]
        rcases List.mem_cons.mp hmem with rfl | hmem
        · exact absurd hp hprev
        · exact (ih prev m hprev).mpr hmem
      · rw [if_neg hp]
        rcases List.mem_cons.mp hmem with rfl | hmem
        · exact List.mem_cons_self _ _
        · by_cases hxm : x = m
          · subst hxm
            exact List.mem_cons_self _ _
          · exact List.mem_cons_of_mem _
              ((ih (some x) m (by simpa using hxm)).mpr hmem)

/-- Delivering a concatenation of event lists: if the first part fails the
second is never delivered; otherwise delivery continues from the reached
state. -/
theorem runEvents_append {σ : Type} (step : VisitEvent → σ → Option σ) :
    ∀ (es1 es2 : List VisitEvent) (s : σ),
    runEvents step (es1 ++ es2) s =
      match runEvents step es1 s with
      | (t1, none) => (t1, none)
      | (t1, some s1) =>
        ((t1 ++ (runEvents step es2 s1).1), (runEvents step es2 s1).2) := by
  intro es1
  induction es1 with
  | nil =>
    intro es2 s
    simp [runEvents]
  | cons e rest ih =>
    intro es2 s
    simp only [List.cons_append, runEvents]
    cases hstep : step e s with
    | none => rfl
    | some s' =>
      simp only [List.append_eq]
      rw [ih es2 s']
      cases hr : runEvents step rest s' with
      | mk t1 r =>
        cases r <;> simp

/-- With zero input modules (non-image build, hence a nonempty image file
location), construction succeeds, `size_` is the page-aligned header
span, and a non-failing write emits exactly the header and the inline
location string. -/
theorem zeroModules_spec {input : OatInput} (hdex : input.dexFiles = [])
    (himg : input.isImage = false) (hloc : input.imageFileLocation ≠ []) :
    ∃ w, mkWriter input = some w ∧
      w.size = roundUp (sizeofOatHeader + input.imageFileLocation.length) kPageSize ∧
      ∀ s : OutStream, s.budget = none →
        ∃ r, Writer.write w s = some r ∧
          r.1.chunks = s.chunks ++
            [(s.pos, Chunk.oatHeader),
             (s.pos + sizeofOatHeader, Chunk.imageFileLocation input.imageFileLocation)] ∧
          r.2 = w.size ∧ r.1.pos = s.pos + w.size := by
  have hisEmpty : input.imageFileLocation.isEmpty = input.isImage := by
    rw [himg]
    cases hl : input.imageFileLocation with
    | nil => exact absurd hl hloc
    | cons a l => rfl
  have e3 : initOatClasses input [] (initOatHeader input) =
      some ([], [], [], initOatHeader input) := by
    unfold initOatClasses
    rw [hdex]
    rfl
  have e4 : initOatCode input (initOatHeader input) =
      (roundUp (initOatHeader input) kPageSize,
       List.replicate input.trampolines.length 0,
       roundUp (initOatHeader input) kPageSize - initOatHeader input,
       roundUp (initOatHeader input) kPageSize) := by
    unfold initOatCode
    simp only [himg]
    rfl
  have hmk : mkWriter input = some
      { input := input
        executableOffset := roundUp (initOatHeader input) kPageSize
        trampolineOffsets := List.replicate input.trampolines.length 0
        sizeExecutableOffsetAlignment :=
          roundUp (initOatHeader input) kPageSize - initOatHeader input
        oatDexFiles := []
        oatClasses := []
        codeOffsets := []
        gcMapOffsets := []
        mappingTableOffsets := []
        vmapTableOffsets := []
        checksum := []
        size := roundUp (initOatHeader input) kPageSize } := by
    unfold mkWriter
    rw [if_pos hisEmpty, hdex]
    simp only [initOatDexFiles, initDexFiles]
    rw [e3]
    simp only [Option.bind_eq_bind, Option.some_bind]
    rw [e4]
    rfl
  refine ⟨_, hmk, rfl, ?_⟩
  intro s hbud
  have he : initOatHeader input = sizeofOatHeader + input.imageFileLocation.length := rfl
  have hro : initOatHeader input ≤ roundUp (initOatHeader input) kPageSize :=
    roundUp_ge _ (by decide)
  have h1 : s.writeFully Chunk.oatHeader = some
      ⟨s.pos + sizeofOatHeader, s.chunks ++ [(s.pos, Chunk.oatHeader)], none⟩ := by
    unfold OutStream.writeFully
    rw [hbud]
    rfl
  refine ⟨(⟨s.pos + sizeofOatHeader + input.imageFileLocation.length +
      (roundUp (initOatHeader input) kPageSize - initOatHeader input),
    s.chunks ++ [(s.pos, Chunk.oatHeader)] ++
      [(s.pos + sizeofOatHeader, Chunk.imageFileLocation input.imageFileLocation)],
    none⟩, roundUp (initOatHeader input) kPageSize), ?_, ?_, rfl, ?_⟩
  · unfold Writer.write
    simp only []
    rw [h1]
    simp only [Option.bind_eq_bind, Option.some_bind]
    rw [show (⟨s.pos + sizeofOatHeader, s.chunks ++ [(s.pos, Chunk.oatHeader)],
        none⟩ : OutStream).writeFully
        (Chunk.imageFileLocation input.imageFileLocation) = some
        ⟨s.pos + sizeofOatHeader + input.imageFileLocation.length,
         s.chunks ++ [(s.pos, Chunk.oatHeader)] ++
           [(s.pos + sizeofOatHeader, Chunk.imageFileLocation input.imageFileLocation)],
         none⟩ from rfl]
    simp only [Option.bind_eq_bind, Option.some_bind]
    rw [show writeTables
        { input := input
          executableOffset := roundUp (initOatHeader input) kPageSize
          trampolineOffsets := List.replicate input.trampolines.length 0
          sizeExecutableOffsetAlignment :=
            roundUp (initOatHeader input) kPageSize - initOatHeader input
          oatDexFiles := []
          oatClasses := []
          codeOffsets := []
          gcMapOffsets := []
          mappingTableOffsets := []
          vmapTableOffsets := []
          checksum := []
          size := roundUp (initOatHeader input) kPageSize } s.pos
        ⟨s.pos + sizeofOatHeader + input.imageFileLocation.length,
         s.chunks ++ [(s.pos, Chunk.oatHeader)] ++
           [(s.pos + sizeofOatHeader, Chunk.imageFileLocation input.imageFileLocation)],
         none⟩ = some
        ⟨s.pos + sizeofOatHeader + input.imageFileLocation.length,
         s.chunks ++ [(s.pos, Chunk.oatHeader)] ++
           [(s.pos + sizeofOatHeader, Chunk.imageFileLocation input.imageFileLocation)],
         none⟩ from rfl]
    simp only [Option.bind_eq_bind, Option.some_bind]
    unfold writeCode
    simp only [OutStream.seekCur]
    rw [if_neg (show ¬(s.pos + sizeofOatHeader + input.imageFileLocation.length +
        (roundUp (initOatHeader input) kPageSize - initOatHeader input) ≠
        s.pos + roundUp (initOatHeader input) kPageSize) by omega)]
    rw [if_neg (show ¬(input.isImage = true) by simp [himg])]
    rfl
  · simp
  · simp only []
    omega

/-! ## Claim theorems -/

/-- C1: the total size computed at the end of the layout pass (`size_`)
exactly equals the number of bytes the write phase emits: on every
successful `Write`, the stream's final position minus its starting
position is the pass-1 total, and the returned relative offset equals
that same total. -/
theorem C1_total_size_eq_bytes_written {input : OatInput} {w : Writer}
    {s : OutStream} {res : OutStream × Nat}
    (hmk : mkWriter input = some w) (hwr : Writer.write w s = some res) :
    res.1.pos - s.pos = w.size ∧ res.2 = w.size := by
  obtain ⟨h1, h2, -⟩ := write_spec hmk hwr
  exact ⟨by omega, h1⟩

theorem C1_witness :
    mkWriter i1 = some (writerOf i1) ∧
    Writer.write (writerOf i1) emptyStream = some (writeResultOf i1) ∧
    ((writeResultOf i1).1.pos - emptyStream.pos = (writerOf i1).size ∧
      (writeResultOf i1).2 = (writerOf i1).size) :=
  ⟨rfl, rfl,
    @C1_total_size_eq_bytes_written i1 (writerOf i1) emptyStream (writeResultOf i1)
      rfl rfl⟩

/-- C2 counterexample: the claimed write-pass invariant — each method's
recorded offset "either equals the current write cursor or is strictly
less than it" — is false for the code kind: on input `i1` the release
write succeeds, but the same write with the claim's wording checked in
the code write visitor aborts (the freshly laid-out method's recorded
code offset is the aligned cursor plus the method-header size, i.e.
strictly greater than the cursor). -/
theorem C2_counterexample :
    mkWriter i1 = some (writerOf i1) ∧
    (Writer.write (writerOf i1) emptyStream).isSome = true ∧
    writeSpecCk (writerOf i1) emptyStream = none ∧
    (writerOf i1).codeOffsets = [([1, 2, 3, 4], 4100)] ∧
    (4096, Chunk.methodHeader 4) ∈ (writeResultOf i1).1.chunks ∧
    ¬(4100 = 4096 ∨ 4100 < 4096) :=
  ⟨rfl, rfl, rfl, rfl, by decide, by decide⟩

/-- C2 (amended): pass 2 reproduces the pass-1 deduplication decisions
exactly, in the source's own formulation: the debug-build write — whose
visitors re-verify, per method, that the recorded side-table offset
equals the cursor (write now) or is strictly below it (skip), and that
the recorded code offset is strictly below the cursor (skip) or equals
the aligned cursor plus the method-header size plus the code delta
(write now) — computes exactly what the release write computes. -/
theorem C2_amended_dedup_reproduced {input : OatInput} {w : Writer}
    {s : OutStream} {res : OutStream × Nat}
    (hmk : mkWriter input = some w) (hwr : Writer.write w s = some res) :
    Writer.writeDbg w s = some res := by
  rw [writeDbg_eq hmk]
  exact hwr

theorem C2_amended_witness :
    mkWriter i1 = some (writerOf i1) ∧
    Writer.write (writerOf i1) emptyStream = some (writeResultOf i1) ∧
    Writer.writeDbg (writerOf i1) emptyStream = some (writeResultOf i1) :=
  ⟨rfl, rfl,
    @C2_amended_dedup_reproduced i1 (writerOf i1) emptyStream (writeResultOf i1)
      rfl rfl⟩

theorem count_true_map_isSome (cms : List (Option CompiledMethod)) :
    (cms.map Option.isSome).count true = cms.countP Option.isSome := by
  induction cms with
  | nil => rfl
  | cons x rest ih =>
    cases x <;> simp [List.count_cons, List.countP_cons, ih]

/-- C4: the compiled-state tag is a pure function of the method counts —
zero methods gives `kOatClassNoneCompiled`; all of `N > 0` methods
compiled gives `kOatClassAllCompiled`; a strict fraction gives
`kOatClassSomeCompiled` with a bitmap whose population count equals the
number of per-method records (= the non-null compiled methods); the other
two tags carry no bitmap. -/
theorem C4_class_type {offset : Nat} {cms : List (Option CompiledMethod)}
    {status : Nat} {oc : OatClass}
    (hmk : OatClass.make offset cms (cms.countP Option.isSome) status = some oc) :
    (cms.length = 0 → oc.type = OatClassType.kOatClassNoneCompiled) ∧
    (0 < cms.length → cms.countP Option.isSome = cms.length →
      oc.type = OatClassType.kOatClassAllCompiled) ∧
    (0 < cms.countP Option.isSome → cms.countP Option.isSome < cms.length →
      oc.type = OatClassType.kOatClassSomeCompiled ∧
      ∃ bm, oc.methodBitmap = some bm ∧
        bm.count true = oc.methodOffsets.length ∧
        oc.methodOffsets.length = cms.countP Option.isSome) ∧
    (oc.type ≠ OatClassType.kOatClassSomeCompiled → oc.methodBitmap = none) := by
  unfold OatClass.make at hmk
  have hle : cms.countP Option.isSome ≤ cms.length := List.countP_le_length _
  rw [if_pos hle] at hmk
  simp only [Option.some.injEq] at hmk
  have htypeEq : oc.type =
      (if cms.countP Option.isSome = 0 then OatClassType.kOatClassNoneCompiled
       else if cms.countP Option.isSome = cms.length then
         OatClassType.kOatClassAllCompiled
       else OatClassType.kOatClassSomeCompiled) := by
    rw [← hmk]
  have hbmEq : oc.methodBitmap =
      (if (if cms.countP Option.isSome = 0 then OatClassType.kOatClassNoneCompiled
          else if cms.countP Option.isSome = cms.length then
            OatClassType.kOatClassAllCompiled
          else OatClassType.kOatClassSomeCompiled) =
          OatClassType.kOatClassSomeCompiled then
        some (cms.map Option.isSome) else none) := by
    rw [← hmk]
  have hmoEq : oc.methodOffsets =
      List.replicate (cms.countP Option.isSome) OatMethodOffsets.zero := by
    rw [← hmk]
  by_cases h0 : cms.countP Option.isSome = 0
  · have t0 : oc.type = OatClassType.kOatClassNoneCompiled := by
      rw [htypeEq, if_pos h0]
    have bm0 : oc.methodBitmap = none := by
      rw [hbmEq, if_pos h0, if_neg (by decide :
        ¬(OatClassType.kOatClassNoneCompiled = OatClassType.kOatClassSomeCompiled))]
    exact ⟨fun _ => t0, fun hpos hall => by omega, fun hpos _ => by omega,
      fun _ => bm0⟩
  · by_cases hall : cms.countP Option.isSome = cms.length
    · have tA : oc.type = OatClassType.kOatClassAllCompiled := by
        rw [htypeEq, if_neg h0, if_pos hall]
      have bmA : oc.methodBitmap = none := by
        rw [hbmEq, if_neg h0, if_pos hall, if_neg (by decide :
          ¬(OatClassType.kOatClassAllCompiled = OatClassType.kOatClassSomeCompiled))]
      exact ⟨fun h => by exfalso; omega, fun _ _ => tA,
        fun _ hlt => by exfalso; omega, fun _ => bmA⟩
    · have tS : oc.type = OatClassType.kOatClassSomeCompiled := by
        rw [htypeEq, if_neg h0, if_neg hall]
      have bmS : oc.methodBitmap = some (cms.map Option.isSome) := by
        rw [hbmEq, if_neg h0, if_neg hall, if_pos rfl]
      have mo : oc.methodOffsets.length = cms.countP Option.isSome := by
        rw [hmoEq]
        simp
      refine ⟨fun h => by exfalso; omega, fun _ he => absurd he hall,
        fun _ _ => ⟨tS, cms.map Option.isSome, bmS, ?_, mo⟩, fun hne => absurd tS hne⟩
      rw [count_true_map_isSome]
      exact mo.symm

theorem C4_witness :
    OatClass.make 0 [some cm1, none]
      (([some cm1, none] : List (Option CompiledMethod)).countP Option.isSome) 5 =
      some ((OatClass.make 0 [some cm1, none] 1 5).getD default) ∧
    ((OatClass.make 0 [some cm1, none] 1 5).getD default).type =
      OatClassType.kOatClassSomeCompiled := by
  refine ⟨rfl, ?_⟩
  have h := (@C4_class_type 0 [some cm1, none] 5
    ((OatClass.make 0 [some cm1, none] 1 5).getD default) rfl).2.2.1
  exact (h (by decide) (by decide)).1

/-- C10: a compiled method carrying portable code has no quick code (the
layout visitor aborts if both are present); the layout visitor records a
code offset of 0 for it and leaves the running offset unchanged, and the
write visitor emits nothing for it. -/
theorem C10_portable_code {c : CompiledMethod} {pb : Blob}
    (hport : c.portableCode = some pb) :
    (∀ q, c.quickCode = some q → ∀ st, codeInitSlot c st = none) ∧
    (c.quickCode = none → ∀ st : CodeSt, ∃ r, codeInitSlot c st = some (r, st) ∧
      r.codeOffset = 0) ∧
    (c.quickCode = none → ∀ (r : OatMethodOffsets) (st : WSt),
      codeWriteSlot c r st = some st) := by
  refine ⟨?_, ?_, ?_⟩
  · intro q hq st
    unfold codeInitSlot
    rw [hport, hq]
  · intro hq st
    unfold codeInitSlot
    rw [hport, hq]
    exact ⟨_, rfl, rfl⟩
  · intro hq r st
    unfold codeWriteSlot
    rw [hq]

theorem C10_witness :
    cmPort.portableCode = some [1] ∧
    cmPort.quickCode = none ∧
    (∃ r, codeInitSlot cmPort ⟨4096, [], []⟩ = some (r, ⟨4096, [], []⟩) ∧
      r.codeOffset = 0) :=
  ⟨rfl, rfl, (@C10_portable_code cmPort [1] rfl).2.1 rfl ⟨4096, [], []⟩⟩

/-- C3: deduplication is by exact byte content within each side-table
kind: byte-identical blobs of one kind get equal recorded offsets,
distinct nonempty blobs get distinct offsets, every nonempty blob's bytes
land in that kind's table, whose keys are distinct and appear exactly
once — in layout order — among the output stream's chunks of that kind
(the kind tag separates the three tables, so blobs are never deduplicated
across kinds). -/
theorem C3_dedup_by_content {input : OatInput} {w : Writer} {B : MapBinder}
    {d : List (Blob × Nat)}
    (hmk : mkWriter input = some w)
    (hBd : (B, d) = (GcMapBinder, w.gcMapOffsets) ∨
           (B, d) = (MappingTableBinder, w.mappingTableOffsets) ∨
           (B, d) = (VmapTableBinder, w.vmapTableOffsets)) :
    (∀ p ∈ (compiledSlots w.oatClasses).zip (allRecords w.oatClasses),
     ∀ p' ∈ (compiledSlots w.oatClasses).zip (allRecords w.oatClasses),
      (B.getMap (Prod.fst p) ≠ [] → B.getMap (Prod.fst p) = B.getMap (Prod.fst p') →
        B.getOffset (Prod.snd p) = B.getOffset (Prod.snd p')) ∧
      (B.getMap (Prod.fst p) ≠ [] → B.getMap (Prod.fst p') ≠ [] →
        B.getMap (Prod.fst p) ≠ B.getMap (Prod.fst p') →
        B.getOffset (Prod.snd p) ≠ B.getOffset (Prod.snd p'))) ∧
    (∀ p ∈ (compiledSlots w.oatClasses).zip (allRecords w.oatClasses),
      B.getMap (Prod.fst p) ≠ [] → B.getMap (Prod.fst p) ∈ d.map Prod.fst) ∧
    (d.map Prod.fst).Nodup ∧
    (∀ (s : OutStream) (res : OutStream × Nat), Writer.write w s = some res →
      ∃ L, res.1.chunks = s.chunks ++ L ∧
        chunkBlobsOfKind B.kind L = (d.map Prod.fst).reverse) := by
  obtain ⟨chG, chM, chV, invG, invM, invV⟩ := mkWriter_tables hmk
  have hchar : List.Forall₂ (mapRecordChar B d)
      (compiledSlots w.oatClasses) (allRecords w.oatClasses) := by
    rcases hBd with h | h | h <;>
      (simp only [Prod.mk.injEq] at h; obtain ⟨rfl, rfl⟩ := h)
    · exact chG
    · exact chM
    · exact chV
  have hinv : dedupInv d w.size := by
    rcases hBd with h | h | h <;>
      (simp only [Prod.mk.injEq] at h; obtain ⟨rfl, rfl⟩ := h)
    · exact invG
    · exact invM
    · exact invV
  have hz : ∀ p ∈ (compiledSlots w.oatClasses).zip (allRecords w.oatClasses),
      mapRecordChar B d (Prod.fst p) (Prod.snd p) := by
    intro p hp
    exact List.forall₂_zip hchar (by simpa using hp)
  have hlk : ∀ p ∈ (compiledSlots w.oatClasses).zip (allRecords w.oatClasses),
      B.getMap (Prod.fst p) ≠ [] →
      List.lookup (B.getMap (Prod.fst p)) d = some (B.getOffset (Prod.snd p)) := by
    intro p hp hne
    rcases hz p hp with ⟨hnil, -⟩ | ⟨-, hl⟩
    · exact absurd hnil hne
    · exact hl
  refine ⟨?_, ?_, hinv.2.2, ?_⟩
  · intro p hp p' hp'
    constructor
    · intro hne heq
      have h1 := hlk p hp hne
      have h2 := hlk p' hp' (heq ▸ hne)
      rw [heq] at h1
      rw [h1] at h2
      exact (Option.some.injEq _ _).mp h2
    · intro hne hne' hdiff
      exact dedup_lookup_ne hinv (hlk p hp hne) (hlk p' hp' hne') hdiff
  · intro p hp hne
    exact List.mem_map_of_mem Prod.fst (lookup_mem (hlk p hp hne))
  · intro s res hwr
    obtain ⟨-, -, L, hc, -, kG, kM, kV, -⟩ := write_spec hmk hwr
    refine ⟨L, hc, ?_⟩
    rcases hBd with h | h | h <;>
      (simp only [Prod.mk.injEq] at h; obtain ⟨rfl, rfl⟩ := h)
    · exact kG
    · exact kM
    · exact kV

theorem C3_witness :
    mkWriter i1 = some (writerOf i1) ∧
    (GcMapBinder, (writerOf i1).gcMapOffsets) =
      (GcMapBinder, (writerOf i1).gcMapOffsets) ∧
    (((writerOf i1).gcMapOffsets.map Prod.fst).Nodup ∧
      (writerOf i1).gcMapOffsets.map Prod.fst = [[9]]) :=
  ⟨rfl, rfl,
    (@C3_dedup_by_content i1 (writerOf i1) GcMapBinder (writerOf i1).gcMapOffsets
      rfl (Or.inl rfl)).2.2.1, by decide⟩

/-- C5 counterexample: the method-table traversal does NOT skip
duplicate member-index entries.  On a module whose class encodes index 7
twice, the second occurrence is passed to `ProcessMethod` just like the
first — `collectedMethodVisits` delivers both — whereas the
specification's claimed first-occurrence skipping (`keepFirst`) would
have dropped it.  The repository's actual skip lives in the compile
stage (`CompilerDriver::CompileClass`) and is consecutive-only: it drops
the adjacent repeat but keeps a later non-adjacent one. -/
theorem C5_counterexample :
    collectedMethodVisits [dfDup] = [(0, 7), (1, 7)] ∧
    (1, 7) ∈ collectedMethodVisits [dfDup] ∧
    keepFirst [7, 7] = [7] ∧
    collectedMethodVisits [dfDup] ≠ (keepFirst [7, 7]).enum ∧
    skipConsecutiveDup none [7, 7] = [7] ∧
    skipConsecutiveDup none [7, 8, 7] = [7, 8, 7] := by
  have h2 : keepFirst [7, 7] = [7] := by
    rw [keepFirst]
    rw [show List.filter (fun y => decide (y ≠ 7)) [7] = [] from rfl]
    rw [keepFirst]
  refine ⟨by decide, by decide, h2, ?_, by decide, by decide⟩
  rw [h2]
  decide

/-- C5 (amended): the method-table traversal visits, for every module in
order and every class in declaration order, all directly-dispatched
methods and then all virtually-dispatched methods exactly as encoded,
duplicate member indices included — every encoded entry is passed to
`ProcessMethod`, so the per-class visit count is the full encoded method
count.  The duplicate skipping the repository does have sits in the
compile stage: `CompilerDriver::CompileClass` skips an entry whose
member index equals the immediately preceding entry's index, separately
per section — a subsequence of the encoded order that still covers every
encoded member index at least once. -/
theorem C5_amended_traversal (dexFiles : List DexFile) :
    collectedMethodVisits dexFiles =
      (dexFiles.flatMap fun df => df.classDefs.flatMap fun cd =>
        (classVisitedMethods cd).enum) ∧
    (∀ (cd : ClassDef) (d : ClassData), cd.classData = some d →
      classVisitedMethods cd = d.directMethods ++ d.virtualMethods ∧
      (classVisitedMethods cd).length =
        d.directMethods.length + d.virtualMethods.length) ∧
    (∀ d : ClassData,
      List.Sublist (compiledClassMethods d) (d.directMethods ++ d.virtualMethods) ∧
      ∀ m, m ∈ compiledClassMethods d ↔ m ∈ d.directMethods ++ d.virtualMethods) := by
  refine ⟨collectedMethodVisits_eq dexFiles, ?_, ?_⟩
  · intro cd d hd
    have hv : classVisitedMethods cd = d.directMethods ++ d.virtualMethods := by
      simp [classVisitedMethods, hd]
    exact ⟨hv, by rw [hv]; simp⟩
  · intro d
    refine ⟨?_, ?_⟩
    · exact List.Sublist.append (skipConsecutiveDup_sublist _ _)
        (skipConsecutiveDup_sublist _ _)
    · intro m
      unfold compiledClassMethods
      simp only [List.mem_append]
      rw [skipConsecutiveDup_mem d.directMethods none m (by simp),
        skipConsecutiveDup_mem d.virtualMethods none m (by simp)]

theorem C5_amended_witness :
    collectedMethodVisits [dfDup] =
      ([dfDup].flatMap fun df => df.classDefs.flatMap fun cd =>
        (classVisitedMethods cd).enum) ∧
    collectedMethodVisits [dfDup] = [(0, 7), (1, 7)] :=
  ⟨(C5_amended_traversal [dfDup]).1, by decide⟩

/-- C6 counterexample: on input `i1` (x86, 16-byte mandated code
alignment) the write succeeds and the code body lands at offset 4100,
which is not 16-byte aligned — the aligned boundary holds the method
header and the body follows it — refuting "every emitted code body's
start offset satisfies the architecture's mandated code alignment". -/
theorem C6_counterexample :
    mkWriter i1 = some (writerOf i1) ∧
    i1.isa = InstructionSet.kX86 ∧
    instructionSetAlignment InstructionSet.kX86 = 16 ∧
    Writer.write (writerOf i1) emptyStream = some (writeResultOf i1) ∧
    (4096, Chunk.methodHeader 4) ∈ (writeResultOf i1).1.chunks ∧
    (4100, Chunk.code [1, 2, 3, 4]) ∈ (writeResultOf i1).1.chunks ∧
    ¬(4100 % 16 = 0) :=
  ⟨rfl, rfl, rfl, rfl, by decide, by decide, by decide⟩

/-- C6 (amended): the executable-region start recorded in the header is
page-aligned; every module's raw-byte offset is 4-aligned; all written
alignment padding bytes are zero; and for every method whose code is laid
out at the cursor, the write visitor emits the fixed-size method header
at the architecture-aligned boundary and the code body immediately after
it. -/
theorem C6_amended_alignment {input : OatInput} {w : Writer}
    (hmk : mkWriter input = some w) :
    w.executableOffset % kPageSize = 0 ∧
    (∀ odf ∈ w.oatDexFiles, odf.dexFileOffset % 4 = 0) ∧
    (∀ (s : OutStream) (res : OutStream × Nat), Writer.write w s = some res →
      ∃ L, res.1.chunks = s.chunks ++ L ∧
        ∀ pc ∈ L, ∀ b, Prod.snd pc = Chunk.padding b →
          b = List.replicate b.length 0) ∧
    (∀ (c : CompiledMethod) (q : Blob) (r : OatMethodOffsets) (st st' : WSt)
        (fo : Nat),
      c.quickCode = some q → c.portableCode = none → q.length ≠ 0 →
      st.stream.pos = fo + st.offset →
      alignCode st.offset c.isa ≤ r.codeOffset →
      codeWriteSlot c r st = some st' →
      ∃ pad : List (Nat × Chunk),
        st'.stream.chunks = st.stream.chunks ++ pad ++
          [(fo + alignCode st.offset c.isa, Chunk.methodHeader q.length),
           (fo + alignCode st.offset c.isa + sizeofOatMethodHeader, Chunk.code q)] ∧
        (alignCode st.offset c.isa) % instructionSetAlignment c.isa = 0 ∧
        ∀ pc ∈ pad, Prod.snd pc =
          Chunk.padding (List.replicate (alignCode st.offset c.isa - st.offset) 0)) := by
  obtain ⟨ha1, ha2⟩ := mkWriter_alignment hmk
  refine ⟨ha1, ha2, ?_, ?_⟩
  · intro s res hwr
    obtain ⟨-, -, L, hc, -, -, -, -, hz⟩ := write_spec hmk hwr
    exact ⟨L, hc, hz⟩
  · intro c q r st st' fo hq hport hq0 hpos hge h
    unfold codeWriteSlot at h
    rw [hq, hport] at h
    simp only [] at h
    by_cases hdelta : alignCode st.offset c.isa - st.offset ≠ 0
    · rw [if_pos hdelta] at h
      cases hwf : st.stream.writeFully
          (Chunk.padding (List.replicate (alignCode st.offset c.isa - st.offset) 0)) with
      | none => rw [hwf] at h; simp at h
      | some s1 =>
        rw [hwf] at h
        simp only [Option.map_some', Option.bind_eq_bind, Option.some_bind] at h
        rw [if_neg (by simpa using hq0)] at h
        have hoff1 : st.offset + (alignCode st.offset c.isa - st.offset) =
            alignCode st.offset c.isa := by
          have := le_alignCode st.offset c.isa
          omega
        rw [if_pos (by simp only [hoff1]; exact hge)] at h
        cases hw1 : s1.writeFully (Chunk.methodHeader q.length) with
        | none => rw [hw1] at h; simp at h
        | some s2 =>
          rw [hw1] at h
          simp only [Option.bind_eq_bind, Option.some_bind] at h
          cases hw2 : s2.writeFully (Chunk.code q) with
          | none => rw [hw2] at h; simp at h
          | some s3 =>
            rw [hw2] at h
            simp only [Option.bind_eq_bind, Option.some_bind, pure,
              Option.some.injEq] at h
            obtain ⟨hp0, hc0⟩ := writeFully_spec hwf
            obtain ⟨hp1, hc1⟩ := writeFully_spec hw1
            obtain ⟨hp2, hc2⟩ := writeFully_spec hw2
            refine ⟨[(st.stream.pos,
              Chunk.padding (List.replicate (alignCode st.offset c.isa - st.offset) 0))],
              ?_, alignCode_mod st.offset c.isa, by simp⟩
            rw [← h]
            simp only []
            rw [hc2, hc1, hc0]
            simp only [Chunk.size] at hp0 hp1
            have hs1 : s1.pos = fo + alignCode st.offset c.isa := by
              rw [hp0, hpos]
              simp only [List.length_replicate]
              omega
            have hs2 : s2.pos = fo + alignCode st.offset c.isa + sizeofOatMethodHeader := by
              rw [hp1, hs1]
            rw [hs1, hs2]
            simp
    · rw [if_neg hdelta] at h
      simp only [Option.bind_eq_bind, Option.some_bind] at h
      have halign : alignCode st.offset c.isa = st.offset := by
        have := le_alignCode st.offset c.isa
        omega
      rw [if_neg (by simpa using hq0)] at h
      rw [if_pos (show r.codeOffset ≥ st.offset by omega)] at h
      cases hw1 : st.stream.writeFully (Chunk.methodHeader q.length) with
      | none => rw [hw1] at h; simp at h
      | some s2 =>
        rw [hw1] at h
        simp only [Option.bind_eq_bind, Option.some_bind] at h
        cases hw2 : s2.writeFully (Chunk.code q) with
        | none => rw [hw2] at h; simp at h
        | some s3 =>
          rw [hw2] at h
          simp only [Option.bind_eq_bind, Option.some_bind, pure,
            Option.some.injEq] at h
          obtain ⟨hp1, hc1⟩ := writeFully_spec hw1
          obtain ⟨hp2, hc2⟩ := writeFully_spec hw2
          refine ⟨[], ?_, alignCode_mod st.offset c.isa, by simp⟩
          rw [← h]
          simp only []
          rw [hc2, hc1]
          simp only [Chunk.size] at hp1
          have hs1 : st.stream.pos = fo + alignCode st.offset c.isa := by
            rw [halign]
            exact hpos
          have hs2 : s2.pos = fo + alignCode st.offset c.isa + sizeofOatMethodHeader := by
            rw [hp1, hs1]
          rw [hs1, hs2]
          simp

theorem C6_amended_witness :
    mkWriter i1 = some (writerOf i1) ∧
    (writerOf i1).executableOffset % kPageSize = 0 ∧
    (∀ odf ∈ (writerOf i1).oatDexFiles, odf.dexFileOffset % 4 = 0) :=
  ⟨rfl, (C6_amended_alignment (show mkWriter i1 = some (writerOf i1) from rfl)).1,
    (C6_amended_alignment (show mkWriter i1 = some (writerOf i1) from rfl)).2.1⟩

/-- C7 counterexample: with zero modules the write succeeds and emits
only the header and its inline location string, but `size_` — and the
bytes spanned — is the PAGE-ALIGNED header span (the executable-region
alignment of `InitOatCode`), not the header size itself: on `i0` the
header plus location is 81 bytes while `size_` is 4096. -/
theorem C7_counterexample :
    i0.dexFiles = [] ∧
    mkWriter i0 = some (writerOf i0) ∧
    (writerOf i0).size = 4096 ∧
    sizeofOatHeader + i0.imageFileLocation.length = 81 ∧
    (writerOf i0).size ≠ sizeofOatHeader + i0.imageFileLocation.length ∧
    Writer.write (writerOf i0) emptyStream = some (writeResultOf i0) ∧
    (writeResultOf i0).2 = 4096 :=
  ⟨rfl, rfl, rfl, rfl, by decide, rfl, rfl⟩

/-- C7 (amended): with zero input modules (a non-image build, whose image
file location is then nonempty), construction succeeds, the total size is
the header plus inline location rounded up to the page size, and a
non-failing write emits exactly the header and the location string and
returns that total. -/
theorem C7_amended_zero_modules {input : OatInput}
    (hdex : input.dexFiles = [])
    (himg : input.isImage = false)
    (hloc : input.imageFileLocation ≠ []) :
    ∃ w, mkWriter input = some w ∧
      w.size = roundUp (sizeofOatHeader + input.imageFileLocation.length) kPageSize ∧
      ∀ s : OutStream, s.budget = none →
        ∃ r, Writer.write w s = some r ∧
          r.1.chunks = s.chunks ++
            [(s.pos, Chunk.oatHeader),
             (s.pos + sizeofOatHeader, Chunk.imageFileLocation input.imageFileLocation)] ∧
          r.2 = w.size ∧ r.1.pos = s.pos + w.size :=
  zeroModules_spec hdex himg hloc

theorem C7_amended_witness :
    i0.dexFiles = [] ∧ i0.isImage = false ∧ i0.imageFileLocation ≠ [] ∧
    ∃ w, mkWriter i0 = some w ∧
      w.size = roundUp (sizeofOatHeader + i0.imageFileLocation.length) kPageSize ∧
      ∀ s : OutStream, s.budget = none →
        ∃ r, Writer.write w s = some r ∧
          r.1.chunks = s.chunks ++
            [(s.pos, Chunk.oatHeader),
             (s.pos + sizeofOatHeader, Chunk.imageFileLocation i0.imageFileLocation)] ∧
          r.2 = w.size ∧ r.1.pos = s.pos + w.size :=
  ⟨rfl, rfl, by decide, C7_amended_zero_modules rfl rfl (by decide)⟩

/-- C8 counterexample: the running checksum does NOT cover every
committed byte — on `i1` the raw module bytes are written to the stream
but never folded into the checksum (`OatDexFile::UpdateChecksum`
checksums only descriptor fields, and `OatClass::UpdateChecksum` is never
invoked), refuting "updated for every byte that is part of the committed
output — including ... embedded raw module bytes ...". -/
theorem C8_counterexample :
    mkWriter i1 = some (writerOf i1) ∧
    Writer.write (writerOf i1) emptyStream = some (writeResultOf i1) ∧
    (100, Chunk.dexContents [7, 7, 7, 7]) ∈ (writeResultOf i1).1.chunks ∧
    Chunk.dexContents [7, 7, 7, 7] ∉ (writerOf i1).checksum :=
  ⟨rfl, rfl, by decide, by decide⟩

/-- C8 (amended): the chunks a successful write emits whose kinds the
checksum covers — module-descriptor fields, first-occurrence method
headers, code bodies and side-table blobs — are exactly, in order, the
running-checksum trace of pass 1; the header itself, the inline location,
raw module bytes, class-descriptor fields, alignment padding and
trampoline stubs are excluded. -/
theorem C8_amended_checksum_trace {input : OatInput} {w : Writer}
    {s : OutStream} {res : OutStream × Nat}
    (hmk : mkWriter input = some w) (hwr : Writer.write w s = some res) :
    ∃ L, res.1.chunks = s.chunks ++ L ∧
      ((L.map Prod.snd).filter fun c => !c.checksumExcluded) = w.checksum := by
  obtain ⟨-, -, L, hc, hf, -⟩ := write_spec hmk hwr
  exact ⟨L, hc, hf⟩

theorem C8_amended_witness :
    mkWriter i1 = some (writerOf i1) ∧
    Writer.write (writerOf i1) emptyStream = some (writeResultOf i1) ∧
    ∃ L, (writeResultOf i1).1.chunks = emptyStream.chunks ++ L ∧
      ((L.map Prod.snd).filter fun c => !c.checksumExcluded) = (writerOf i1).checksum :=
  ⟨rfl, rfl,
    @C8_amended_checksum_trace i1 (writerOf i1) emptyStream (writeResultOf i1) rfl rfl⟩

/-- C9: fail-fast error propagation — a failing callback stops the
traversal at that exact event (nothing after it is delivered, whatever
events would have followed), the failure propagates out of
`ProcessDexMethods`, and the top-level write succeeds only if every one
of its stages succeeded. -/
theorem C9_fail_fast {σ : Type} (step : VisitEvent → σ → Option σ)
    (pre : List VisitEvent) (e : VisitEvent) (post : List VisitEvent)
    (s s' : σ)
    (hpre : (runEvents step pre s).2 = some s')
    (hfail : step e s' = none) :
    runEvents step (pre ++ e :: post) s = (pre ++ [e], none) ∧
    (∀ dexFiles, traversalEvents dexFiles = pre ++ e :: post →
      processDexMethods step dexFiles s = none) ∧
    (∀ (w : Writer) (s0 : OutStream) (r : OutStream × Nat),
      Writer.write w s0 = some r →
      ∃ sA sB sC pD, s0.writeFully Chunk.oatHeader = some sA ∧
        sA.writeFully (Chunk.imageFileLocation w.input.imageFileLocation) = some sB ∧
        writeTables w s0.pos sB = some sC ∧
        writeCode w s0.pos sC = some pD ∧
        writeCodeDexFiles w pD.2 pD.1 = some r) := by
  have htrace : (runEvents step pre s).1 = pre := by
    clear hfail
    induction pre generalizing s with
    | nil => rfl
    | cons e1 rest ih =>
      simp only [runEvents] at hpre ⊢
      cases hstep : step e1 s with
      | none =>
        rw [hstep] at hpre
        simp at hpre
      | some s1 =>
        rw [hstep] at hpre
        simp only [] at hpre ⊢
        rw [ih s1 hpre]
  have hmain : runEvents step (pre ++ e :: post) s = (pre ++ [e], none) := by
    rw [runEvents_append]
    cases hr : runEvents step pre s with
    | mk t1 o =>
      rw [hr] at hpre htrace
      simp only [] at hpre htrace
      subst hpre
      subst htrace
      simp only [runEvents, hfail]
  refine ⟨hmain, ?_, ?_⟩
  · intro dexFiles hev
    unfold processDexMethods
    rw [hev, hmain]
  · intro w s0 r h
    unfold Writer.write at h
    simp only [] at h
    cases hA : s0.writeFully Chunk.oatHeader with
    | none => rw [hA] at h; simp at h
    | some sA =>
      rw [hA] at h
      simp only [Option.bind_eq_bind, Option.some_bind] at h
      cases hB : sA.writeFully (Chunk.imageFileLocation w.input.imageFileLocation) with
      | none => rw [hB] at h; simp at h
      | some sB =>
        rw [hB] at h
        simp only [Option.bind_eq_bind, Option.some_bind] at h
        cases hC : writeTables w s0.pos sB with
        | none => rw [hC] at h; simp at h
        | some sC =>
          rw [hC] at h
          simp only [Option.bind_eq_bind, Option.some_bind] at h
          cases hD : writeCode w s0.pos sC with
          | none => rw [hD] at h; simp at h
          | some pD =>
            obtain ⟨sD, rel⟩ := pD
            rw [hD] at h
            simp only [Option.bind_eq_bind, Option.some_bind] at h
            exact ⟨sA, sB, sC, (sD, rel), rfl, hB, hC, hD, h⟩

theorem C9_witness :
    (runEvents
      (fun e (n : Nat) =>
        match e with
        | VisitEvent.endClass => none
        | _ => some (n + 1))
      [VisitEvent.startClass 0 0] 0).2 = some 1 ∧
    (fun e (n : Nat) =>
        match e with
        | VisitEvent.endClass => none
        | _ => some (n + 1) : VisitEvent → Nat → Option Nat) VisitEvent.endClass 1 =
      none ∧
    runEvents
      (fun e (n : Nat) =>
        match e with
        | VisitEvent.endClass => none
        | _ => some (n + 1))
      ([VisitEvent.startClass 0 0] ++ VisitEvent.endClass :: [VisitEvent.endClass]) 0 =
      ([VisitEvent.startClass 0 0] ++ [VisitEvent.endClass], none) :=
  ⟨rfl, rfl,
    (C9_fail_fast
      (fun e (n : Nat) =>
        match e with
        | VisitEvent.endClass => none
        | _ => some (n + 1))
      [VisitEvent.startClass 0 0] VisitEvent.endClass [VisitEvent.endClass]
      0 1 rfl rfl).1⟩
